import Mathlib

/-!
Verification development for the GraphAssignment repository: an undirected
weighted graph over adjacency lists (Graph.cpp / Graph.h), a bounded FIFO
queue and a bounded binary min-heap priority queue (Queue.cpp), a union-find
structure (UnionFind.cpp), and five graph algorithms (bfs, dfs, dijkstra,
prim, kruskal in the Algorithms translation unit).

Modelling conventions:
- C++ `int` is modelled as `Int` with the explicit sentinel `INTMAX`
  (2147483647); arithmetic whose C++ counterpart can overflow a 32-bit int
  is modelled by `cppAdd`, which signals undefined behaviour on overflow.
- Raw C++ arrays are modelled as Lean lists; an out-of-bounds access, which
  is undefined behaviour in the source, is modelled by the error `GErr.ub`.
- Every throw site of the source maps to a `GErr` constructor matching the
  exception message: "Vertex index out of bounds" to `outOfRange`,
  "Queue is full" / "Priority Queue is full" to `capacityExceeded`,
  "Queue is empty" / "Priority Queue is empty" to `emptyCollection`, and
  "Priority Queue capacity must be positive" to `invalidArgument`.
- Unbounded C++ loops (the algorithm main loops, the recursive union-find
  `find`, the recursive `dfs_visit`) take explicit fuel; exhausting the
  fuel yields `GErr.outOfFuel`, which is distinct from every behaviour the
  program itself can exhibit, so `= .ok _` hypotheses single out genuine
  terminating runs.
-/

namespace GA

/-- Error outcomes of the modelled operations. The first four match the
throw sites of the source; `ub` marks source-level undefined behaviour
(out-of-bounds raw array access, signed overflow, negative array `new`);
`outOfFuel` marks an artificial fuel exhaustion of the model only. -/
inductive GErr where
  | invalidArgument
  | outOfRange
  | capacityExceeded
  | emptyCollection
  | ub
  | outOfFuel
deriving DecidableEq, Repr

instance {ε α : Type} [DecidableEq ε] [DecidableEq α] : DecidableEq (Except ε α) := fun a b =>
  match a, b with
  | .error e, .error f =>
    if h : e = f then .isTrue (congrArg Except.error h)
    else .isFalse (fun hh => h (Except.error.inj hh))
  | .ok x, .ok y =>
    if h : x = y then .isTrue (congrArg Except.ok h)
    else .isFalse (fun hh => h (Except.ok.inj hh))
  | .error _, .ok _ => .isFalse Except.noConfusion
  | .ok _, .error _ => .isFalse Except.noConfusion

/-- The C++ `INT_MAX` constant from `<climits>`, used by dijkstra and prim
as the infinity sentinel. -/
def INTMAX : Int := 2147483647

/-- The C++ `INT_MIN` constant. -/
def INTMIN : Int := -2147483648

/-- Signed 32-bit addition: overflow is undefined behaviour in C++, so the
model reports `GErr.ub` whenever the mathematical sum leaves the `int`
range. -/
def cppAdd (a b : Int) : Except GErr Int :=
  if INTMIN ≤ a + b ∧ a + b ≤ INTMAX then .ok (a + b) else .error .ub

/-- Checked read of a raw C++ array modelled as a list: an index outside
`[0, length)` is undefined behaviour. -/
def readL (l : List α) (i : Int) : Except GErr α :=
  if h : 0 ≤ i ∧ i.toNat < l.length then .ok (l.get ⟨i.toNat, h.2⟩)
  else .error .ub

/-- Checked write of a raw C++ array modelled as a list: an index outside
`[0, length)` is undefined behaviour. -/
def writeL (l : List α) (i : Int) (v : α) : Except GErr (List α) :=
  if 0 ≤ i ∧ i.toNat < l.length then .ok (l.set i.toNat v)
  else .error .ub

/-- Swap of two (valid) array cells, mirroring `graph::swap` applied to
`a[i]` and `a[j]`; invalid indices leave the list unchanged (all call
sites of the source use valid indices). -/
def lswap (l : List α) (i j : Nat) : List α :=
  match l.get? i, l.get? j with
  | some a, some b => (l.set i b).set j a
  | _, _ => l

/-! ## Graph (Graph.cpp) -/

/-- The adjacency-list graph of `Graph.cpp`: `n` is `numVertices`, and
`adj` models `adjacencyList`, one list of `(vertex, weight)` nodes per
vertex, in list order (head first, i.e. most recently inserted first). -/
structure Graph where
  n : Int
  adj : List (List (Int × Int))
deriving DecidableEq, Repr

/-- `Graph::Graph(int vertices)`: stores `numVertices = vertices` and
allocates the adjacency array with every list empty. The source performs
no validation; `new Node*[v]` with negative `v` fails the allocation
(modelled as `ub`), and `v = 0` succeeds with an empty graph. -/
def Graph.construct (vertices : Int) : Except GErr Graph :=
  if vertices < 0 then .error .ub
  else .ok ⟨vertices, List.replicate vertices.toNat []⟩

/-- `Graph::getVertexCount`. -/
def Graph.getVertexCount (g : Graph) : Int := g.n

/-- Head insertion of one directed adjacency node, mirroring the two
`createNode` insertions of `Graph::addEdge`. -/
def addDirected (a : List (List (Int × Int))) (src dest weight : Int) :
    List (List (Int × Int)) :=
  a.set src.toNat ((dest, weight) :: a.getD src.toNat [])

/-- `Graph::addEdge(src, dest, weight)`: validates both endpoints against
`[0, numVertices)`, then head-inserts `(dest, weight)` into `src`'s list
and `(src, weight)` into `dest`'s list, in that order. -/
def Graph.addEdge (g : Graph) (src dest weight : Int) : Except GErr Graph :=
  if src < 0 ∨ src ≥ g.n ∨ dest < 0 ∨ dest ≥ g.n then .error .outOfRange
  else .ok ⟨g.n, addDirected (addDirected g.adj src dest weight) dest src weight⟩

/-- Removal of the first node with the given vertex field from one
adjacency list, mirroring the pointer-to-pointer loop of
`Graph::removeEdge`; if no node matches, the list is unchanged. -/
def removeFirst (dest : Int) : List (Int × Int) → List (Int × Int)
  | [] => []
  | p :: rest => if p.1 = dest then rest else p :: removeFirst dest rest

/-- Removal of one directed adjacency node (first match), one direction
of `Graph::removeEdge`. -/
def removeDirected (a : List (List (Int × Int))) (src dest : Int) :
    List (List (Int × Int)) :=
  a.set src.toNat (removeFirst dest (a.getD src.toNat []))

/-- `Graph::removeEdge(src, dest)`: validates both endpoints, removes the
first `dest` node from `src`'s list, then the first `src` node from
`dest`'s list. -/
def Graph.removeEdge (g : Graph) (src dest : Int) : Except GErr Graph :=
  if src < 0 ∨ src ≥ g.n ∨ dest < 0 ∨ dest ≥ g.n then .error .outOfRange
  else .ok ⟨g.n, removeDirected (removeDirected g.adj src dest) dest src⟩

/-- `Graph::getNeighbors(vertex, count)`: validates the vertex and returns
a snapshot of its adjacency list, head first. -/
def Graph.getNeighbors (g : Graph) (vertex : Int) :
    Except GErr (List (Int × Int)) :=
  if vertex < 0 ∨ vertex ≥ g.n then .error .outOfRange
  else .ok (g.adj.getD vertex.toNat [])

/-- Total number of directed adjacency entries of a graph, i.e. the count
obtained by summing the neighbor count of every vertex. -/
def Graph.entryCount (g : Graph) : Nat :=
  (g.adj.map List.length).sum

/-- Sequence of `addEdge` calls against a graph, mirroring how a caller
builds a graph through the public API. -/
def addEdges (g : Graph) : List (Int × Int × Int) → Except GErr Graph
  | [] => .ok g
  | (u, v, w) :: rest =>
    match g.addEdge u v w with
    | .error e => .error e
    | .ok g' => addEdges g' rest

/-- A graph built through the public API: `Graph::Graph(n)` followed by a
sequence of `addEdge` calls. -/
def buildGraph (n : Int) (ops : List (Int × Int × Int)) : Except GErr Graph :=
  match Graph.construct n with
  | .error e => .error e
  | .ok g0 => addEdges g0 ops

/-! ## Queue (Queue.cpp, first unit) -/

/-- The bounded FIFO queue of `Queue.cpp`. The circular buffer with its
`front`/`rear`/`count` indices is modelled by the queue's contents in FIFO
order (`data`, front first) together with the fixed `capacity`; `count` is
`data.length`. -/
structure Queue where
  capacity : Int
  data : List Int
deriving DecidableEq, Repr

/-- `Queue::Queue(int size)`: no validation in the source; `new int[size]`
with negative `size` fails the allocation (modelled as `ub`), and
`size = 0` succeeds. -/
def Queue.construct (size : Int) : Except GErr Queue :=
  if size < 0 then .error .ub else .ok ⟨size, []⟩

/-- `Queue::enqueue`: throws "Queue is full" when `count == capacity`,
otherwise appends at the rear. -/
def Queue.enqueue (q : Queue) (value : Int) : Except GErr Queue :=
  if (q.data.length : Int) = q.capacity then .error .capacityExceeded
  else .ok ⟨q.capacity, q.data ++ [value]⟩

/-- `Queue::dequeue`: throws "Queue is empty" when empty, otherwise
removes and returns the front element. -/
def Queue.dequeue (q : Queue) : Except GErr (Int × Queue) :=
  match q.data with
  | [] => .error .emptyCollection
  | x :: rest => .ok (x, ⟨q.capacity, rest⟩)

/-- `Queue::isEmpty`. -/
def Queue.isEmpty (q : Queue) : Bool := q.data.length = 0

/-! ## PriorityQueue (Queue.cpp, second unit) -/

/-- The bounded binary min-heap of `PriorityQueue`. The fixed backing
array with its logical `size` is modelled by the first `size` cells
(`heap`, a list of `(value, priority)` pairs in array order) together with
the fixed `capacity`. -/
structure PQ where
  capacity : Int
  heap : List (Int × Int)
deriving DecidableEq, Repr

/-- `PriorityQueue::PriorityQueue(int cap)`: throws
"Priority Queue capacity must be positive" when `cap <= 0`. -/
def PQ.construct (cap : Int) : Except GErr PQ :=
  if cap ≤ 0 then .error .invalidArgument else .ok ⟨cap, []⟩

/-- Fueled form of `PriorityQueue::heapifyUp(i)`: while not at the root
and the element's priority is strictly below its parent's, swap with the
parent. The index strictly decreases, so `i + 1` fuel always suffices. -/
def PQ.heapifyUpF : Nat → List (Int × Int) → Nat → List (Int × Int)
  | 0, l, _ => l
  | fuel + 1, l, i =>
    if 0 < i ∧ (l.getD i (0, 0)).2 < (l.getD ((i - 1) / 2) (0, 0)).2 then
      PQ.heapifyUpF fuel (lswap l i ((i - 1) / 2)) ((i - 1) / 2)
    else l

/-- `PriorityQueue::heapifyUp(i)` (with its always-sufficient fuel). -/
def PQ.heapifyUp (l : List (Int × Int)) (i : Nat) : List (Int × Int) :=
  PQ.heapifyUpF (i + 1) l i

/-- `PriorityQueue::insert(value, priority)`: throws "Priority Queue is
full" when `size == capacity`, otherwise writes the element at index
`size`, sifts it up, and increments `size`. -/
def PQ.insert (q : PQ) (value priority : Int) : Except GErr PQ :=
  if (q.heap.length : Int) = q.capacity then .error .capacityExceeded
  else .ok ⟨q.capacity, PQ.heapifyUp (q.heap ++ [(value, priority)]) q.heap.length⟩

/-- Length of `lswap` (needed for termination of `heapifyDown`). -/
theorem lswap_length (l : List α) (i j : Nat) : (lswap l i j).length = l.length := by
  unfold lswap
  cases h1 : l.get? i <;> cases h2 : l.get? j <;> simp

/-- Index of the smallest-priority node among `i` and its two children,
computed exactly as the body of `PriorityQueue::heapifyDown` computes
`smallest`. -/
def minChild1 (l : List (Int × Int)) (i : Nat) : Nat :=
  if 2 * i + 1 < l.length ∧ (l.getD (2 * i + 1) (0, 0)).2 < (l.getD i (0, 0)).2
    then 2 * i + 1 else i

/-- Second comparison of `heapifyDown`, against the right child. -/
def minChild (l : List (Int × Int)) (i : Nat) : Nat :=
  if 2 * i + 2 < l.length ∧
      (l.getD (2 * i + 2) (0, 0)).2 < (l.getD (minChild1 l i) (0, 0)).2
    then 2 * i + 2 else minChild1 l i

/-- The intermediate `smallest` index is `i` itself or a strictly larger
index inside the array. -/
theorem minChild1_cases (l : List (Int × Int)) (i : Nat) :
    minChild1 l i = i ∨ (i < minChild1 l i ∧ minChild1 l i < l.length) := by
  unfold minChild1
  split
  · next h => right; exact ⟨by omega, h.1⟩
  · left; rfl

/-- The `smallest` index is either `i` itself or a strictly larger index
inside the array. -/
theorem minChild_cases (l : List (Int × Int)) (i : Nat) :
    minChild l i = i ∨ (i < minChild l i ∧ minChild l i < l.length) := by
  unfold minChild
  split
  · next h => right; exact ⟨by omega, h.1⟩
  · exact minChild1_cases l i

/-- Fueled form of `PriorityQueue::heapifyDown(i)`: find the child with
minimum priority; if a child beats the current node, swap and continue
there. The index strictly increases below the array length, so
`l.length` fuel always suffices. -/
def PQ.heapifyDownF : Nat → List (Int × Int) → Nat → List (Int × Int)
  | 0, l, _ => l
  | fuel + 1, l, i =>
    if minChild l i ≠ i then
      PQ.heapifyDownF fuel (lswap l i (minChild l i)) (minChild l i)
    else l

/-- `PriorityQueue::heapifyDown(i)` (with its always-sufficient fuel). -/
def PQ.heapifyDown (l : List (Int × Int)) (i : Nat) : List (Int × Int) :=
  PQ.heapifyDownF l.length l i

/-- `PriorityQueue::extractMin()`: throws "Priority Queue is empty" when
`size == 0`; otherwise returns the root value, moves the last element to
the root, shrinks the size, and sifts down from the root. -/
def PQ.extractMin (q : PQ) : Except GErr (Int × PQ) :=
  match q.heap with
  | [] => .error .emptyCollection
  | top :: _ =>
    let last := q.heap.getD (q.heap.length - 1) (0, 0)
    let shrunk := (q.heap.set 0 last).dropLast
    .ok (top.1, ⟨q.capacity, PQ.heapifyDown shrunk 0⟩)

/-- `PriorityQueue::isEmpty`. -/
def PQ.isEmpty (q : PQ) : Bool := q.heap.length = 0

/-! ## UnionFind (UnionFind.cpp) -/

/-- The union-find structure of `UnionFind.cpp`: `parent` and `rank`
arrays over a fixed universe of `size` elements. -/
structure UF where
  parent : List Int
  rank : List Int
deriving DecidableEq, Repr

/-- `UnionFind::UnionFind(int s)`: no validation in the source; each
element starts as its own root with rank 0. A negative size fails the
allocation (modelled as `ub`). -/
def UF.construct (s : Int) : Except GErr UF :=
  if s < 0 then .error .ub
  else .ok ⟨(List.range s.toNat).map Int.ofNat, List.replicate s.toNat 0⟩

/-- `UnionFind::find(a)` with fuel for the recursion: reads `parent[a]`
(no bounds check in the source, so invalid indices are `ub`), recursively
resolves the root while compressing the path, and returns the root. -/
def UF.find : Nat → UF → Int → Except GErr (UF × Int)
  | 0, _, _ => .error .outOfFuel
  | fuel + 1, uf, a =>
    match readL uf.parent a with
    | .error e => .error e
    | .ok pa =>
      if pa ≠ a then
        match UF.find fuel uf pa with
        | .error e => .error e
        | .ok (uf', r) =>
          match writeL uf'.parent a r with
          | .error e => .error e
          | .ok p' => .ok (⟨p', uf'.rank⟩, r)
      else .ok (uf, a)

/-- `UnionFind::unite(a, b)`: find both roots; if distinct, attach the
lower-rank root under the higher-rank one, and on equal ranks make
`rootA` the root and increment its rank. -/
def UF.unite (fuel : Nat) (uf : UF) (a b : Int) : Except GErr UF :=
  match UF.find fuel uf a with
  | .error e => .error e
  | .ok (uf1, rootA) =>
    match UF.find fuel uf1 b with
    | .error e => .error e
    | .ok (uf2, rootB) =>
      if rootA ≠ rootB then
        match readL uf2.rank rootA, readL uf2.rank rootB with
        | .ok ra, .ok rb =>
          if ra < rb then
            match writeL uf2.parent rootA rootB with
            | .error e => .error e
            | .ok p' => .ok ⟨p', uf2.rank⟩
          else if ra > rb then
            match writeL uf2.parent rootB rootA with
            | .error e => .error e
            | .ok p' => .ok ⟨p', uf2.rank⟩
          else
            match writeL uf2.parent rootB rootA with
            | .error e => .error e
            | .ok p' =>
              match writeL uf2.rank rootA (ra + 1) with
              | .error e => .error e
              | .ok r' => .ok ⟨p', r'⟩
        | .error e, _ => .error e
        | _, .error e => .error e
      else .ok uf2

/-! ## Algorithms (the Algorithms translation unit) -/

/-- Signed 32-bit subtraction: overflow is undefined behaviour in C++, so
the model reports `GErr.ub` when the difference leaves the `int` range. -/
def cppSub (a b : Int) : Except GErr Int :=
  if INTMIN ≤ a - b ∧ a - b ≤ INTMAX then .ok (a - b) else .error .ub

/-- Inner neighbor loop of `Algorithms::bfs`: for each neighbor `(v, w)`
of `u`, when `v` is not visited, mark it visited, add the tree edge
`(u, v, w)`, and enqueue `v`, in that order. -/
def bfsScan (u : Int) : List (Int × Int) → Graph → List Bool → Queue →
    Except GErr (Graph × List Bool × Queue)
  | [], tree, visited, q => .ok (tree, visited, q)
  | (v, w) :: rest, tree, visited, q =>
    match readL visited v with
    | .error e => .error e
    | .ok vis =>
      if vis then bfsScan u rest tree visited q
      else
        match writeL visited v true with
        | .error e => .error e
        | .ok visited' =>
          match tree.addEdge u v w with
          | .error e => .error e
          | .ok tree' =>
            match q.enqueue v with
            | .error e => .error e
            | .ok q' => bfsScan u rest tree' visited' q'

/-- Main loop of `Algorithms::bfs`: while the queue is nonempty, dequeue
`u`, fetch its neighbor snapshot, and run the inner loop. -/
def bfsLoop : Nat → Graph → Graph → List Bool → Queue → Except GErr Graph
  | 0, _, tree, _, q => if q.isEmpty then .ok tree else .error .outOfFuel
  | fuel + 1, g, tree, visited, q =>
    if q.isEmpty then .ok tree
    else
      match q.dequeue with
      | .error e => .error e
      | .ok (u, q') =>
        match g.getNeighbors u with
        | .error e => .error e
        | .ok nbrs =>
          match bfsScan u nbrs tree visited q' with
          | .error e => .error e
          | .ok (tree', visited', q'') => bfsLoop fuel g tree' visited' q''

/-- `Algorithms::bfs(g, start)`: builds the result tree, the zeroed
`visited` array and the queue of capacity `n`, then writes
`visited[start] = true` (no prior validation of `start` in the source),
enqueues `start` and runs the main loop. -/
def Algorithms.bfs (fuel : Nat) (g : Graph) (start : Int) : Except GErr Graph :=
  match Graph.construct g.n with
  | .error e => .error e
  | .ok tree =>
    let visited := List.replicate g.n.toNat false
    match Queue.construct g.n with
    | .error e => .error e
    | .ok q =>
      match writeL visited start true with
      | .error e => .error e
      | .ok visited' =>
        match q.enqueue start with
        | .error e => .error e
        | .ok q' => bfsLoop fuel g tree visited' q'

/-- Inner neighbor loop of `dfs_visit`, parameterized by the recursive
visit (`dfs_visit` with one unit of fuel less): for each unvisited
neighbor, add the tree edge and recurse into the neighbor. -/
def dfsScanF (u : Int)
    (visit : Int → List Bool → Graph → Except GErr (List Bool × Graph)) :
    List (Int × Int) → List Bool → Graph → Except GErr (List Bool × Graph)
  | [], visited, tree => .ok (visited, tree)
  | (v, w) :: rest, visited, tree =>
    match readL visited v with
    | .error e => .error e
    | .ok vis =>
      if vis then dfsScanF u visit rest visited tree
      else
        match tree.addEdge u v w with
        | .error e => .error e
        | .ok tree' =>
          match visit v visited tree' with
          | .error e => .error e
          | .ok (visited'', tree'') => dfsScanF u visit rest visited'' tree''

/-- `dfs_visit(g, u, visited, tree)`: mark `u` visited on entry, then scan
its neighbor snapshot. -/
def dfsVisit : Nat → Graph → Int → List Bool → Graph →
    Except GErr (List Bool × Graph)
  | 0, _, _, _, _ => .error .outOfFuel
  | fuel + 1, g, u, visited, tree =>
    match writeL visited u true with
    | .error e => .error e
    | .ok visited' =>
      match g.getNeighbors u with
      | .error e => .error e
      | .ok nbrs => dfsScanF u (dfsVisit fuel g) nbrs visited' tree

/-- `Algorithms::dfs(g, start)`: allocates the result tree and the zeroed
`visited` array, then calls `dfs_visit` on `start` (no validation of
`start` in the source). -/
def Algorithms.dfs (fuel : Nat) (g : Graph) (start : Int) : Except GErr Graph :=
  match Graph.construct g.n with
  | .error e => .error e
  | .ok tree =>
    let visited := List.replicate g.n.toNat false
    match dfsVisit fuel g start visited tree with
    | .error e => .error e
    | .ok (_, tree') => .ok tree'

/-- Inner relaxation loop of `Algorithms::dijkstra`: for each neighbor
`(v, w)` of `u`, when `dist[u] + w < dist[v]`, set `dist[v]`, set
`prev[v] = u`, and insert `(v, dist[v])` into the priority queue.
`dist[u]` is re-read on every iteration, as in the source. -/
def relaxScan (u : Int) : List (Int × Int) → List Int → List Int → PQ →
    Except GErr (List Int × List Int × PQ)
  | [], dist, prev, pq => .ok (dist, prev, pq)
  | (v, w) :: rest, dist, prev, pq =>
    match readL dist u with
    | .error e => .error e
    | .ok du =>
      match cppAdd du w with
      | .error e => .error e
      | .ok s =>
        match readL dist v with
        | .error e => .error e
        | .ok dv =>
          if s < dv then
            match writeL dist v s with
            | .error e => .error e
            | .ok dist' =>
              match writeL prev v u with
              | .error e => .error e
              | .ok prev' =>
                match pq.insert v s with
                | .error e => .error e
                | .ok pq' => relaxScan u rest dist' prev' pq'
          else relaxScan u rest dist prev pq

/-- Main loop of `Algorithms::dijkstra`: while the priority queue is
nonempty, extract the minimum and relax its neighbor snapshot. -/
def dijkstraLoop : Nat → Graph → List Int → List Int → PQ →
    Except GErr (List Int × List Int)
  | 0, _, dist, prev, pq => if pq.isEmpty then .ok (dist, prev) else .error .outOfFuel
  | fuel + 1, g, dist, prev, pq =>
    if pq.isEmpty then .ok (dist, prev)
    else
      match pq.extractMin with
      | .error e => .error e
      | .ok (u, pq') =>
        match g.getNeighbors u with
        | .error e => .error e
        | .ok nbrs =>
          match relaxScan u nbrs dist prev pq' with
          | .error e => .error e
          | .ok (dist', prev', pq'') => dijkstraLoop fuel g dist' prev' pq''

/-- Final loop of `Algorithms::dijkstra`: for every vertex `v` with
`prev[v] != -1`, add the edge `(prev[v], v, dist[v] - dist[prev[v]])` to
the result tree. -/
def buildDijkstraList (dist prev : List Int) : List Nat → Graph → Except GErr Graph
  | [], tree => .ok tree
  | v :: rest, tree =>
    match readL prev (v : Int) with
    | .error e => .error e
    | .ok pv =>
      if pv ≠ -1 then
        match readL dist (v : Int) with
        | .error e => .error e
        | .ok dv =>
          match readL dist pv with
          | .error e => .error e
          | .ok dpv =>
            match cppSub dv dpv with
            | .error e => .error e
            | .ok w =>
              match tree.addEdge pv (v : Int) w with
              | .error e => .error e
              | .ok tree' => buildDijkstraList dist prev rest tree'
      else buildDijkstraList dist prev rest tree

/-- `Algorithms::dijkstra(g, start)`, exposing the final `dist` and
`prev` arrays together with the result tree: allocates the tree, fills
`dist` with `INT_MAX` and `prev` with `-1`, writes `dist[start] = 0` (no
prior validation of `start` in the source), builds the priority queue of
capacity `n`, inserts `(start, 0)`, runs the main loop, and finally
builds the result tree from `prev` and `dist`. -/
def Algorithms.dijkstraFull (fuel : Nat) (g : Graph) (start : Int) :
    Except GErr (List Int × List Int × Graph) :=
  match Graph.construct g.n with
  | .error e => .error e
  | .ok tree0 =>
    let dist := List.replicate g.n.toNat INTMAX
    let prev := List.replicate g.n.toNat (-1)
    match writeL dist start 0 with
    | .error e => .error e
    | .ok dist0 =>
      match PQ.construct g.n with
      | .error e => .error e
      | .ok pq0 =>
        match pq0.insert start 0 with
        | .error e => .error e
        | .ok pq1 =>
          match dijkstraLoop fuel g dist0 prev pq1 with
          | .error e => .error e
          | .ok (dist', prev') =>
            match buildDijkstraList dist' prev' (List.range g.n.toNat) tree0 with
            | .error e => .error e
            | .ok tree => .ok (dist', prev', tree)

/-- `Algorithms::dijkstra(g, start)` (result tree only). -/
def Algorithms.dijkstra (fuel : Nat) (g : Graph) (start : Int) : Except GErr Graph :=
  match Algorithms.dijkstraFull fuel g start with
  | .error e => .error e
  | .ok (_, _, tree) => .ok tree

/-- Inner relaxation loop of `Algorithms::prim`: for each neighbor
`(v, w)` of `u`, when `!inMST[v] && w < key[v]`, set `key[v] = w`,
`parent[v] = u`, and insert `(v, key[v])`. The short-circuit of `&&` is
modelled: `key[v]` is read only when `inMST[v]` is false. -/
def primScan (u : Int) : List (Int × Int) → List Bool → List Int → List Int → PQ →
    Except GErr (List Int × List Int × PQ)
  | [], _, key, parent, pq => .ok (key, parent, pq)
  | (v, w) :: rest, inMST, key, parent, pq =>
    match readL inMST v with
    | .error e => .error e
    | .ok m =>
      if m then primScan u rest inMST key parent pq
      else
        match readL key v with
        | .error e => .error e
        | .ok kv =>
          if w < kv then
            match writeL key v w with
            | .error e => .error e
            | .ok key' =>
              match writeL parent v u with
              | .error e => .error e
              | .ok parent' =>
                match pq.insert v w with
                | .error e => .error e
                | .ok pq' => primScan u rest inMST key' parent' pq'
          else primScan u rest inMST key parent pq

/-- Main loop of `Algorithms::prim`: while the priority queue is
nonempty, extract the minimum `u`, mark `inMST[u]`, and relax the
neighbor snapshot of `u`. -/
def primLoop : Nat → Graph → List Bool → List Int → List Int → PQ →
    Except GErr (List Bool × List Int × List Int)
  | 0, _, inMST, key, parent, pq =>
    if pq.isEmpty then .ok (inMST, key, parent) else .error .outOfFuel
  | fuel + 1, g, inMST, key, parent, pq =>
    if pq.isEmpty then .ok (inMST, key, parent)
    else
      match pq.extractMin with
      | .error e => .error e
      | .ok (u, pq') =>
        match writeL inMST u true with
        | .error e => .error e
        | .ok inMST' =>
          match g.getNeighbors u with
          | .error e => .error e
          | .ok nbrs =>
            match primScan u nbrs inMST' key parent pq' with
            | .error e => .error e
            | .ok (key', parent', pq'') => primLoop fuel g inMST' key' parent' pq''

/-- Final loop of `Algorithms::prim`: for every vertex `v` in `1..n-1`
with `parent[v] != -1`, add the edge `(parent[v], v, key[v])`. -/
def buildPrimList (key parent : List Int) : List Nat → Graph → Except GErr Graph
  | [], tree => .ok tree
  | v :: rest, tree =>
    match readL parent (v : Int) with
    | .error e => .error e
    | .ok pv =>
      if pv ≠ -1 then
        match readL key (v : Int) with
        | .error e => .error e
        | .ok kv =>
          match tree.addEdge pv (v : Int) kv with
          | .error e => .error e
          | .ok tree' => buildPrimList key parent rest tree'
      else buildPrimList key parent rest tree

/-- `Algorithms::prim(g)`, exposing the final `key` and `parent` arrays
together with the result tree: allocates the tree and the `inMST`, `key`,
`parent` arrays, writes `key[0] = 0`, builds the priority queue of
capacity `n`, inserts `(0, 0)`, runs the main loop, and builds the tree
from `parent` and `key` over vertices `1..n-1`. -/
def Algorithms.primFull (fuel : Nat) (g : Graph) :
    Except GErr (List Int × List Int × Graph) :=
  match Graph.construct g.n with
  | .error e => .error e
  | .ok tree0 =>
    let inMST := List.replicate g.n.toNat false
    let key := List.replicate g.n.toNat INTMAX
    let parent := List.replicate g.n.toNat (-1)
    match writeL key 0 0 with
    | .error e => .error e
    | .ok key0 =>
      match PQ.construct g.n with
      | .error e => .error e
      | .ok pq0 =>
        match pq0.insert 0 0 with
        | .error e => .error e
        | .ok pq1 =>
          match primLoop fuel g inMST key0 parent pq1 with
          | .error e => .error e
          | .ok (_, key', parent') =>
            match buildPrimList key' parent' ((List.range g.n.toNat).drop 1) tree0 with
            | .error e => .error e
            | .ok tree => .ok (key', parent', tree)

/-- `Algorithms::prim(g)` (result tree only). -/
def Algorithms.prim (fuel : Nat) (g : Graph) : Except GErr Graph :=
  match Algorithms.primFull fuel g with
  | .error e => .error e
  | .ok (_, _, tree) => .ok tree

/-- Inner neighbor loop of the edge collection of `Algorithms::kruskal`:
keep `(w, u, v)` for entries with `u < v`; writing past the fixed
500-entry `edges` array is undefined behaviour. -/
def collectScan (u : Nat) : List (Int × Int) → List (Int × Int × Int) →
    Except GErr (List (Int × Int × Int))
  | [], es => .ok es
  | (v, w) :: rest, es =>
    if (u : Int) < v then
      if es.length ≥ 500 then .error .ub
      else collectScan u rest (es ++ [(w, (u : Int), v)])
    else collectScan u rest es

/-- Outer loop of the edge collection of `Algorithms::kruskal`: scan the
neighbor snapshot of every vertex in increasing order. -/
def collectAll (g : Graph) : List Nat → List (Int × Int × Int) →
    Except GErr (List (Int × Int × Int))
  | [], es => .ok es
  | u :: rest, es =>
    match g.getNeighbors (u : Int) with
    | .error e => .error e
    | .ok nbrs =>
      match collectScan u nbrs es with
      | .error e => .error e
      | .ok es' => collectAll g rest es'

/-- One comparison-and-swap step of the bubble sort of
`Algorithms::kruskal`: swap `edges[i]` and `edges[j]` when
`edges[j].w < edges[i].w`. -/
def ssSwap (es : List (Int × Int × Int)) (i j : Nat) : List (Int × Int × Int) :=
  if (es.getD j (0, 0, 0)).1 < (es.getD i (0, 0, 0)).1 then lswap es i j else es

/-- The comparison-and-swap step preserves the length of the edge array. -/
theorem ssSwap_length (es : List (Int × Int × Int)) (i j : Nat) :
    (ssSwap es i j).length = es.length := by
  unfold ssSwap
  split <;> simp [lswap_length]

/-- Fueled inner loop of the bubble sort of `Algorithms::kruskal`: for
fixed `i`, run the comparison-and-swap step for every `j` above `i`.
The counter `j` strictly increases below the (fixed) array length, so
`es.length` fuel always suffices. -/
def ssInnerF : Nat → List (Int × Int × Int) → Nat → Nat → List (Int × Int × Int)
  | 0, es, _, _ => es
  | fuel + 1, es, i, j =>
    if j < es.length then ssInnerF fuel (ssSwap es i j) i (j + 1)
    else es

/-- Inner loop of the bubble sort (with its always-sufficient fuel). -/
def ssInner (es : List (Int × Int × Int)) (i j : Nat) : List (Int × Int × Int) :=
  ssInnerF es.length es i j

/-- The fueled inner sorting loop preserves the length of the edge
array. -/
theorem ssInnerF_length (fuel : Nat) :
    ∀ (es : List (Int × Int × Int)) (i j : Nat),
      (ssInnerF fuel es i j).length = es.length := by
  induction fuel with
  | zero => intro es i j; rfl
  | succ fuel ih =>
    intro es i j
    show (if j < es.length then ssInnerF fuel (ssSwap es i j) i (j + 1)
      else es).length = es.length
    split
    · rw [ih, ssSwap_length]
    · rfl

/-- The inner sorting loop preserves the length of the edge array. -/
theorem ssInner_length (es : List (Int × Int × Int)) (i j : Nat) :
    (ssInner es i j).length = es.length :=
  ssInnerF_length es.length es i j

/-- Fueled outer loop of the bubble sort of `Algorithms::kruskal`. The
counter `i` strictly increases below the (invariant) array length, so
`es.length` fuel always suffices. -/
def ssOuterF : Nat → List (Int × Int × Int) → Nat → List (Int × Int × Int)
  | 0, es, _ => es
  | fuel + 1, es, i =>
    if i < es.length then ssOuterF fuel (ssInner es i (i + 1)) (i + 1)
    else es

/-- Outer loop of the bubble sort (with its always-sufficient fuel). -/
def ssOuter (es : List (Int × Int × Int)) (i : Nat) : List (Int × Int × Int) :=
  ssOuterF es.length es i

/-- Final loop of `Algorithms::kruskal`: walk the sorted edges; when the
endpoints have distinct union-find roots, add the edge to the result tree
and unite the two sets. `ff` is the fuel for each recursive `find`. -/
def kruskalProcess (ff : Nat) : List (Int × Int × Int) → UF → Graph →
    Except GErr (UF × Graph)
  | [], uf, tree => .ok (uf, tree)
  | (w, u, v) :: rest, uf, tree =>
    match UF.find ff uf u with
    | .error e => .error e
    | .ok (uf1, ru) =>
      match UF.find ff uf1 v with
      | .error e => .error e
      | .ok (uf2, rv) =>
        if ru ≠ rv then
          match tree.addEdge u v w with
          | .error e => .error e
          | .ok tree' =>
            match UF.unite ff uf2 u v with
            | .error e => .error e
            | .ok uf3 => kruskalProcess ff rest uf3 tree'
        else kruskalProcess ff rest uf2 tree

/-- `Algorithms::kruskal(g)`: allocates the result tree and the
union-find structure, collects every adjacency entry with `u < v` into
the bounded edge array, bubble-sorts it by weight, and processes the
edges in sorted order. -/
def Algorithms.kruskal (ff : Nat) (g : Graph) : Except GErr Graph :=
  match Graph.construct g.n with
  | .error e => .error e
  | .ok tree0 =>
    match UF.construct g.n with
    | .error e => .error e
    | .ok uf0 =>
      match collectAll g (List.range g.n.toNat) [] with
      | .error e => .error e
      | .ok es =>
        match kruskalProcess ff (ssOuter es 0) uf0 tree0 with
        | .error e => .error e
        | .ok (_, tree) => .ok tree

/-! ## Derived checks and concrete example graphs -/

/-- Does the neighbor snapshot of `u` contain the entry `(v, w)`? -/
def containsEntry (g : Graph) (u v w : Int) : Bool :=
  match g.getNeighbors u with
  | .error _ => false
  | .ok l => l.any (fun p => p.1 == v && p.2 == w)

/-- Does the neighbor snapshot of `u` contain any entry towards `v`? -/
def touches (g : Graph) (u v : Int) : Bool :=
  match g.getNeighbors u with
  | .error _ => false
  | .ok l => l.any (fun p => p.1 == v)

/-- Every stored edge weight of the graph is non-negative. -/
def allWeightsNonneg (g : Graph) : Bool :=
  g.adj.all (fun l => l.all (fun p => 0 ≤ p.2))

/-- The reference triangle graph of the spec: vertices 0,1,2 and edges
`(0,1,1)`, `(1,2,2)`, `(0,2,5)` added in that order. -/
def triG : Graph :=
  ⟨3, [[(2, 5), (1, 1)], [(2, 2), (0, 1)], [(0, 5), (1, 2)]]⟩

/-- A connected 2-vertex graph with three parallel edges of weights
1, 3, 5 added in that order, so that relaxation sees them in the order
5, 3, 1 (the adjacency lists are head-inserted). -/
def par2G : Graph :=
  ⟨2, [[(1, 5), (1, 3), (1, 1)], [(0, 5), (0, 3), (0, 1)]]⟩

/-- A connected 2-vertex graph whose single edge has weight `INT_MAX`:
the relaxation test `dist[u] + w < dist[v]` compares `INT_MAX` against
the `INT_MAX` sentinel and never fires. -/
def satG : Graph :=
  ⟨2, [[(1, INTMAX)], [(0, INTMAX)]]⟩

/-- Basic shape well-formedness of a graph value: a non-negative vertex
count and an adjacency array of exactly that length. Every graph
reachable through the public API satisfies this. -/
def Graph.wfBasic (g : Graph) : Prop :=
  0 ≤ g.n ∧ g.adj.length = g.n.toNat

instance (g : Graph) : Decidable g.wfBasic :=
  inferInstanceAs (Decidable (0 ≤ g.n ∧ g.adj.length = g.n.toNat))

/-- Number of copies of the adjacency entry `(v, w)` in `u`'s list. -/
def pairCount (g : Graph) (u v w : Int) : Nat :=
  (g.adj.getD u.toNat []).count (v, w)

/-- Pure (capacity-free) form of the inner edge-collection loop of
`Algorithms::kruskal` on one neighbor snapshot: the `(w, u, v)` records
with `u < v`, in snapshot order. -/
def pureScan (u : Nat) (l : List (Int × Int)) : List (Int × Int × Int) :=
  l.filterMap (fun p => if (u : Int) < p.1 then some (p.2, (u : Int), p.1) else none)

/-- Pure form of the whole edge collection of `Algorithms::kruskal`: scan
every vertex in increasing order. -/
def pureCollect (g : Graph) : List (Int × Int × Int) :=
  (List.range g.n.toNat).flatMap (fun i => pureScan i (g.adj.getD i []))

/-- View of a collected `(w, u, v)` record as the undirected edge
`(u, v, w)`. -/
def edgeKey (e : Int × Int × Int) : Int × Int × Int := (e.2.1, e.2.2, e.1)

/-- View of an `addEdge(u, v, w)` call as the normalized undirected edge
`(min u v, max u v, w)`. -/
def opKey (op : Int × Int × Int) : Int × Int × Int :=
  (min op.1 op.2.1, max op.1 op.2.1, op.2.2)

/-- Contribution of one `addEdge` call to the collected-edge multiset: a
self-loop contributes nothing (the `u < v` filter discards both stored
directions), any other edge contributes its normalized record once. -/
def opEdge (op : Int × Int × Int) : Multiset (Int × Int × Int) :=
  if op.1 = op.2.1 then 0 else {(op.2.2, min op.1 op.2.1, max op.1 op.2.1)}

/-- The min-heap order invariant of the `PriorityQueue` array: every
parent's priority is at most each in-range child's priority. -/
def heapOrdered (l : List (Int × Int)) : Prop :=
  ∀ i < l.length, ∀ j < l.length, (j = 2 * i + 1 ∨ j = 2 * i + 2) →
    (l.getD i (0, 0)).2 ≤ (l.getD j (0, 0)).2

instance (l : List (Int × Int)) : Decidable (heapOrdered l) :=
  inferInstanceAs (Decidable (∀ i < l.length, ∀ j < l.length,
    (j = 2 * i + 1 ∨ j = 2 * i + 2) → (l.getD i (0, 0)).2 ≤ (l.getD j (0, 0)).2))

/-- Heap order everywhere except possibly at the parent-child pairs whose
child is `e` (the sift-up invariant). -/
def upExcept (l : List (Int × Int)) (e : Nat) : Prop :=
  ∀ p c, c < l.length → (c = 2 * p + 1 ∨ c = 2 * p + 2) → c ≠ e →
    (l.getD p (0, 0)).2 ≤ (l.getD c (0, 0)).2

/-- Heap order everywhere except possibly at the parent-child pairs whose
parent is `e` (the sift-down invariant). -/
def downExcept (l : List (Int × Int)) (e : Nat) : Prop :=
  ∀ p c, c < l.length → (c = 2 * p + 1 ∨ c = 2 * p + 2) → p ≠ e →
    (l.getD p (0, 0)).2 ≤ (l.getD c (0, 0)).2

/-- Skip-level bound at `e`: when `e` is not the root, the priority of
`e`'s parent is at most the priority of each in-range child of `e`. -/
def skipBound (l : List (Int × Int)) (e : Nat) : Prop :=
  0 < e → ∀ c, c < l.length → (c = 2 * e + 1 ∨ c = 2 * e + 2) →
    (l.getD ((e - 1) / 2) (0, 0)).2 ≤ (l.getD c (0, 0)).2

/-- Entry well-formedness of a graph: every stored neighbor vertex is in
range. Every graph reachable through the public API satisfies this,
because `addEdge` validates both endpoints. -/
def Graph.wfEntries (g : Graph) : Prop :=
  ∀ l ∈ g.adj, ∀ p ∈ l, 0 ≤ (p : Int × Int).1 ∧ p.1 < g.n

instance (g : Graph) : Decidable g.wfEntries :=
  inferInstanceAs (Decidable (∀ l ∈ g.adj, ∀ p ∈ l, 0 ≤ (p : Int × Int).1 ∧ p.1 < g.n))

/-- Loop invariant of `Algorithms::bfs`: the visited array spans the
vertex set, the queue has capacity `n`, its contents are duplicate-free
valid vertices already marked visited (vertices are marked at enqueue
time), and the queue occupancy never exceeds the number of marked
vertices. -/
def bfsInv (g : Graph) (visited : List Bool) (q : Queue) : Prop :=
  visited.length = g.n.toNat ∧ q.capacity = g.n ∧ q.data.Nodup ∧
  (∀ x ∈ q.data, 0 ≤ x ∧ x < g.n ∧ visited.getD x.toNat false = true) ∧
  q.data.length ≤ visited.count true

/-- Values currently stored in the priority queue (with multiplicity,
in array order). -/
def pqVals (pq : PQ) : List Int := pq.heap.map Prod.fst

/-- Non-negative weights, as dijkstra assumes. -/
def Graph.wNonneg (g : Graph) : Prop :=
  ∀ l ∈ g.adj, ∀ p ∈ l, 0 ≤ (p : Int × Int).2

instance (g : Graph) : Decidable g.wNonneg :=
  inferInstanceAs (Decidable (∀ l ∈ g.adj, ∀ p ∈ l, 0 ≤ (p : Int × Int).2))

/-- All stored weights bounded by `B`. -/
def Graph.wLE (g : Graph) (B : Int) : Prop :=
  ∀ l ∈ g.adj, ∀ p ∈ l, (p : Int × Int).2 ≤ B

instance (g : Graph) (B : Int) : Decidable (g.wLE B) :=
  inferInstanceAs (Decidable (∀ l ∈ g.adj, ∀ p ∈ l, (p : Int × Int).2 ≤ B))

/-- Symmetry of the stored adjacency entries: every stored direction of
an edge has its mirror stored too. Every graph reachable through the
public API satisfies this, because `addEdge` inserts both directions and
`removeEdge` removes matching nodes from both sides. -/
def Graph.symEntries (g : Graph) : Prop :=
  ∀ i < g.adj.length, ∀ p ∈ g.adj.getD i [],
    ((i : Int), (p : Int × Int).2) ∈ g.adj.getD (p : Int × Int).1.toNat []

instance (g : Graph) : Decidable g.symEntries :=
  inferInstanceAs (Decidable (∀ i < g.adj.length, ∀ p ∈ g.adj.getD i [],
    ((i : Int), (p : Int × Int).2) ∈ g.adj.getD (p : Int × Int).1.toNat []))

/-- One expansion step of the reachable-vertex set: add every stored
neighbor of every member. -/
def expand (g : Graph) (s : List Nat) : List Nat :=
  (s ++ s.flatMap (fun u => (g.adj.getD u []).map (fun p => p.1.toNat))).dedup

/-- Vertices reachable from `s0` in at most `k` expansion steps. -/
def reachList (g : Graph) : Nat → Nat → List Nat
  | 0, s0 => [s0]
  | k + 1, s0 => expand g (reachList g k s0)

/-- Connectivity from a start vertex: every vertex is reached within `n`
expansion steps. -/
def connectedFrom (g : Graph) (s0 : Nat) : Prop :=
  ∀ v < g.n.toNat, v ∈ reachList g g.n.toNat s0

instance (g : Graph) (s0 : Nat) : Decidable (connectedFrom g s0) :=
  inferInstanceAs (Decidable (∀ v < g.n.toNat, v ∈ reachList g g.n.toNat s0))

/-- The recorded predecessor of `v` is a valid vertex index. -/
def predOK (g : Graph) (prev : List Int) (v : Nat) : Prop :=
  0 ≤ prev.getD v 0 ∧ prev.getD v 0 < g.n

/-- Stable state of dijkstra's `dist`/`prev` pair at `v`: the recorded
predecessor explains `dist[v]` exactly through a stored edge. -/
def dstable (g : Graph) (dist prev : List Int) (v : Nat) : Prop :=
  ∃ w, ((v : Int), w) ∈ g.adj.getD (prev.getD v 0).toNat [] ∧
    dist.getD v 0 = dist.getD (prev.getD v 0).toNat 0 + w

/-- Pending state at `v`: `dist[prev[v]]` has decreased since `prev[v]`
last relaxed `v`, but an entry for `prev[v]` is still in the priority
queue, so `v` will be relaxed again before the main loop can end. -/
def dpending (g : Graph) (dist prev : List Int) (pq : PQ) (v : Nat) : Prop :=
  (∃ w, ((v : Int), w) ∈ g.adj.getD (prev.getD v 0).toNat [] ∧
    dist.getD (prev.getD v 0).toNat 0 + w < dist.getD v 0) ∧
  ∃ p, (prev.getD v 0, p) ∈ pq.heap

/-- In-scan state at `v`: the remaining neighbor snapshot of the vertex
`u` currently being relaxed still contains an improving edge into `v`. -/
def dinscan (dist : List Int) (u : Int) (nbrs : List (Int × Int)) (v : Nat) : Prop :=
  ∃ w, ((v : Int), w) ∈ nbrs ∧ dist.getD u.toNat 0 + w < dist.getD v 0

/-- Stability invariant of the dijkstra main loop: every recorded
predecessor is a valid vertex that is either stable or pending. -/
def dijkInv (g : Graph) (dist prev : List Int) (pq : PQ) : Prop :=
  dist.length = g.n.toNat ∧ prev.length = g.n.toNat ∧
  ∀ v, v < g.n.toNat → prev.getD v 0 ≠ -1 →
    predOK g prev v ∧ (dstable g dist prev v ∨ dpending g dist prev pq v)

/-- Stability invariant inside one relaxation scan of dijkstra. -/
def dscanInv (g : Graph) (u : Int) (nbrs : List (Int × Int))
    (dist prev : List Int) (pq : PQ) : Prop :=
  dist.length = g.n.toNat ∧ prev.length = g.n.toNat ∧
  ∀ v, v < g.n.toNat → prev.getD v 0 ≠ -1 →
    predOK g prev v ∧
      (dstable g dist prev v ∨ dpending g dist prev pq v ∨ dinscan dist u nbrs v)

/-- Conclusion of claim C2 at one vertex: the recorded predecessor is a
valid vertex and the distance delta `dist[v] - dist[prev[v]]` is the
weight of a stored edge between `prev[v]` and `v` in the input graph. -/
def deltaEdge (g : Graph) (dist prev : List Int) (v : Nat) : Prop :=
  0 ≤ prev.getD v 0 ∧ prev.getD v 0 < g.n ∧
  ∃ w, ((v : Int), w) ∈ g.adj.getD (prev.getD v 0).toNat [] ∧
    dist.getD v 0 - dist.getD (prev.getD v 0).toNat 0 = w

/-- Number of finite (non-sentinel) distance cells. -/
def finCount (dist : List Int) : Nat := dist.countP (fun d => d < INTMAX)

/-- Counting invariant of the dijkstra main loop, used for claim C1:
distances lie in `[0, INT_MAX]`, the start keeps distance 0 and no
predecessor, every other finite vertex has a predecessor, every finite
distance is bounded by the finite count (less one) times the weight
bound, every queue entry is a valid finite vertex, and every finite
vertex either still has a queue entry or all of its neighbors are
already finite. -/
def dijkCnt (g : Graph) (start B : Int) (dist prev : List Int) (pq : PQ) : Prop :=
  dist.length = g.n.toNat ∧ prev.length = g.n.toNat ∧
  (∀ v, v < g.n.toNat → 0 ≤ dist.getD v 0 ∧ dist.getD v 0 ≤ INTMAX) ∧
  dist.getD start.toNat 0 = 0 ∧ prev.getD start.toNat 0 = -1 ∧
  (∀ v, v < g.n.toNat → v ≠ start.toNat → dist.getD v 0 < INTMAX →
    prev.getD v 0 ≠ -1) ∧
  (∀ v, v < g.n.toNat → dist.getD v 0 < INTMAX →
    dist.getD v 0 ≤ ((finCount dist : Int) - 1) * B) ∧
  (∀ e ∈ pq.heap, 0 ≤ (e : Int × Int).1 ∧ e.1 < g.n ∧
    dist.getD e.1.toNat 0 < INTMAX) ∧
  (∀ x, x < g.n.toNat → dist.getD x 0 < INTMAX →
    (∃ p, ((x : Int), p) ∈ pq.heap) ∨
    (∀ pr ∈ g.adj.getD x [], dist.getD (pr : Int × Int).1.toNat 0 < INTMAX))

/-- In-scan form of the counting invariant: the vertex `u` currently
being relaxed is excused from the queue-entry alternative, and instead
every neighbor of `u` is either already finite or still in the remaining
snapshot. -/
def dijkCntScan (g : Graph) (start B u : Int) (nbrs : List (Int × Int))
    (dist prev : List Int) (pq : PQ) : Prop :=
  dist.length = g.n.toNat ∧ prev.length = g.n.toNat ∧
  (∀ v, v < g.n.toNat → 0 ≤ dist.getD v 0 ∧ dist.getD v 0 ≤ INTMAX) ∧
  dist.getD start.toNat 0 = 0 ∧ prev.getD start.toNat 0 = -1 ∧
  (∀ v, v < g.n.toNat → v ≠ start.toNat → dist.getD v 0 < INTMAX →
    prev.getD v 0 ≠ -1) ∧
  (∀ v, v < g.n.toNat → dist.getD v 0 < INTMAX →
    dist.getD v 0 ≤ ((finCount dist : Int) - 1) * B) ∧
  (∀ e ∈ pq.heap, 0 ≤ (e : Int × Int).1 ∧ e.1 < g.n ∧
    dist.getD e.1.toNat 0 < INTMAX) ∧
  (∀ x, x < g.n.toNat → dist.getD x 0 < INTMAX → x ≠ u.toNat →
    (∃ p, ((x : Int), p) ∈ pq.heap) ∨
    (∀ pr ∈ g.adj.getD x [], dist.getD (pr : Int × Int).1.toNat 0 < INTMAX)) ∧
  (∀ pr ∈ g.adj.getD u.toNat [],
    dist.getD (pr : Int × Int).1.toNat 0 < INTMAX ∨ pr ∈ nbrs)

/-- Counting invariant of the prim main loop, used for claim C1: keys
lie in `[0, INT_MAX]`, vertex 0 keeps key 0 and no parent, every other
key-finite vertex has a parent, marked vertices are key-finite, every
queue entry is a valid key-finite vertex, and every key-finite vertex
either still has a queue entry or all of its neighbors are key-finite. -/
def primCnt (g : Graph) (B : Int) (inMST : List Bool) (key parent : List Int)
    (pq : PQ) : Prop :=
  inMST.length = g.n.toNat ∧ key.length = g.n.toNat ∧ parent.length = g.n.toNat ∧
  (∀ v, v < g.n.toNat → 0 ≤ key.getD v 0 ∧ key.getD v 0 ≤ INTMAX) ∧
  key.getD 0 0 = 0 ∧ parent.getD 0 0 = -1 ∧
  (∀ v, v < g.n.toNat → v ≠ 0 → key.getD v 0 < INTMAX →
    parent.getD v 0 ≠ -1) ∧
  (∀ v, v < g.n.toNat → inMST.getD v false = true → key.getD v 0 < INTMAX) ∧
  (∀ e ∈ pq.heap, 0 ≤ (e : Int × Int).1 ∧ e.1 < g.n ∧
    key.getD e.1.toNat 0 < INTMAX) ∧
  (∀ x, x < g.n.toNat → key.getD x 0 < INTMAX →
    (∃ p, ((x : Int), p) ∈ pq.heap) ∨
    (∀ pr ∈ g.adj.getD x [], key.getD (pr : Int × Int).1.toNat 0 < INTMAX))

/-- In-scan form of the prim counting invariant. -/
def primCntScan (g : Graph) (B u : Int) (nbrs : List (Int × Int))
    (inMST : List Bool) (key parent : List Int) (pq : PQ) : Prop :=
  inMST.length = g.n.toNat ∧ key.length = g.n.toNat ∧ parent.length = g.n.toNat ∧
  (∀ v, v < g.n.toNat → 0 ≤ key.getD v 0 ∧ key.getD v 0 ≤ INTMAX) ∧
  key.getD 0 0 = 0 ∧ parent.getD 0 0 = -1 ∧
  (∀ v, v < g.n.toNat → v ≠ 0 → key.getD v 0 < INTMAX →
    parent.getD v 0 ≠ -1) ∧
  (∀ v, v < g.n.toNat → inMST.getD v false = true → key.getD v 0 < INTMAX) ∧
  (∀ e ∈ pq.heap, 0 ≤ (e : Int × Int).1 ∧ e.1 < g.n ∧
    key.getD e.1.toNat 0 < INTMAX) ∧
  (∀ x, x < g.n.toNat → key.getD x 0 < INTMAX → x ≠ u.toNat →
    (∃ p, ((x : Int), p) ∈ pq.heap) ∨
    (∀ pr ∈ g.adj.getD x [], key.getD (pr : Int × Int).1.toNat 0 < INTMAX)) ∧
  (∀ pr ∈ g.adj.getD u.toNat [],
    key.getD (pr : Int × Int).1.toNat 0 < INTMAX ∨ pr ∈ nbrs)

/-- Number of union-find roots among the first `n` elements. -/
def ufRoots (uf : UF) (n : Nat) : Nat :=
  (List.range n).countP (fun x => uf.parent.getD x 0 == (x : Int))

/-- Ghost invariant of the union-find structure: `cf` labels the class
of every element and `ms` is a measure strictly decreasing along parent
links. Parent pointers are valid and stay inside their class, and
distinct roots carry distinct class labels. -/
def ufInv (n : Nat) (uf : UF) (cf ms : Nat → Nat) : Prop :=
  uf.parent.length = n ∧
  (∀ x, x < n → 0 ≤ uf.parent.getD x 0 ∧ uf.parent.getD x 0 < (n : Int) ∧
    cf (uf.parent.getD x 0).toNat = cf x) ∧
  (∀ x, x < n → ∀ y, y < n → uf.parent.getD x 0 = (x : Int) →
    uf.parent.getD y 0 = (y : Int) → cf x = cf y → x = y) ∧
  (∀ x, x < n → uf.parent.getD x 0 ≠ (x : Int) →
    ms (uf.parent.getD x 0).toNat < ms x)

/-- Property bundle for claim C3 on one algorithm result: both directions
of `(0,1,1)` and `(1,2,2)` present, no entry between 0 and 2 in either
direction, and exactly 4 adjacency entries in total. -/
def c3check (r : Except GErr Graph) : Bool :=
  match r with
  | .error _ => false
  | .ok t =>
    containsEntry t 0 1 1 && containsEntry t 1 0 1 &&
    containsEntry t 1 2 2 && containsEntry t 2 1 2 &&
    !touches t 0 2 && !touches t 2 0 &&
    t.entryCount == 4

end GA

namespace GA

/-! ## Theorems -/

/-- Theorem needed by several developments below: the triangle graph is
what the public construction sequence builds. -/
theorem triG_build : buildGraph 3 [(0, 1, 1), (1, 2, 2), (0, 2, 5)] = .ok triG := by
  decide

/-- The parallel-edge graph is what the public construction sequence
builds. -/
theorem par2G_build : buildGraph 2 [(0, 1, 1), (0, 1, 3), (0, 1, 5)] = .ok par2G := by
  decide

/-- C3: on the 3-vertex graph built by `addEdge(0,1,1)`, `addEdge(1,2,2)`,
`addEdge(0,2,5)`, both prim and kruskal return a result containing edges
`(0,1)` with weight 1 and `(1,2)` with weight 2 in both directions, no
edge between 0 and 2, and exactly 4 adjacency entries in total. -/
theorem claim_C3_prim_kruskal_triangle :
    c3check (Algorithms.prim 20 triG) = true ∧
    c3check (Algorithms.kruskal 20 triG) = true := by
  decide

/-- C4: there is a valid input (non-negative weights, valid start 0) on
which dijkstra raises CapacityExceeded, and the same input makes prim
raise CapacityExceeded: the 2-vertex graph with parallel edges of
weights 1, 3, 5, whose three successive distance improvements insert
three live entries into the priority queue of capacity 2. -/
theorem claim_C4_capacity_exceeded :
    allWeightsNonneg par2G = true ∧ (0 : Int) < par2G.n ∧
    Algorithms.dijkstra 20 par2G 0 = .error .capacityExceeded ∧
    Algorithms.prim 20 par2G = .error .capacityExceeded := by
  decide

/-- C5: evaluation at the failing input `0`. The claim says every
component constructor rejects non-positive sizes with InvalidArgument;
in the code only `PriorityQueue` validates, while `Graph(0)`, `Queue(0)`
and `UnionFind(0)` all return normally. -/
theorem claim_C5_constructors_not_uniform :
    Graph.construct 0 = .ok ⟨0, []⟩ ∧
    Queue.construct 0 = .ok ⟨0, []⟩ ∧
    UF.construct 0 = .ok ⟨[], []⟩ ∧
    PQ.construct 0 = .error .invalidArgument := by
  decide

/-- C6: evaluation at the failing inputs. The claim says bfs, dfs and
dijkstra fail with OutOfRange before allocating working structures; in
the code none of the three validates `start`: each allocates its result
tree and working arrays and then performs an out-of-bounds array write
(`visited[start]` resp. `dist[start]`), which is undefined behaviour
(`GErr.ub`), not the orderly OutOfRange that `getNeighbors` raises. -/
theorem claim_C6_no_start_validation :
    Algorithms.bfs 20 triG 5 = .error .ub ∧
    Algorithms.dfs 20 triG 5 = .error .ub ∧
    Algorithms.dijkstra 20 triG 5 = .error .ub ∧
    Algorithms.bfs 20 triG (-1) = .error .ub ∧
    Algorithms.dfs 20 triG (-1) = .error .ub ∧
    Algorithms.dijkstra 20 triG (-1) = .error .ub ∧
    triG.getNeighbors 5 = .error .outOfRange := by
  decide

/-- Reading a just-written list cell gives the written value. -/
theorem getD_set_self {α : Type} (l : List α) (i : Nat) (x d : α) (h : i < l.length) :
    (l.set i x).getD i d = x := by
  simp [List.getD_eq_getElem?_getD, List.getElem?_set_eq_of_lt, h]

/-- Writing one list cell leaves every other cell unchanged. -/
theorem getD_set_ne {α : Type} (l : List α) {i j : Nat} (x d : α) (h : i ≠ j) :
    (l.set i x).getD j d = l.getD j d := by
  simp [List.getD_eq_getElem?_getD, List.getElem?_set_ne, h]

/-- `removeFirst` removes a matching head node. -/
theorem removeFirst_cons_self (v w : Int) (l : List (Int × Int)) :
    removeFirst v ((v, w) :: l) = l := by
  simp [removeFirst]

/-- C7: after `addEdge(u,v,w)` on a well-formed graph with valid `u`, `v`,
the snapshot of `u` contains `(v,w)` and the snapshot of `v` contains
`(u,w)`; and when exactly one copy of each is present, a subsequent
`removeEdge(u,v)` leaves no `(v,w)` in `u`'s snapshot and no `(u,w)` in
`v`'s snapshot. -/
theorem claim_C7_add_remove_symmetry
    (g g1 : Graph) (u v w : Int)
    (hwf : g.wfBasic) (hu0 : 0 ≤ u) (hun : u < g.n) (hv0 : 0 ≤ v) (hvn : v < g.n)
    (hadd : g.addEdge u v w = .ok g1) :
    (∃ l, g1.getNeighbors u = .ok l ∧ (v, w) ∈ l) ∧
    (∃ l, g1.getNeighbors v = .ok l ∧ (u, w) ∈ l) ∧
    (∀ g2, pairCount g1 u v w = 1 → pairCount g1 v u w = 1 →
      g1.removeEdge u v = .ok g2 →
      (∀ l, g2.getNeighbors u = .ok l → (v, w) ∉ l) ∧
      (∀ l, g2.getNeighbors v = .ok l → (u, w) ∉ l)) := by
  have hcond : ¬(u < 0 ∨ u ≥ g.n ∨ v < 0 ∨ v ≥ g.n) := by omega
  have hu' : ¬(u < 0 ∨ u ≥ g.n) := by omega
  have hv' : ¬(v < 0 ∨ v ≥ g.n) := by omega
  rw [Graph.addEdge, if_neg hcond] at hadd
  have hg1 : g1 = ⟨g.n, addDirected (addDirected g.adj u v w) v u w⟩ :=
    (Except.ok.inj hadd).symm
  have hulen : u.toNat < g.adj.length := by
    rw [hwf.2]; omega
  have hvlen : v.toNat < g.adj.length := by
    rw [hwf.2]; omega
  by_cases huv : u = v
  · -- self-loop: both directions insert into the same list; the pair
    -- count is then at least 2, so the removal branch is vacuous
    subst huv
    have hAu : (addDirected (addDirected g.adj u u w) u u w).getD u.toNat [] =
        (u, w) :: (u, w) :: g.adj.getD u.toNat [] := by
      rw [addDirected, getD_set_self _ _ _ _ (by simp [addDirected, hulen]),
        addDirected, getD_set_self _ _ _ _ hulen]
    have hget : g1.getNeighbors u =
        .ok ((addDirected (addDirected g.adj u u w) u u w).getD u.toNat []) := by
      simp only [hg1, Graph.getNeighbors]
      rw [if_neg hu']
    refine ⟨⟨_, hget, ?_⟩, ⟨_, hget, ?_⟩, ?_⟩
    · rw [hAu]; exact List.mem_cons_self _ _
    · rw [hAu]; exact List.mem_cons_self _ _
    · intro g2 hc1 _ _
      exfalso
      rw [hg1, pairCount] at hc1
      simp only [hAu] at hc1
      rw [List.count_cons_self, List.count_cons_self] at hc1
      omega
  · -- distinct endpoints
    have htn : u.toNat ≠ v.toNat := by omega
    have hAu : (addDirected (addDirected g.adj u v w) v u w).getD u.toNat [] =
        (v, w) :: g.adj.getD u.toNat [] := by
      rw [addDirected, getD_set_ne _ _ _ (fun hh => htn hh.symm),
        addDirected, getD_set_self _ _ _ _ hulen]
    have hAv : (addDirected (addDirected g.adj u v w) v u w).getD v.toNat [] =
        (u, w) :: g.adj.getD v.toNat [] := by
      rw [addDirected, getD_set_self _ _ _ _ (by simp [addDirected, hvlen]),
        addDirected, getD_set_ne _ _ _ htn]
    have hcond' : ¬(v < 0 ∨ v ≥ g.n ∨ u < 0 ∨ u ≥ g.n) := by omega
    have hgetu : g1.getNeighbors u =
        .ok ((addDirected (addDirected g.adj u v w) v u w).getD u.toNat []) := by
      simp only [hg1, Graph.getNeighbors]
      rw [if_neg hu']
    have hgetv : g1.getNeighbors v =
        .ok ((addDirected (addDirected g.adj u v w) v u w).getD v.toNat []) := by
      simp only [hg1, Graph.getNeighbors]
      rw [if_neg hv']
    refine ⟨⟨_, hgetu, ?_⟩, ⟨_, hgetv, ?_⟩, ?_⟩
    · rw [hAu]; exact List.mem_cons_self _ _
    · rw [hAv]; exact List.mem_cons_self _ _
    · intro g2 hc1 hc2 hrem
      rw [hg1, pairCount] at hc1 hc2
      simp only [hAu] at hc1
      simp only [hAv] at hc2
      rw [List.count_cons_self] at hc1 hc2
      have hnu : (v, w) ∉ g.adj.getD u.toNat [] := by
        rw [← List.count_eq_zero]; omega
      have hnv : (u, w) ∉ g.adj.getD v.toNat [] := by
        rw [← List.count_eq_zero]; omega
      rw [hg1, Graph.removeEdge, if_neg hcond] at hrem
      have hg2 : g2 = ⟨g.n, removeDirected (removeDirected
          (addDirected (addDirected g.adj u v w) v u w) u v) v u⟩ :=
        (Except.ok.inj hrem).symm
      have hlen2 : (addDirected (addDirected g.adj u v w) v u w).length =
          g.adj.length := by
        simp [addDirected]
      have hR1u : (removeDirected
          (addDirected (addDirected g.adj u v w) v u w) u v).getD u.toNat [] =
          g.adj.getD u.toNat [] := by
        rw [removeDirected, getD_set_self _ _ _ _ (by rw [hlen2]; exact hulen),
          hAu, removeFirst_cons_self]
      have hR1v : (removeDirected
          (addDirected (addDirected g.adj u v w) v u w) u v).getD v.toNat [] =
          (u, w) :: g.adj.getD v.toNat [] := by
        rw [removeDirected, getD_set_ne _ _ _ htn, hAv]
      have hR2u : (removeDirected (removeDirected
          (addDirected (addDirected g.adj u v w) v u w) u v) v u).getD u.toNat [] =
          g.adj.getD u.toNat [] := by
        rw [removeDirected, getD_set_ne _ _ _ (fun hh => htn hh.symm), hR1u]
      have hR2v : (removeDirected (removeDirected
          (addDirected (addDirected g.adj u v w) v u w) u v) v u).getD v.toNat [] =
          g.adj.getD v.toNat [] := by
        rw [removeDirected,
          getD_set_self _ _ _ _ (by simp [removeDirected, hlen2]; exact hvlen),
          hR1v, removeFirst_cons_self]
      constructor
      · intro l hl
        rw [hg2, Graph.getNeighbors] at hl
        rw [if_neg hu'] at hl
        have : l = g.adj.getD u.toNat [] := by
          have := Except.ok.inj hl
          rw [← this]
          exact hR2u
        rw [this]; exact hnu
      · intro l hl
        rw [hg2, Graph.getNeighbors] at hl
        rw [if_neg hv'] at hl
        have : l = g.adj.getD v.toNat [] := by
          have := Except.ok.inj hl
          rw [← this]
          exact hR2v
        rw [this]; exact hnv

/-- Cell values of a swapped array. -/
theorem lswap_getD {α : Type} (l : List α) (i j k : Nat) (d : α)
    (hi : i < l.length) (hj : j < l.length) :
    (lswap l i j).getD k d =
      if k = j then l.getD i d else if k = i then l.getD j d else l.getD k d := by
  unfold lswap
  rw [List.get?_eq_getElem?, List.get?_eq_getElem?,
    List.getElem?_eq_getElem hi, List.getElem?_eq_getElem hj]
  have hgi : l.getD i d = l[i] := by
    rw [List.getD_eq_getElem?_getD, List.getElem?_eq_getElem hi]; rfl
  have hgj : l.getD j d = l[j] := by
    rw [List.getD_eq_getElem?_getD, List.getElem?_eq_getElem hj]; rfl
  by_cases hkj : k = j
  · subst hkj
    rw [if_pos rfl, getD_set_self _ _ _ _ (by simp [hj]), hgi]
  · rw [if_neg hkj, getD_set_ne _ _ _ (fun hh => hkj hh.symm)]
    by_cases hki : k = i
    · subst hki
      rw [if_pos rfl, getD_set_self _ _ _ _ hi, hgj]
    · rw [if_neg hki, getD_set_ne _ _ _ (fun hh => hki hh.symm)]

/-- Cell values of `dropLast` below the removed index. -/
theorem getD_dropLast {α : Type} (l : List α) (k : Nat) (d : α)
    (h : k < l.length - 1) : l.dropLast.getD k d = l.getD k d := by
  rw [List.dropLast_eq_take, List.getD_eq_getElem?_getD,
    List.getElem?_take_of_lt h, ← List.getD_eq_getElem?_getD]

/-- A child index determines its parent index. -/
theorem child_parent (p c : Nat) (h : c = 2 * p + 1 ∨ c = 2 * p + 2) :
    p = (c - 1) / 2 := by omega

/-- When `heapifyDown`'s `smallest` equals `i`, no in-range child of `i`
has a strictly smaller priority. -/
theorem minChild_spec_eq (l : List (Int × Int)) (i : Nat) (h : minChild l i = i) :
    ∀ c, c < l.length → (c = 2 * i + 1 ∨ c = 2 * i + 2) →
      (l.getD i (0, 0)).2 ≤ (l.getD c (0, 0)).2 := by
  intro c hcl hch
  by_cases h1 : 2 * i + 1 < l.length ∧ (l.getD (2 * i + 1) (0, 0)).2 < (l.getD i (0, 0)).2
  · exfalso
    have hs1 : minChild1 l i = 2 * i + 1 := by rw [minChild1, if_pos h1]
    rw [minChild, hs1] at h
    split at h <;> omega
  · have hs1 : minChild1 l i = i := by rw [minChild1, if_neg h1]
    rw [minChild, hs1] at h
    by_cases h2 : 2 * i + 2 < l.length ∧ (l.getD (2 * i + 2) (0, 0)).2 < (l.getD i (0, 0)).2
    · rw [if_pos h2] at h; omega
    · rcases hch with hc | hc <;> subst hc
      · rcases not_and_or.mp h1 with hh | hh
        · exact absurd hcl hh
        · omega
      · rcases not_and_or.mp h2 with hh | hh
        · exact absurd hcl hh
        · omega

/-- When `heapifyDown`'s `smallest` differs from `i`, it is an in-range
child of `i` with a strictly smaller priority than `i` and a priority at
most that of each in-range child of `i`. -/
theorem minChild_spec_ne (l : List (Int × Int)) (i : Nat) (h : minChild l i ≠ i) :
    (minChild l i = 2 * i + 1 ∨ minChild l i = 2 * i + 2) ∧
    minChild l i < l.length ∧
    (l.getD (minChild l i) (0, 0)).2 < (l.getD i (0, 0)).2 ∧
    (∀ c, c < l.length → (c = 2 * i + 1 ∨ c = 2 * i + 2) →
      (l.getD (minChild l i) (0, 0)).2 ≤ (l.getD c (0, 0)).2) := by
  by_cases h1 : 2 * i + 1 < l.length ∧ (l.getD (2 * i + 1) (0, 0)).2 < (l.getD i (0, 0)).2
  · have hs1 : minChild1 l i = 2 * i + 1 := by rw [minChild1, if_pos h1]
    by_cases h2 : 2 * i + 2 < l.length ∧
        (l.getD (2 * i + 2) (0, 0)).2 < (l.getD (minChild1 l i) (0, 0)).2
    · have hs : minChild l i = 2 * i + 2 := by rw [minChild, if_pos h2]
      rw [hs1] at h2
      refine ⟨by omega, by rw [hs]; exact h2.1, by rw [hs]; omega, ?_⟩
      intro c hcl hch
      rcases hch with hc | hc <;> subst hc <;> simp only [hs] <;> omega
    · have hs : minChild l i = 2 * i + 1 := by rw [minChild, if_neg h2, hs1]
      rw [hs1] at h2
      refine ⟨by omega, by rw [hs]; exact h1.1, by rw [hs]; exact h1.2, ?_⟩
      intro c hcl hch
      rcases hch with hc | hc <;> subst hc <;> simp only [hs]
      · omega
      · rcases not_and_or.mp h2 with hh | hh
        · exact absurd hcl hh
        · omega
  · have hs1 : minChild1 l i = i := by rw [minChild1, if_neg h1]
    by_cases h2 : 2 * i + 2 < l.length ∧
        (l.getD (2 * i + 2) (0, 0)).2 < (l.getD (minChild1 l i) (0, 0)).2
    · have hs : minChild l i = 2 * i + 2 := by rw [minChild, if_pos h2]
      rw [hs1] at h2
      refine ⟨by omega, by rw [hs]; exact h2.1, by rw [hs]; exact h2.2, ?_⟩
      intro c hcl hch
      rcases hch with hc | hc <;> subst hc <;> simp only [hs]
      · rcases not_and_or.mp h1 with hh | hh
        · exact absurd hcl hh
        · omega
      · omega
    · exfalso
      apply h
      rw [minChild, if_neg h2, hs1]

/-- Sifting up from an index whose only possibly-unordered pairs have that
index as the child, with the skip-level bound, restores full heap order. -/
theorem heapifyUpF_ordered :
    ∀ (fuel : Nat) (l : List (Int × Int)) (i : Nat),
      i < fuel → i < l.length → upExcept l i → skipBound l i →
      heapOrdered (PQ.heapifyUpF fuel l i)
  | 0, _, i, hif, _, _, _ => absurd hif (Nat.not_lt_zero i)
  | fuel + 1, l, i, hif, hil, hex, hgp => by
    rw [PQ.heapifyUpF]
    by_cases hc : 0 < i ∧ (l.getD i (0, 0)).2 < (l.getD ((i - 1) / 2) (0, 0)).2
    · rw [if_pos hc]
      have hparlt : (i - 1) / 2 < i := by omega
      have hparlen : (i - 1) / 2 < l.length := by omega
      have hval : ∀ k d, (lswap l i ((i - 1) / 2)).getD k d =
          if k = (i - 1) / 2 then l.getD i d
          else if k = i then l.getD ((i - 1) / 2) d else l.getD k d :=
        fun k d => lswap_getD l i ((i - 1) / 2) k d hil hparlen
      apply heapifyUpF_ordered fuel _ ((i - 1) / 2) (by omega)
        (by rw [lswap_length]; omega)
      · -- upExcept at the parent index
        intro p c hcl hch hcne
        rw [lswap_length] at hcl
        rw [hval, hval]
        by_cases hci : c = i
        · have hp : p = (i - 1) / 2 := by
            have := child_parent p c hch
            omega
          rw [if_pos hp, hci, if_neg (show i ≠ (i - 1) / 2 by omega), if_pos rfl]
          exact le_of_lt hc.2
        · by_cases hppar : p = (i - 1) / 2
          · rw [if_pos hppar, if_neg hcne, if_neg hci]
            have hord := hex ((i - 1) / 2) c hcl (by rw [← hppar]; exact hch) hci
            exact le_of_lt (lt_of_lt_of_le hc.2 hord)
          · rw [if_neg hppar]
            by_cases hpi : p = i
            · rw [if_pos hpi, if_neg hcne, if_neg hci]
              exact hgp hc.1 c hcl (by rw [← hpi]; exact hch)
            · rw [if_neg hpi, if_neg hcne, if_neg hci]
              exact hex p c hcl hch hci
      · -- skip-level bound at the parent index
        intro h0 c hcl hch
        rw [lswap_length] at hcl
        rw [hval, hval]
        have hgpi : (i - 1) / 2 = 2 * (((i - 1) / 2 - 1) / 2) + 1 ∨
            (i - 1) / 2 = 2 * (((i - 1) / 2 - 1) / 2) + 2 := by omega
        have hppne : ((i - 1) / 2 - 1) / 2 ≠ (i - 1) / 2 := by omega
        have hppnei : ((i - 1) / 2 - 1) / 2 ≠ i := by omega
        rw [if_neg hppne, if_neg hppnei]
        have hpp_par : (l.getD (((i - 1) / 2 - 1) / 2) (0, 0)).2 ≤
            (l.getD ((i - 1) / 2) (0, 0)).2 :=
          hex _ _ hparlen hgpi (by omega)
        by_cases hci : c = i
        · rw [if_neg (by omega), hci, if_pos rfl]
          exact hpp_par
        · rw [if_neg (by omega), if_neg hci]
          have hpar_c : (l.getD ((i - 1) / 2) (0, 0)).2 ≤ (l.getD c (0, 0)).2 :=
            hex _ _ hcl hch hci
          exact le_trans hpp_par hpar_c
    · rw [if_neg hc]
      intro a hal b hbl hch
      by_cases hbi : b = i
      · subst hbi
        have hpa : a = (b - 1) / 2 := child_parent a b hch
        have h0b : 0 < b := by omega
        have hnlt : ¬((l.getD b (0, 0)).2 < (l.getD ((b - 1) / 2) (0, 0)).2) := by
          intro hlt
          exact hc ⟨h0b, hlt⟩
        rw [hpa]
        omega
      · exact hex a b hbl hch hbi

/-- Sifting down from an index whose only possibly-unordered pairs have
that index as the parent, with the skip-level bound, restores full heap
order. -/
theorem heapifyDownF_ordered :
    ∀ (fuel : Nat) (l : List (Int × Int)) (i : Nat),
      l.length ≤ fuel + i → downExcept l i → skipBound l i →
      heapOrdered (PQ.heapifyDownF fuel l i)
  | 0, l, i, hf, hex, _ => by
    show heapOrdered l
    intro a hal b hbl hch
    by_cases hai : a = i
    · omega
    · exact hex a b hbl hch hai
  | fuel + 1, l, i, hf, hex, hsb => by
    rw [PQ.heapifyDownF]
    by_cases hs : minChild l i = i
    · rw [if_neg (by simp [hs])]
      intro a hal b hbl hch
      by_cases hai : a = i
      · rw [hai]
        exact minChild_spec_eq l i hs b hbl (by rw [← hai]; exact hch)
      · exact hex a b hbl hch hai
    · rw [if_pos hs]
      obtain ⟨hch_s, hslen, hslt, hsmin⟩ := minChild_spec_ne l i hs
      have hsi : i < minChild l i := by omega
      have hil : i < l.length := by omega
      have hval : ∀ k d, (lswap l i (minChild l i)).getD k d =
          if k = minChild l i then l.getD i d
          else if k = i then l.getD (minChild l i) d else l.getD k d :=
        fun k d => lswap_getD l i (minChild l i) k d hil hslen
      apply heapifyDownF_ordered fuel _ (minChild l i)
        (by rw [lswap_length]; omega)
      · -- downExcept at the smallest index
        intro p c hcl hch hpne
        rw [lswap_length] at hcl
        rw [hval, hval]
        by_cases hpi : p = i
        · by_cases hcs : c = minChild l i
          · rw [if_neg (show p ≠ minChild l i by omega), if_pos hpi, if_pos hcs]
            exact le_of_lt hslt
          · rw [if_neg (show p ≠ minChild l i by omega), if_pos hpi,
              if_neg hcs, if_neg (show c ≠ i by omega)]
            exact hsmin c hcl (by rw [← hpi]; exact hch)
        · by_cases hcs : c = minChild l i
          · exfalso
            have hpar_c : p = (c - 1) / 2 := child_parent p c hch
            have hpar_s : i = (minChild l i - 1) / 2 := by
              rcases hch_s with hh | hh <;> omega
            rw [hcs] at hpar_c
            exact hpi (hpar_c.trans hpar_s.symm)
          · rw [if_neg (show p ≠ minChild l i by omega), if_neg hpi, if_neg hcs]
            by_cases hci : c = i
            · rw [if_pos hci]
              have h0i : 0 < i := by omega
              have hpa : p = (i - 1) / 2 := by
                have := child_parent p c hch
                omega
              rw [hpa]
              exact hsb h0i (minChild l i) hslen hch_s
            · rw [if_neg hci]
              exact hex p c hcl hch hpi
      · -- skip-level bound at the smallest index
        intro _ c hcl hch
        rw [lswap_length] at hcl
        rw [hval, hval]
        have hpar_s : (minChild l i - 1) / 2 = i := by
          rcases hch_s with hh | hh <;> omega
        rw [hpar_s]
        have hcne_s : c ≠ minChild l i := by omega
        have hcne_i : c ≠ i := by omega
        rw [if_neg (show i ≠ minChild l i by omega), if_pos rfl,
          if_neg hcne_s, if_neg hcne_i]
        exact hex (minChild l i) c hcl (by omega) (by omega)

/-- `PriorityQueue::insert` preserves the heap order invariant. -/
theorem insert_ordered (q q' : PQ) (v p : Int) (ho : heapOrdered q.heap)
    (h : q.insert v p = .ok q') : heapOrdered q'.heap := by
  rw [PQ.insert] at h
  split at h
  · exact absurd h (by simp)
  · have hq' := (Except.ok.inj h).symm
    subst hq'
    show heapOrdered (PQ.heapifyUp (q.heap ++ [(v, p)]) q.heap.length)
    rw [PQ.heapifyUp]
    apply heapifyUpF_ordered (q.heap.length + 1) _ q.heap.length
      (by omega) (by simp)
    · intro pp c hcl hch hcne
      simp only [List.length_append, List.length_cons, List.length_nil] at hcl
      have hclt : c < q.heap.length := by omega
      have hplt : pp < q.heap.length := by omega
      rw [List.getD_append _ _ _ _ hclt, List.getD_append _ _ _ _ hplt]
      exact ho pp hplt c hclt hch
    · intro h0 c hcl hch
      simp only [List.length_append, List.length_cons, List.length_nil] at hcl
      omega

/-- `PriorityQueue::extractMin` preserves the heap order invariant. -/
theorem extractMin_ordered (q q' : PQ) (v : Int) (ho : heapOrdered q.heap)
    (h : q.extractMin = .ok (v, q')) : heapOrdered q'.heap := by
  rw [PQ.extractMin] at h
  cases hq : q.heap with
  | nil =>
    rw [hq] at h
    exact absurd h (by simp)
  | cons top rest =>
    rw [hq] at h
    rw [hq] at ho
    simp only at h
    have hq' : q' = ⟨q.capacity,
        PQ.heapifyDown (((top :: rest).set 0
          ((top :: rest).getD ((top :: rest).length - 1) (0, 0))).dropLast) 0⟩ := by
      have := Except.ok.inj h
      have hpair := Prod.mk.injEq .. ▸ this
      cases this
      rfl
    subst hq'
    show heapOrdered (PQ.heapifyDown _ 0)
    have hcons : (top :: rest).length = rest.length + 1 := rfl
    rw [PQ.heapifyDown]
    apply heapifyDownF_ordered _ _ 0 (by omega)
    · -- downExcept at the root
      intro p c hcl hch hpne
      have hlen : (((top :: rest).set 0
          ((top :: rest).getD ((top :: rest).length - 1) (0, 0))).dropLast).length =
          (top :: rest).length - 1 := by simp
      rw [hlen] at hcl
      have hp1 : 1 ≤ p := by omega
      have hgd : ∀ k, 1 ≤ k → k < (top :: rest).length - 1 →
          (((top :: rest).set 0
            ((top :: rest).getD ((top :: rest).length - 1) (0, 0))).dropLast).getD k (0, 0) =
          (top :: rest).getD k (0, 0) := by
        intro k hk1 hk2
        rw [getD_dropLast _ _ _ (by simp; omega)]
        rw [getD_set_ne _ _ _ (by omega)]
      rw [hgd p hp1 (by omega), hgd c (by omega) hcl]
      exact ho p (by omega) c (by omega) hch
    · intro h0
      omega

/-- Counting after one cell write, in additive form. -/
theorem count_set_add {α : Type} [DecidableEq α] :
    ∀ (l : List α) (i : Nat) (b x : α), i < l.length →
      (l.set i b).count x + (if l.getD i b = x then 1 else 0) =
        l.count x + (if b = x then 1 else 0)
  | [], _, _, _, h => absurd h (by simp)
  | c :: rest, 0, b, x, _ => by
    simp only [List.set_cons_zero, List.getD_cons_zero, List.count_cons]
    split_ifs <;> simp_all
  | c :: rest, i + 1, b, x, h => by
    simp only [List.set_cons_succ, List.getD_cons_succ, List.count_cons]
    have ih := count_set_add rest i b x (by simpa using h)
    split_ifs at ih ⊢ <;> simp_all <;> omega

/-- The cell swap is a permutation. -/
theorem lswap_perm {α : Type} [DecidableEq α] (l : List α) (i j : Nat) :
    (lswap l i j).Perm l := by
  unfold lswap
  cases h1 : l.get? i with
  | none => exact .refl l
  | some a =>
    cases h2 : l.get? j with
    | none => exact .refl l
    | some b =>
      show ((l.set i b).set j a).Perm l
      rw [List.get?_eq_getElem?] at h1 h2
      have hi : i < l.length := by
        by_contra hc
        rw [List.getElem?_eq_none (by omega)] at h1
        cases h1
      have hj : j < l.length := by
        by_contra hc
        rw [List.getElem?_eq_none (by omega)] at h2
        cases h2
      have ha : l[i] = a := by
        rw [List.getElem?_eq_getElem hi] at h1
        exact Option.some.inj h1
      have hb : l[j] = b := by
        rw [List.getElem?_eq_getElem hj] at h2
        exact Option.some.inj h2
      apply List.perm_iff_count.mpr
      intro x
      have hc1 := count_set_add l i b x hi
      have hc2 := count_set_add (l.set i b) j a x (by simpa using hj)
      have hgd1 : l.getD i b = a := by
        rw [List.getD_eq_getElem?_getD, List.getElem?_eq_getElem hi, ha]
        rfl
      have hgd2 : (l.set i b).getD j a = b := by
        by_cases hij : i = j
        · subst hij
          rw [getD_set_self _ _ _ _ hi]
        · rw [getD_set_ne _ _ _ hij, List.getD_eq_getElem?_getD,
            List.getElem?_eq_getElem hj, hb]
          rfl
      rw [hgd1] at hc1
      rw [hgd2] at hc2
      split_ifs at hc1 hc2 <;> omega

/-- Sift-up permutes the heap array. -/
theorem heapifyUpF_perm :
    ∀ (fuel : Nat) (l : List (Int × Int)) (i : Nat),
      (PQ.heapifyUpF fuel l i).Perm l
  | 0, l, _ => .refl l
  | fuel + 1, l, i => by
    rw [PQ.heapifyUpF]
    split
    · exact (heapifyUpF_perm fuel _ _).trans (lswap_perm l i ((i - 1) / 2))
    · exact .refl l

/-- Sift-down permutes the heap array. -/
theorem heapifyDownF_perm :
    ∀ (fuel : Nat) (l : List (Int × Int)) (i : Nat),
      (PQ.heapifyDownF fuel l i).Perm l
  | 0, l, _ => .refl l
  | fuel + 1, l, i => by
    rw [PQ.heapifyDownF]
    split
    · exact (heapifyDownF_perm fuel _ _).trans (lswap_perm l i (minChild l i))
    · exact .refl l

/-- A successful insert leaves the heap a permutation of the old heap
with the new element appended, and keeps the capacity. -/
theorem insert_heap_perm (q q' : PQ) (v p : Int) (h : q.insert v p = .ok q') :
    q'.heap.Perm (q.heap ++ [(v, p)]) ∧ q'.capacity = q.capacity := by
  rw [PQ.insert] at h
  split at h
  · exact absurd h (by simp)
  · have hq := (Except.ok.inj h).symm
    subst hq
    exact ⟨heapifyUpF_perm _ _ _, rfl⟩

/-- A successful extract pops the root: the old heap is the root consed
onto a remainder, the returned value is the root's value, and the new
heap is a permutation of the remainder. -/
theorem extract_heap_perm (q q' : PQ) (u : Int) (h : q.extractMin = .ok (u, q')) :
    ∃ top hrest, q.heap = top :: hrest ∧ u = top.1 ∧ q'.heap.Perm hrest ∧
      q'.capacity = q.capacity := by
  rw [PQ.extractMin] at h
  cases hq : q.heap with
  | nil =>
    rw [hq] at h
    exact absurd h (by simp)
  | cons top hrest =>
    rw [hq] at h
    simp only at h
    have hinj := Except.ok.inj h
    have hu : top.1 = u := congrArg Prod.fst hinj
    have hqq : (⟨q.capacity, PQ.heapifyDown
        (((top :: hrest).set 0
          ((top :: hrest).getD ((top :: hrest).length - 1) (0, 0))).dropLast) 0⟩ : PQ) = q' :=
      congrArg Prod.snd hinj
    refine ⟨top, hrest, rfl, hu.symm, ?_, by rw [← hqq]⟩
    rw [← hqq]
    show (PQ.heapifyDown _ 0).Perm hrest
    refine (heapifyDownF_perm _ _ _).trans ?_
    cases hrest with
    | nil => simp
    | cons b bs =>
      have hne : (b :: bs : List (Int × Int)) ≠ [] := by simp
      have hlast : (top :: b :: bs).getD ((top :: b :: bs).length - 1) (0, 0) =
          (b :: bs).getLast hne := by
        show (top :: b :: bs).getD (bs.length + 1) (0, 0) = _
        rw [List.getD_cons_succ]
        rw [List.getLast_eq_getElem]
        rw [List.getD_eq_getElem?_getD,
          List.getElem?_eq_getElem (by simp : bs.length < (b :: bs).length)]
        rfl
      rw [hlast, List.set_cons_zero]
      show ((b :: bs).getLast hne :: (b :: bs).dropLast).Perm (b :: bs)
      have heq : (b :: bs).dropLast ++ [(b :: bs).getLast hne] = b :: bs :=
        List.dropLast_append_getLast hne
      have hp :=
        (List.perm_append_singleton ((b :: bs).getLast hne) ((b :: bs).dropLast)).symm
      rw [heq] at hp
      exact hp

/-- Reading a valid index through the checked raw-array read gives the
`getD` value. -/
theorem readL_ok {α : Type} (l : List α) (i : Int) (d : α)
    (h0 : 0 ≤ i) (hl : i.toNat < l.length) :
    readL l i = .ok (l.getD i.toNat d) := by
  rw [readL, dif_pos ⟨h0, hl⟩]
  congr 1
  rw [List.getD_eq_getElem?_getD, List.getElem?_eq_getElem hl]
  rfl

/-- Writing a valid index through the checked raw-array write gives the
`set` value. -/
theorem writeL_ok {α : Type} (l : List α) (i : Int) (v : α)
    (h0 : 0 ≤ i) (hl : i.toNat < l.length) :
    writeL l i v = .ok (l.set i.toNat v) := by
  rw [writeL, if_pos ⟨h0, hl⟩]

/-- `Graph::addEdge` on valid endpoints succeeds with both directed
insertions. -/
theorem addEdge_valid_ok (g : Graph) (u v w : Int)
    (h : ¬(u < 0 ∨ u ≥ g.n ∨ v < 0 ∨ v ≥ g.n)) :
    g.addEdge u v w = .ok ⟨g.n, addDirected (addDirected g.adj u v w) v u w⟩ := by
  rw [Graph.addEdge, if_neg h]

/-- `Graph::getNeighbors` on a valid vertex returns its list. -/
theorem getNeighbors_valid_ok (g : Graph) (u : Int)
    (h : ¬(u < 0 ∨ u ≥ g.n)) :
    g.getNeighbors u = .ok (g.adj.getD u.toNat []) := by
  rw [Graph.getNeighbors, if_neg h]

/-- Inverting a successful checked read: the index was in bounds and the
value is the indexed cell (any default). -/
theorem readL_inv {α : Type} (l : List α) (i : Int) (x d : α)
    (h : readL l i = .ok x) :
    0 ≤ i ∧ i.toNat < l.length ∧ x = l.getD i.toNat d := by
  rw [readL] at h
  split at h
  · next hc =>
    refine ⟨hc.1, hc.2, ?_⟩
    rw [← Except.ok.inj h, List.get_eq_getElem, List.getD_eq_getElem?_getD,
      List.getElem?_eq_getElem hc.2]
    rfl
  · cases h

/-- Inverting a successful checked write. -/
theorem writeL_inv {α : Type} (l : List α) (i : Int) (v : α) (l' : List α)
    (h : writeL l i v = .ok l') :
    0 ≤ i ∧ i.toNat < l.length ∧ l' = l.set i.toNat v := by
  rw [writeL] at h
  split at h
  · next hc => exact ⟨hc.1, hc.2, (Except.ok.inj h).symm⟩
  · cases h

/-- Inverting a successful overflow-checked addition. -/
theorem cppAdd_inv (a b s : Int) (h : cppAdd a b = .ok s) : s = a + b := by
  rw [cppAdd] at h
  split at h
  · exact (Except.ok.inj h).symm
  · cases h

/-- Inverting a successful `getNeighbors`: the vertex was valid and the
result is its adjacency list. -/
theorem getNeighbors_inv (g : Graph) (u : Int) (nbrs : List (Int × Int))
    (h : g.getNeighbors u = .ok nbrs) :
    0 ≤ u ∧ u < g.n ∧ nbrs = g.adj.getD u.toNat [] := by
  rw [Graph.getNeighbors] at h
  split at h
  · cases h
  · next hc =>
    push_neg at hc
    exact ⟨hc.1, hc.2, (Except.ok.inj h).symm⟩

/-- `getD` on `replicate` below the length. -/
theorem getD_replicate {α : Type} (n i : Nat) (a d : α) (h : i < n) :
    (List.replicate n a).getD i d = a := by
  rw [List.getD_eq_getElem?_getD, List.getElem?_replicate, if_pos h]
  rfl

/-- The adjacency list of a valid vertex is one of the graph's lists. -/
theorem adj_getD_mem (g : Graph) (hlen : g.adj.length = g.n.toNat) (u : Int)
    (hu0 : 0 ≤ u) (hun : u < g.n) : g.adj.getD u.toNat [] ∈ g.adj := by
  have hlt : u.toNat < g.adj.length := by omega
  rw [List.getD_eq_getElem?_getD, List.getElem?_eq_getElem hlt]
  exact List.getElem_mem hlt

/-- Setting a false cell to true increases the true-count by one. -/
theorem count_set_true :
    ∀ (l : List Bool) (i : Nat), i < l.length → l.getD i false = false →
      (l.set i true).count true = l.count true + 1
  | [], i, h, _ => absurd h (by simp)
  | b :: rest, 0, _, hf => by
    have hb : b = false := by simpa using hf
    subst hb
    simp [List.count_cons]
  | b :: rest, i + 1, h, hf => by
    have ih := count_set_true rest i (by simpa using h) (by simpa using hf)
    simp only [List.set_cons_succ, List.count_cons, ih]
    omega

/-- A list with a false cell has strictly fewer trues than cells. -/
theorem count_true_lt (l : List Bool) (i : Nat) (hi : i < l.length)
    (hf : l.getD i false = false) : l.count true < l.length := by
  rcases Nat.lt_or_ge (l.count true) l.length with h | h
  · exact h
  · exfalso
    have hle := List.count_le_length true l
    have heq : l.count true = l.length := le_antisymm hle h
    have hall := List.count_eq_length.mp heq
    have hmem : l.getD i false ∈ l := by
      rw [List.getD_eq_getElem?_getD, List.getElem?_eq_getElem hi]
      exact List.getElem_mem hi
    rw [hf] at hmem
    have := hall false hmem
    simp at this

/-- The inner loop of bfs preserves the bfs invariant, never raises
CapacityExceeded, and preserves the vertex count of the result tree:
each enqueue happens strictly below capacity because the vertex being
enqueued was unvisited while everything in the queue was already
marked. -/
theorem bfsScan_inv (g : Graph) (u : Int) (hu0 : 0 ≤ u) (hun : u < g.n) :
    ∀ (nbrs : List (Int × Int)) (tree : Graph) (visited : List Bool) (q : Queue),
      (∀ p ∈ nbrs, 0 ≤ (p : Int × Int).1 ∧ p.1 < g.n) →
      tree.n = g.n → bfsInv g visited q →
      bfsScan u nbrs tree visited q ≠ .error .capacityExceeded ∧
      (∀ tree' visited' q',
        bfsScan u nbrs tree visited q = .ok (tree', visited', q') →
        tree'.n = g.n ∧ bfsInv g visited' q')
  | [], tree, visited, q, _, htn, hinv => by
    constructor
    · simp [bfsScan]
    · intro tree' visited' q' h
      simp only [bfsScan] at h
      cases h
      exact ⟨htn, hinv⟩
  | (v, w) :: rest, tree, visited, q, hval, htn, hinv => by
    obtain ⟨hvl, hcap, hnd, hmem, hcnt⟩ := hinv
    have hv := hval (v, w) (List.mem_cons_self _ _)
    have hv0 : (0 : Int) ≤ v := hv.1
    have hvn : v < g.n := hv.2
    have hvtn : v.toNat < visited.length := by rw [hvl]; omega
    have hrd := readL_ok visited v false hv0 hvtn
    by_cases hvis : visited.getD v.toNat false = true
    · -- already visited: skip
      have hstep : bfsScan u ((v, w) :: rest) tree visited q =
          bfsScan u rest tree visited q := by
        rw [bfsScan, hrd]
        simp only [hvis]
        rfl
      rw [hstep]
      exact bfsScan_inv g u hu0 hun rest tree visited q
        (fun p hp => hval p (List.mem_cons_of_mem _ hp)) htn
        ⟨hvl, hcap, hnd, hmem, hcnt⟩
    · -- unvisited: mark, add tree edge, enqueue
      have hfalse : visited.getD v.toNat false = false := by
        cases hx : visited.getD v.toNat false
        · rfl
        · exact absurd hx hvis
      have hwr := writeL_ok visited v true hv0 hvtn
      have hadd := addEdge_valid_ok tree u v w (by have h5 := htn; omega)
      have henq : q.enqueue v = .ok ⟨q.capacity, q.data ++ [v]⟩ := by
        have h1 : q.data.length ≤ visited.count true := hcnt
        have h2 : visited.count true < visited.length :=
          count_true_lt visited v.toNat hvtn hfalse
        have h3 : visited.length = g.n.toNat := hvl
        have h4 : q.capacity = g.n := hcap
        have hne : ¬((q.data.length : Int) = q.capacity) := by omega
        rw [Queue.enqueue, if_neg hne]
      have hinv' : bfsInv g (visited.set v.toNat true) ⟨q.capacity, q.data ++ [v]⟩ := by
        refine ⟨by simpa using hvl, hcap, ?_, ?_, ?_⟩
        · have hvnot : v ∉ q.data := by
            intro hvq
            exact hvis (hmem v hvq).2.2
          simp [List.nodup_append, hnd, hvnot]
        · intro x hx
          rcases List.mem_append.mp hx with hx | hx
          · obtain ⟨hx0, hxn, hxv⟩ := hmem x hx
            refine ⟨hx0, hxn, ?_⟩
            by_cases hxeq : x.toNat = v.toNat
            · rw [hxeq, getD_set_self _ _ _ _ hvtn]
            · rw [getD_set_ne _ _ _ (fun hh => hxeq hh.symm)]
              exact hxv
          · have hxv : x = v := by simpa using hx
            subst hxv
            exact ⟨hv0, hvn, getD_set_self _ _ _ _ hvtn⟩
        · rw [count_set_true visited v.toNat hvtn hfalse]
          simp only [List.length_append, List.length_cons, List.length_nil]
          omega
      have hrec := bfsScan_inv g u hu0 hun rest
        ⟨tree.n, addDirected (addDirected tree.adj u v w) v u w⟩
        (visited.set v.toNat true) ⟨q.capacity, q.data ++ [v]⟩
        (fun p hp => hval p (List.mem_cons_of_mem _ hp)) htn hinv'
      have hstep : bfsScan u ((v, w) :: rest) tree visited q =
          bfsScan u rest ⟨tree.n, addDirected (addDirected tree.adj u v w) v u w⟩
            (visited.set v.toNat true) ⟨q.capacity, q.data ++ [v]⟩ := by
        rw [bfsScan, hrd]
        simp only
        rw [hfalse, if_neg Bool.false_ne_true, hwr]
        simp only
        rw [hadd]
        simp only
        rw [henq]
      rw [hstep]
      exact hrec

/-- The main loop of bfs never raises CapacityExceeded from a state
satisfying the bfs invariant. -/
theorem bfsLoop_no_cap (g : Graph) (hwfb : g.wfBasic) (hwfe : g.wfEntries) :
    ∀ (fuel : Nat) (tree : Graph) (visited : List Bool) (q : Queue),
      tree.n = g.n → bfsInv g visited q →
      bfsLoop fuel g tree visited q ≠ .error .capacityExceeded
  | 0, tree, visited, q, _, _ => by
    simp only [bfsLoop]
    split <;> simp
  | fuel + 1, tree, visited, q, htn, hinv => by
    rw [bfsLoop]
    by_cases hemp : q.isEmpty
    · rw [if_pos hemp]
      simp
    · rw [if_neg hemp]
      obtain ⟨hvl, hcap, hnd, hmem, hcnt⟩ := hinv
      cases hqd : q.data with
      | nil => exact absurd (by simp [Queue.isEmpty, hqd]) hemp
      | cons x rest =>
        have hdq : q.dequeue = .ok (x, ⟨q.capacity, rest⟩) := by
          rw [Queue.dequeue, hqd]
        rw [hdq]
        simp only
        have hx := hmem x (by rw [hqd]; exact List.mem_cons_self _ _)
        have hxg : g.getNeighbors x = .ok (g.adj.getD x.toNat []) :=
          getNeighbors_valid_ok g x (by omega)
        rw [hxg]
        simp only
        have hlenadj : x.toNat < g.adj.length := by
          have h5 := hwfb.2
          omega
        have hnbv : ∀ p ∈ g.adj.getD x.toNat [], 0 ≤ (p : Int × Int).1 ∧ p.1 < g.n := by
          intro p hp
          have hgdel : g.adj.getD x.toNat [] = g.adj[x.toNat] := by
            rw [List.getD_eq_getElem?_getD, List.getElem?_eq_getElem hlenadj]
            rfl
          have hmemadj : g.adj.getD x.toNat [] ∈ g.adj := by
            rw [hgdel]
            exact List.getElem_mem hlenadj
          exact hwfe _ hmemadj p hp
        have hqdl : q.data.length = rest.length + 1 := by rw [hqd]; rfl
        have hinv2 : bfsInv g visited ⟨q.capacity, rest⟩ := by
          refine ⟨hvl, hcap, ?_, ?_, ?_⟩
          · have : (x :: rest).Nodup := hqd ▸ hnd
            exact this.of_cons
          · intro y hy
            exact hmem y (by rw [hqd]; exact List.mem_cons_of_mem _ hy)
          · show rest.length ≤ visited.count true
            omega
        have hscan := bfsScan_inv g x hx.1 hx.2.1 (g.adj.getD x.toNat [])
          tree visited ⟨q.capacity, rest⟩ hnbv htn hinv2
        cases hres : bfsScan x (g.adj.getD x.toNat []) tree visited ⟨q.capacity, rest⟩ with
        | error e =>
          simp only
          intro hcontra
          have he : e = GErr.capacityExceeded := Except.error.inj hcontra
          subst he
          exact hscan.1 hres
        | ok t =>
          obtain ⟨tree', visited', q'⟩ := t
          simp only
          have hpres := hscan.2 tree' visited' q' hres
          exact bfsLoop_no_cap g hwfb hwfe fuel tree' visited' q' hpres.1 hpres.2

/-- C10: on a well-formed graph with a valid start, bfs can never reach
the CapacityExceeded branch of `Queue::enqueue` (for any fuel), because
the inner loop marks a vertex visited at the moment it is enqueued:
queue contents stay duplicate-free and bounded by the number of marked
vertices, which an unvisited vertex keeps strictly below capacity. The
second conjunct states that preservation for any inner-loop step. -/
theorem claim_C10_bfs_marks_on_enqueue (g : Graph) (start : Int)
    (hwfb : g.wfBasic) (hwfe : g.wfEntries) (h0 : 0 ≤ start) (hn : start < g.n) :
    (∀ fuel, Algorithms.bfs fuel g start ≠ .error .capacityExceeded) ∧
    (∀ (u : Int) (nbrs : List (Int × Int)) (tree : Graph) (visited : List Bool)
      (q : Queue) (tree' : Graph) (visited' : List Bool) (q' : Queue),
      0 ≤ u → u < g.n →
      (∀ p ∈ nbrs, 0 ≤ (p : Int × Int).1 ∧ p.1 < g.n) →
      tree.n = g.n → bfsInv g visited q →
      bfsScan u nbrs tree visited q = .ok (tree', visited', q') →
      bfsInv g visited' q') := by
  constructor
  · intro fuel
    rw [Algorithms.bfs]
    have hcon : Graph.construct g.n = .ok ⟨g.n, List.replicate g.n.toNat []⟩ := by
      rw [Graph.construct, if_neg (by omega)]
    rw [hcon]
    simp only
    have hqc : Queue.construct g.n = .ok ⟨g.n, []⟩ := by
      rw [Queue.construct, if_neg (by omega)]
    rw [hqc]
    simp only
    have hsl : start.toNat < (List.replicate g.n.toNat false).length := by
      simp
      omega
    rw [writeL_ok _ _ _ h0 hsl]
    simp only
    have henq : (Queue.mk g.n []).enqueue start = .ok ⟨g.n, [start]⟩ := by
      rw [Queue.enqueue, if_neg ?_]
      · rfl
      · show ¬((([] : List Int).length : Int) = g.n)
        simp
        omega
    rw [henq]
    simp only
    apply bfsLoop_no_cap g hwfb hwfe fuel
      ⟨g.n, List.replicate g.n.toNat []⟩ _ _ rfl
    refine ⟨by simp, rfl, by simp, ?_, ?_⟩
    · intro x hx
      have hxs : x = start := by simpa using hx
      subst hxs
      exact ⟨h0, hn, getD_set_self _ _ _ _ hsl⟩
    · have hrf : (List.replicate g.n.toNat false).getD start.toNat false = false := by
        rw [List.getD_eq_getElem?_getD, List.getElem?_replicate]
        split <;> rfl
      rw [count_set_true _ _ hsl hrf]
      simp
  · intro u nbrs tree visited q tree' visited' q' hu0 hun hnv htn hinv hok
    exact ((bfsScan_inv g u hu0 hun nbrs tree visited q hnv htn hinv).2
      tree' visited' q' hok).2

/-- Witness for C10 at a concrete input: bfs on the triangle graph from
start 0 with fuel 20. -/
theorem claim_C10_witness :
    Algorithms.bfs 20 triG 0 ≠ .error .capacityExceeded :=
  (claim_C10_bfs_marks_on_enqueue triG 0 (by decide) (by decide)
    (by decide) (by decide)).1 20

/-- C9: the min-heap order invariant (every parent's priority at most its
in-range children's priorities) is preserved by every successful
`PriorityQueue::insert` and every successful
`PriorityQueue::extractMin`. -/
theorem claim_C9_heap_invariant :
    (∀ (q q' : PQ) (v p : Int), heapOrdered q.heap →
      q.insert v p = .ok q' → heapOrdered q'.heap) ∧
    (∀ (q q' : PQ) (v : Int), heapOrdered q.heap →
      q.extractMin = .ok (v, q') → heapOrdered q'.heap) :=
  ⟨insert_ordered, extractMin_ordered⟩

/-- Witness for C9 at concrete inputs: inserting `(30, 2)` into the
ordered heap `[(10,1),(20,5)]` and extracting from the result. -/
theorem claim_C9_witness :
    heapOrdered (PQ.mk 3 [(10, 1), (20, 5), (30, 2)]).heap ∧
    heapOrdered (PQ.mk 3 [(30, 2), (20, 5)]).heap :=
  ⟨claim_C9_heap_invariant.1 (PQ.mk 3 [(10, 1), (20, 5)])
      (PQ.mk 3 [(10, 1), (20, 5), (30, 2)]) 30 2 (by decide) (by decide),
    claim_C9_heap_invariant.2 (PQ.mk 3 [(10, 1), (20, 5), (30, 2)])
      (PQ.mk 3 [(30, 2), (20, 5)]) 10 (by decide) (by decide)⟩

/-- Unfolding of `pureScan` on a cons cell. -/
theorem pureScan_cons (i : Nat) (p : Int × Int) (l : List (Int × Int)) :
    pureScan i (p :: l) =
      if (i : Int) < p.1 then (p.2, (i : Int), p.1) :: pureScan i l
      else pureScan i l := by
  by_cases h : (i : Int) < p.1 <;> simp [pureScan, List.filterMap_cons, h]

/-- The bounded edge-collection loop, when it returns, returns exactly
the capacity-free collection appended to its accumulator. -/
theorem collectScan_ok (u : Nat) :
    ∀ (l : List (Int × Int)) (es r : List (Int × Int × Int)),
      collectScan u l es = .ok r → r = es ++ pureScan u l
  | [], es, r, h => by
    simp only [collectScan] at h
    cases h
    simp [pureScan]
  | (v, w) :: rest, es, r, h => by
    rw [collectScan] at h
    by_cases hlt : (u : Int) < v
    · rw [if_pos hlt] at h
      by_cases hcap : es.length ≥ 500
      · rw [if_pos hcap] at h
        exact absurd h (by simp)
      · rw [if_neg hcap] at h
        have hrec := collectScan_ok u rest (es ++ [(w, (u : Int), v)]) r h
        rw [hrec, pureScan_cons, if_pos hlt, List.append_assoc]
        rfl
    · rw [if_neg hlt] at h
      have hrec := collectScan_ok u rest es r h
      rw [hrec, pureScan_cons, if_neg hlt]

/-- The outer edge-collection loop, when it returns, returns exactly the
capacity-free collection of the scanned vertices. -/
theorem collectAll_ok (g : Graph) :
    ∀ (us : List Nat) (es r : List (Int × Int × Int)),
      (∀ u ∈ us, (u : Int) < g.n) → collectAll g us es = .ok r →
      r = es ++ us.flatMap (fun u => pureScan u (g.adj.getD u []))
  | [], es, r, _, h => by
    simp only [collectAll] at h
    cases h
    simp
  | u :: rest, es, r, hv, h => by
    simp only [collectAll] at h
    have hu : (u : Int) < g.n := hv u (List.mem_cons_self _ _)
    have hg : g.getNeighbors (u : Int) = .ok (g.adj.getD u []) := by
      rw [Graph.getNeighbors, if_neg (by omega)]
      simp
    rw [hg] at h
    simp only at h
    cases hcs : collectScan u (g.adj.getD u []) es with
    | error e =>
      rw [hcs] at h
      exact absurd h (by simp)
    | ok es' =>
      rw [hcs] at h
      simp only at h
      have h1 := collectScan_ok u _ _ _ hcs
      have h2 := collectAll_ok g rest es' r
        (fun x hx => hv x (List.mem_cons_of_mem _ hx)) h
      rw [h2, h1, List.flatMap_cons, List.append_assoc]

/-- Pointwise equal per-vertex scans give equal collections. -/
theorem flatMap_ext_eq {α : Type} (f f' : Nat → List α) :
    ∀ l : List Nat, (∀ i ∈ l, f' i = f i) → l.flatMap f' = l.flatMap f
  | [], _ => rfl
  | a :: rest, h => by
    rw [List.flatMap_cons, List.flatMap_cons, h a (List.mem_cons_self _ _),
      flatMap_ext_eq f f' rest (fun i hi => h i (List.mem_cons_of_mem _ hi))]

/-- Updating the scan of exactly one vertex of a duplicate-free vertex
list by prepending one record permutes the whole collection by that one
record. -/
theorem flatMap_update_perm {α : Type} (f f' : Nat → List α) (e : α) (j : Nat) :
    ∀ l : List Nat, l.Nodup → j ∈ l → f' j = e :: f j →
      (∀ i ∈ l, i ≠ j → f' i = f i) → (l.flatMap f').Perm (e :: l.flatMap f)
  | [], _, hj, _, _ => absurd hj (List.not_mem_nil _)
  | a :: rest, hnd, hj, hfj, hother => by
    rw [List.flatMap_cons, List.flatMap_cons]
    by_cases ha : a = j
    · subst ha
      have hrest : rest.flatMap f' = rest.flatMap f :=
        flatMap_ext_eq f f' rest (fun i hi => hother i (List.mem_cons_of_mem _ hi)
          (fun hij => (List.nodup_cons.mp hnd).1 (hij ▸ hi)))
      rw [hfj, hrest]
      exact List.Perm.refl _
    · have hj' : j ∈ rest := by
        rcases List.mem_cons.mp hj with h | h
        · exact absurd h.symm ha
        · exact h
      have ihp := flatMap_update_perm f f' e j rest (List.nodup_cons.mp hnd).2 hj' hfj
        (fun i hi hij => hother i (List.mem_cons_of_mem _ hi) hij)
      have hfa : f' a = f a := hother a (List.mem_cons_self _ _) ha
      rw [hfa]
      exact ((ihp.append_left (f a))).trans List.perm_middle

/-- Adding one edge through `Graph::addEdge` preserves basic shape
well-formedness and the vertex count. -/
theorem addEdge_wfBasic (g g' : Graph) (u v w : Int) (hwf : g.wfBasic)
    (h : g.addEdge u v w = .ok g') : g'.wfBasic ∧ g'.n = g.n := by
  rw [Graph.addEdge] at h
  split at h
  · exact absurd h (by simp)
  · have hg' := (Except.ok.inj h).symm
    subst hg'
    exact ⟨⟨hwf.1, by simp [addDirected, hwf.2]⟩, rfl⟩

/-- A sequence of successful `addEdge` calls preserves basic shape
well-formedness and the vertex count. -/
theorem addEdges_wfBasic :
    ∀ (ops : List (Int × Int × Int)) (g0 g : Graph), g0.wfBasic →
      addEdges g0 ops = .ok g → g.wfBasic ∧ g.n = g0.n
  | [], g0, g, hwf, h => by
    simp only [addEdges] at h
    cases h
    exact ⟨hwf, rfl⟩
  | (u, v, w) :: rest, g0, g, hwf, h => by
    simp only [addEdges] at h
    cases hadd : g0.addEdge u v w with
    | error e => rw [hadd] at h; exact absurd h (by simp)
    | ok g1 =>
      rw [hadd] at h
      obtain ⟨hwf1, hn1⟩ := addEdge_wfBasic g0 g1 u v w hwf hadd
      obtain ⟨hwfg, hng⟩ := addEdges_wfBasic rest g1 g hwf1 h
      exact ⟨hwfg, hng.trans hn1⟩

/-- One `addEdge` call changes the capacity-free collected-edge multiset
by exactly the edge's contribution: nothing for a self-loop, one
normalized record otherwise. -/
theorem pureCollect_addEdge (g g' : Graph) (u v w : Int)
    (hwf : g.wfBasic) (h : g.addEdge u v w = .ok g') :
    (↑(pureCollect g') : Multiset (Int × Int × Int)) =
      ↑(pureCollect g) + opEdge (u, v, w) := by
  rw [Graph.addEdge] at h
  by_cases hcond : u < 0 ∨ u ≥ g.n ∨ v < 0 ∨ v ≥ g.n
  · rw [if_pos hcond] at h
    exact absurd h (by simp)
  rw [if_neg hcond] at h
  have hg' : g' = ⟨g.n, addDirected (addDirected g.adj u v w) v u w⟩ :=
    (Except.ok.inj h).symm
  have hu0 : 0 ≤ u := by omega
  have hv0 : 0 ≤ v := by omega
  have hun : u < g.n := by omega
  have hvn : v < g.n := by omega
  have hulen : u.toNat < g.adj.length := by rw [hwf.2]; omega
  have hvlen : v.toNat < g.adj.length := by rw [hwf.2]; omega
  have hcastu : ((u.toNat : Nat) : Int) = u := Int.toNat_of_nonneg hu0
  have hcastv : ((v.toNat : Nat) : Int) = v := Int.toNat_of_nonneg hv0
  subst hg'
  by_cases huv : u = v
  · subst huv
    have hD : (addDirected (addDirected g.adj u u w) u u w).getD u.toNat [] =
        (u, w) :: (u, w) :: g.adj.getD u.toNat [] := by
      rw [addDirected, getD_set_self _ _ _ _ (by simp [addDirected, hulen]),
        addDirected, getD_set_self _ _ _ _ hulen]
    have hsame : ∀ i ∈ List.range g.n.toNat,
        pureScan i ((addDirected (addDirected g.adj u u w) u u w).getD i []) =
        pureScan i (g.adj.getD i []) := by
      intro i _
      by_cases hiu : i = u.toNat
      · subst hiu
        rw [hD, pureScan_cons, pureScan_cons, if_neg (by rw [hcastu]; omega),
          if_neg (by rw [hcastu]; omega)]
      · have hgd : (addDirected (addDirected g.adj u u w) u u w).getD i [] =
            g.adj.getD i [] := by
          rw [addDirected, getD_set_ne _ _ _ (fun hh => hiu hh.symm),
            addDirected, getD_set_ne _ _ _ (fun hh => hiu hh.symm)]
        rw [hgd]
    have hpc : pureCollect ⟨g.n, addDirected (addDirected g.adj u u w) u u w⟩ =
        pureCollect g :=
      flatMap_ext_eq _ _ _ hsame
    rw [hpc, opEdge]
    simp
  · have hmain : ∀ (j : Nat) (e : Int × Int × Int),
        j ∈ List.range g.n.toNat →
        (fun i => pureScan i
            ((addDirected (addDirected g.adj u v w) v u w).getD i [])) j =
          e :: (fun i => pureScan i (g.adj.getD i [])) j →
        (∀ i ∈ List.range g.n.toNat, i ≠ j →
          (fun i => pureScan i
            ((addDirected (addDirected g.adj u v w) v u w).getD i [])) i =
          (fun i => pureScan i (g.adj.getD i [])) i) →
        (↑(pureCollect ⟨g.n, addDirected (addDirected g.adj u v w) v u w⟩) :
            Multiset (Int × Int × Int)) = ↑(pureCollect g) + {e} := by
      intro j e hjmem hfj hother
      have hperm := flatMap_update_perm _ _ e j (List.range g.n.toNat)
        (List.nodup_range _) hjmem hfj hother
      have hco := Multiset.coe_eq_coe.mpr hperm
      rw [pureCollect, pureCollect]
      rw [hco]
      rw [add_comm, Multiset.singleton_add]
      simp
    have htn : u.toNat ≠ v.toNat := by omega
    have hDu : (addDirected (addDirected g.adj u v w) v u w).getD u.toNat [] =
        (v, w) :: g.adj.getD u.toNat [] := by
      rw [addDirected, getD_set_ne _ _ _ (fun hh => htn hh.symm),
        addDirected, getD_set_self _ _ _ _ hulen]
    have hDv : (addDirected (addDirected g.adj u v w) v u w).getD v.toNat [] =
        (u, w) :: g.adj.getD v.toNat [] := by
      rw [addDirected, getD_set_self _ _ _ _ (by simp [addDirected, hvlen]),
        addDirected, getD_set_ne _ _ _ htn]
    have hoth : ∀ i ∈ List.range g.n.toNat, i ≠ u.toNat → i ≠ v.toNat →
        (addDirected (addDirected g.adj u v w) v u w).getD i [] =
        g.adj.getD i [] := by
      intro i _ hiu hiv
      rw [addDirected, getD_set_ne _ _ _ (fun hh => hiv hh.symm),
        addDirected, getD_set_ne _ _ _ (fun hh => hiu hh.symm)]
    rcases lt_or_gt_of_ne huv with hlt | hgt
    · have he := hmain u.toNat (w, u, v)
        (List.mem_range.mpr (by omega))
        (by
          show pureScan u.toNat _ = _
          rw [hDu, pureScan_cons, if_pos (by rw [hcastu]; exact hlt), hcastu])
        (by
          intro i hi hij
          by_cases hiv : i = v.toNat
          · subst hiv
            show pureScan v.toNat _ = _
            rw [hDv, pureScan_cons, if_neg (by rw [hcastv]; omega)]
          · show pureScan i _ = pureScan i _
            rw [hoth i hi hij hiv])
      rw [he, opEdge]
      have : ¬((u, v, w).1 = (u, v, w).2.1) := huv
      rw [if_neg this]
      congr 2
      simp [min_eq_left hlt.le, max_eq_right hlt.le]
    · have he := hmain v.toNat (w, v, u)
        (List.mem_range.mpr (by omega))
        (by
          show pureScan v.toNat _ = _
          rw [hDv, pureScan_cons, if_pos (by rw [hcastv]; exact hgt), hcastv])
        (by
          intro i hi hij
          by_cases hiu : i = u.toNat
          · subst hiu
            show pureScan u.toNat _ = _
            rw [hDu, pureScan_cons, if_neg (by rw [hcastu]; omega)]
          · show pureScan i _ = pureScan i _
            rw [hoth i hi hiu hij])
      rw [he, opEdge]
      have : ¬((u, v, w).1 = (u, v, w).2.1) := huv
      rw [if_neg this]
      congr 2
      simp [min_eq_right hgt.le, max_eq_left hgt.le]

/-- A successful sequence of `addEdge` calls accumulates exactly the
per-edge contributions in the capacity-free collected-edge multiset. -/
theorem addEdges_pureCollect :
    ∀ (ops : List (Int × Int × Int)) (g0 g : Graph), g0.wfBasic →
      addEdges g0 ops = .ok g →
      (↑(pureCollect g) : Multiset (Int × Int × Int)) =
        ↑(pureCollect g0) + (ops.map opEdge).sum
  | [], g0, g, _, h => by
    simp only [addEdges] at h
    cases h
    simp
  | (u, v, w) :: rest, g0, g, hwf, h => by
    simp only [addEdges] at h
    cases hadd : g0.addEdge u v w with
    | error e => rw [hadd] at h; exact absurd h (by simp)
    | ok g1 =>
      rw [hadd] at h
      have hwf1 := (addEdge_wfBasic g0 g1 u v w hwf hadd).1
      have ih := addEdges_pureCollect rest g1 g hwf1 h
      have hstep := pureCollect_addEdge g0 g1 u v w hwf hadd
      rw [ih, hstep, List.map_cons, List.sum_cons, add_assoc]

/-- A fresh graph from `Graph::Graph(n)` is well-formed, has vertex count
`n`, and collects no edges. -/
theorem construct_wf (n : Int) (g0 : Graph) (h : Graph.construct n = .ok g0) :
    g0.wfBasic ∧ g0.n = n ∧ pureCollect g0 = [] := by
  rw [Graph.construct] at h
  split at h
  · exact absurd h (by simp)
  · next hn =>
    have hg0 := (Except.ok.inj h).symm
    subst hg0
    refine ⟨⟨by show (0 : Int) ≤ n; omega,
      by show (List.replicate n.toNat ([] : List (Int × Int))).length = n.toNat; simp⟩,
      rfl, ?_⟩
    have hgd : ∀ i, (List.replicate n.toNat ([] : List (Int × Int))).getD i [] = [] := by
      intro i
      rw [List.getD_eq_getElem?_getD, List.getElem?_replicate]
      split <;> rfl
    rw [pureCollect]
    have : ∀ l : List Nat,
        (l.flatMap (fun i => pureScan i
          ((List.replicate n.toNat ([] : List (Int × Int))).getD i []))) = [] := by
      intro l
      induction l with
      | nil => rfl
      | cons a rest ih => rw [List.flatMap_cons, ih, hgd]; rfl
    exact this _

/-- The sum of per-edge contributions over a self-loop-free history is
the multiset of normalized edge records. -/
theorem opEdge_sum :
    ∀ ops : List (Int × Int × Int), (∀ op ∈ ops, op.1 ≠ op.2.1) →
      (ops.map opEdge).sum =
        ↑(ops.map (fun op => (op.2.2, min op.1 op.2.1, max op.1 op.2.1)))
  | [], _ => by simp
  | op :: rest, h => by
    rw [List.map_cons, List.sum_cons, List.map_cons,
      opEdge_sum rest (fun x hx => h x (List.mem_cons_of_mem _ hx))]
    rw [opEdge, if_neg (h op (List.mem_cons_self _ _)), Multiset.singleton_add]
    rfl

/-- C8 counterexample: a graph holding only the self-loop `(0,0,1)` is a
graph whose undirected edge count (one) is within the 500-edge bound,
yet kruskal's scan collects nothing: the self-loop is never collected,
so the gathered multiset differs from the input edge multiset. -/
theorem claim_C8_counterexample :
    buildGraph 1 [(0, 0, 1)] = .ok ⟨1, [[(0, 1), (0, 1)]]⟩ ∧
    collectAll ⟨1, [[(0, 1), (0, 1)]]⟩ (List.range (1 : Nat)) [] = .ok [] ∧
    (↑(([] : List (Int × Int × Int)).map edgeKey) : Multiset (Int × Int × Int)) ≠
      ↑([((0 : Int), (0 : Int), (1 : Int))].map opKey) := by
  refine ⟨by decide, by decide, ?_⟩
  decide

/-- C8 amended: for every graph built by a self-loop-free `addEdge`
history whose collection stays within kruskal's 500-edge bound (i.e. the
collection returns normally), the multiset of collected edges equals the
multiset of undirected edges of the history, each collected exactly
once. -/
theorem claim_C8_collect_multiset (n : Int) (ops : List (Int × Int × Int))
    (g : Graph) (es : List (Int × Int × Int))
    (hops : ∀ op ∈ ops, op.1 ≠ op.2.1)
    (hb : buildGraph n ops = .ok g)
    (hc : collectAll g (List.range g.n.toNat) [] = .ok es) :
    (↑(es.map edgeKey) : Multiset (Int × Int × Int)) = ↑(ops.map opKey) := by
  rw [buildGraph] at hb
  cases hcon : Graph.construct n with
  | error e => rw [hcon] at hb; exact absurd hb (by simp)
  | ok g0 =>
    rw [hcon] at hb
    obtain ⟨hwf0, _, hpc0⟩ := construct_wf n g0 hcon
    have hsum := addEdges_pureCollect ops g0 g hwf0 hb
    rw [hpc0] at hsum
    have hwfg := (addEdges_wfBasic ops g0 g hwf0 hb).1
    have hes : es = pureCollect g := by
      have hval : ∀ u ∈ List.range g.n.toNat, (u : Int) < g.n := by
        intro u hu
        have := List.mem_range.mp hu
        omega
      have := collectAll_ok g (List.range g.n.toNat) [] es hval hc
      simpa [pureCollect] using this
    rw [hes]
    rw [opEdge_sum ops hops] at hsum
    have hcoe : (↑(pureCollect g) : Multiset (Int × Int × Int)) =
        ↑(ops.map (fun op => (op.2.2, min op.1 op.2.1, max op.1 op.2.1))) := by
      rw [hsum]
      simp
    calc (↑((pureCollect g).map edgeKey) : Multiset (Int × Int × Int))
        = Multiset.map edgeKey ↑(pureCollect g) := by simp
      _ = Multiset.map edgeKey
            ↑(ops.map (fun op => (op.2.2, min op.1 op.2.1, max op.1 op.2.1))) := by
          rw [hcoe]
      _ = ↑(ops.map opKey) := by
          simp only [Multiset.map_coe, List.map_map]
          rfl

/-- Witness for C8 at a concrete input: the triangle construction
history. -/
theorem claim_C8_witness :
    (↑(([(5, 0, 2), (1, 0, 1), (2, 1, 2)] :
        List (Int × Int × Int)).map edgeKey) : Multiset (Int × Int × Int)) =
      ↑(([(0, 1, 1), (1, 2, 2), (0, 2, 5)] : List (Int × Int × Int)).map opKey) :=
  claim_C8_collect_multiset 3 [(0, 1, 1), (1, 2, 2), (0, 2, 5)] triG
    [(5, 0, 2), (1, 0, 1), (2, 1, 2)] (by decide) (by decide) (by decide)

/-- Witness for C7 at a concrete input: the triangle graph with the added
edge `(0, 1, 7)`. -/
theorem claim_C7_witness :
    (∃ l, (Graph.mk 3 [[(1, 7), (2, 5), (1, 1)], [(0, 7), (2, 2), (0, 1)],
        [(0, 5), (1, 2)]]).getNeighbors 0 = .ok l ∧ ((1 : Int), (7 : Int)) ∈ l) ∧
    (∃ l, (Graph.mk 3 [[(1, 7), (2, 5), (1, 1)], [(0, 7), (2, 2), (0, 1)],
        [(0, 5), (1, 2)]]).getNeighbors 1 = .ok l ∧ ((0 : Int), (7 : Int)) ∈ l) ∧
    (∀ g2, pairCount (Graph.mk 3 [[(1, 7), (2, 5), (1, 1)], [(0, 7), (2, 2), (0, 1)],
        [(0, 5), (1, 2)]]) 0 1 7 = 1 →
      pairCount (Graph.mk 3 [[(1, 7), (2, 5), (1, 1)], [(0, 7), (2, 2), (0, 1)],
        [(0, 5), (1, 2)]]) 1 0 7 = 1 →
      (Graph.mk 3 [[(1, 7), (2, 5), (1, 1)], [(0, 7), (2, 2), (0, 1)],
        [(0, 5), (1, 2)]]).removeEdge 0 1 = .ok g2 →
      (∀ l, g2.getNeighbors 0 = .ok l → ((1 : Int), (7 : Int)) ∉ l) ∧
      (∀ l, g2.getNeighbors 1 = .ok l → ((0 : Int), (7 : Int)) ∉ l)) :=
  claim_C7_add_remove_symmetry triG
    (Graph.mk 3 [[(1, 7), (2, 5), (1, 1)], [(0, 7), (2, 2), (0, 1)], [(0, 5), (1, 2)]])
    0 1 7 (by decide) (by decide) (by decide) (by decide) (by decide) (by decide)

/-- **Counterexample to C1.** Two connected graphs of positive size with
non-negative weights on which the claimed entry count fails. On the
parallel-edge graph both dijkstra and prim throw CapacityExceeded instead
of returning a tree. On the INT_MAX-weight graph both return normally
with a 0-entry tree, because the relaxation test `dist[u] + w < dist[v]`
(resp. `w < key[v]`) saturates against the INT_MAX infinity sentinel;
2(n-1) = 2 there, and kruskal does return the 2-entry tree. -/
theorem claim_C1_counterexample :
    ((0 : Int) < par2G.n ∧ par2G.wfBasic ∧ par2G.wNonneg ∧ connectedFrom par2G 0 ∧
      Algorithms.dijkstra 20 par2G 0 = .error .capacityExceeded ∧
      Algorithms.prim 20 par2G = .error .capacityExceeded) ∧
    ((0 : Int) < satG.n ∧ satG.wfBasic ∧ satG.wNonneg ∧ connectedFrom satG 0 ∧
      Algorithms.dijkstra 20 satG 0 = .ok (Graph.mk 2 [[], []]) ∧
      Algorithms.prim 20 satG = .ok (Graph.mk 2 [[], []]) ∧
      (Graph.mk 2 [[], []]).entryCount = 0 ∧
      0 ≠ 2 * (satG.n.toNat - 1) ∧
      Algorithms.kruskal 20 satG = .ok (Graph.mk 2 [[(1, INTMAX)], [(0, INTMAX)]]) ∧
      (Graph.mk 2 [[(1, INTMAX)], [(0, INTMAX)]]).entryCount = 2 * (satG.n.toNat - 1)) :=
  by decide

/-- Replacing one list cell shifts a `Nat` sum additively. -/
theorem sum_set_add :
    ∀ (l : List Nat) (i : Nat) (v : Nat), i < l.length →
      (l.set i v).sum + l.getD i 0 = l.sum + v
  | [], _, _, h => absurd h (by simp)
  | a :: rest, 0, v, _ => by
    simp only [List.set_cons_zero, List.getD_cons_zero, List.sum_cons]
    omega
  | a :: rest, i + 1, v, h => by
    have ih := sum_set_add rest i v (by simpa using h)
    simp only [List.set_cons_succ, List.getD_cons_succ, List.sum_cons]
    omega

/-- `countP` analogue of `count_set_add`: counting after one cell
write. -/
theorem countP_set_add {α : Type} (p : α → Bool) :
    ∀ (l : List α) (i : Nat) (b : α), i < l.length →
      (l.set i b).countP p + (if p (l.getD i b) then 1 else 0) =
        l.countP p + (if p b then 1 else 0)
  | [], _, _, h => absurd h (by simp)
  | c :: rest, 0, b, _ => by
    simp only [List.set_cons_zero, List.getD_cons_zero, List.countP_cons]
    split_ifs <;> simp_all <;> omega
  | c :: rest, i + 1, b, h => by
    simp only [List.set_cons_succ, List.getD_cons_succ, List.countP_cons]
    have ih := countP_set_add p rest i b (by simpa using h)
    split_ifs at ih ⊢ <;> simp_all <;> omega

/-- The map-length cell of a valid index. -/
theorem getD_map_length (a : List (List (Int × Int))) (i : Nat) (h : i < a.length) :
    (a.map List.length).getD i 0 = (a.getD i []).length := by
  rw [List.getD_eq_getElem?_getD, List.getD_eq_getElem?_getD, List.getElem?_map,
    List.getElem?_eq_getElem h]
  rfl

/-- One directed head insertion adds exactly one adjacency entry and
keeps the outer array length. -/
theorem entryCount_addDirected (a : List (List (Int × Int))) (src dest wt : Int)
    (hl : src.toNat < a.length) :
    ((addDirected a src dest wt).map List.length).sum = (a.map List.length).sum + 1 ∧
    (addDirected a src dest wt).length = a.length := by
  constructor
  · rw [addDirected, List.map_set]
    have hml : src.toNat < (a.map List.length).length := by simpa using hl
    have hs := sum_set_add (a.map List.length) src.toNat
      ((dest, wt) :: a.getD src.toNat []).length hml
    rw [getD_map_length a src.toNat hl] at hs
    simp only [List.length_cons] at hs ⊢
    omega
  · simp [addDirected]

/-- A successful `addEdge` adds exactly two adjacency entries. -/
theorem entryCount_addEdge (g g' : Graph) (u v w : Int) (hwf : g.wfBasic)
    (h : g.addEdge u v w = .ok g') :
    g'.entryCount = g.entryCount + 2 := by
  rw [Graph.addEdge] at h
  split at h
  · exact absurd h (by simp)
  · next hc =>
    push_neg at hc
    obtain ⟨hu0, hun, hv0, hvn⟩ := hc
    have hg' := (Except.ok.inj h).symm
    subst hg'
    have hul : u.toNat < g.adj.length := by
      have h2 := hwf.2
      omega
    have hvl : v.toNat < g.adj.length := by
      have h2 := hwf.2
      omega
    have h1 := entryCount_addDirected g.adj u v w hul
    have hvl2 : v.toNat < (addDirected g.adj u v w).length := by
      rw [h1.2]
      exact hvl
    have h2 := entryCount_addDirected (addDirected g.adj u v w) v u w hvl2
    show ((addDirected (addDirected g.adj u v w) v u w).map List.length).sum = _
    rw [h2.1, h1.1, Graph.entryCount]

/-- Entry counting through the final build loop of dijkstra: each vertex
with a recorded predecessor contributes exactly two entries. -/
theorem buildDijkstraList_count :
    ∀ (vs : List Nat) (dist prev : List Int) (tree tree' : Graph),
      tree.wfBasic →
      buildDijkstraList dist prev vs tree = .ok tree' →
      tree'.n = tree.n ∧
      tree'.entryCount =
        tree.entryCount + 2 * vs.countP (fun v => !(prev.getD v 0 == -1))
  | [], dist, prev, tree, tree', _, h => by
    simp only [buildDijkstraList] at h
    cases h
    simp
  | v :: rest, dist, prev, tree, tree', hwf, h => by
    rw [buildDijkstraList] at h
    cases hrp : readL prev (v : Int) with
    | error e =>
      rw [hrp] at h
      simp only at h
      cases h
    | ok pv =>
      rw [hrp] at h
      simp only at h
      obtain ⟨hv0, hvl, hpv⟩ := readL_inv prev (v : Int) pv 0 hrp
      have hvt : ((v : Int)).toNat = v := by simp
      rw [hvt] at hpv
      by_cases hne : pv ≠ -1
      · rw [if_pos hne] at h
        cases hdv : readL dist (v : Int) with
        | error e =>
          rw [hdv] at h
          simp only at h
          cases h
        | ok dv =>
          rw [hdv] at h
          simp only at h
          cases hdpv : readL dist pv with
          | error e =>
            rw [hdpv] at h
            simp only at h
            cases h
          | ok dpv =>
            rw [hdpv] at h
            simp only at h
            cases hsub : cppSub dv dpv with
            | error e =>
              rw [hsub] at h
              simp only at h
              cases h
            | ok w =>
              rw [hsub] at h
              simp only at h
              cases hadd : tree.addEdge pv (v : Int) w with
              | error e =>
                rw [hadd] at h
                simp only at h
                cases h
              | ok tree2 =>
                rw [hadd] at h
                simp only at h
                have hwf2 := addEdge_wfBasic tree tree2 pv (v : Int) w hwf hadd
                have hcnt := entryCount_addEdge tree tree2 pv (v : Int) w hwf hadd
                obtain ⟨hn2, hc2⟩ :=
                  buildDijkstraList_count rest dist prev tree2 tree' hwf2.1 h
                refine ⟨hn2.trans hwf2.2, ?_⟩
                have hp : (!(prev.getD v 0 == -1)) = true := by
                  rw [← hpv]
                  simpa using hne
                rw [hc2, hcnt]
                have hcp : (v :: rest).countP (fun x => !(prev.getD x 0 == -1)) =
                    rest.countP (fun x => !(prev.getD x 0 == -1)) + 1 := by
                  rw [List.countP_cons, if_pos hp]
                rw [hcp]
                omega
      · rw [if_neg hne] at h
        have hpveq : pv = -1 := by
          by_contra hcon
          exact hne hcon
        obtain ⟨hn2, hc2⟩ := buildDijkstraList_count rest dist prev tree tree' hwf h
        refine ⟨hn2, ?_⟩
        have hp : (!(prev.getD v 0 == -1)) = false := by
          rw [← hpv, hpveq]
          simp
        rw [hc2]
        have hcp : (v :: rest).countP (fun x => !(prev.getD x 0 == -1)) =
            rest.countP (fun x => !(prev.getD x 0 == -1)) := by
          rw [List.countP_cons, if_neg (by rw [hp]; simp)]
          simp
        rw [hcp]

/-- Entry counting through the final build loop of prim. -/
theorem buildPrimList_count :
    ∀ (vs : List Nat) (key parent : List Int) (tree tree' : Graph),
      tree.wfBasic →
      buildPrimList key parent vs tree = .ok tree' →
      tree'.n = tree.n ∧
      tree'.entryCount =
        tree.entryCount + 2 * vs.countP (fun v => !(parent.getD v 0 == -1))
  | [], key, parent, tree, tree', _, h => by
    simp only [buildPrimList] at h
    cases h
    simp
  | v :: rest, key, parent, tree, tree', hwf, h => by
    rw [buildPrimList] at h
    cases hrp : readL parent (v : Int) with
    | error e =>
      rw [hrp] at h
      simp only at h
      cases h
    | ok pv =>
      rw [hrp] at h
      simp only at h
      obtain ⟨hv0, hvl, hpv⟩ := readL_inv parent (v : Int) pv 0 hrp
      have hvt : ((v : Int)).toNat = v := by simp
      rw [hvt] at hpv
      by_cases hne : pv ≠ -1
      · rw [if_pos hne] at h
        cases hkv : readL key (v : Int) with
        | error e =>
          rw [hkv] at h
          simp only at h
          cases h
        | ok kv =>
          rw [hkv] at h
          simp only at h
          cases hadd : tree.addEdge pv (v : Int) kv with
          | error e =>
            rw [hadd] at h
            simp only at h
            cases h
          | ok tree2 =>
            rw [hadd] at h
            simp only at h
            have hwf2 := addEdge_wfBasic tree tree2 pv (v : Int) kv hwf hadd
            have hcnt := entryCount_addEdge tree tree2 pv (v : Int) kv hwf hadd
            obtain ⟨hn2, hc2⟩ :=
              buildPrimList_count rest key parent tree2 tree' hwf2.1 h
            refine ⟨hn2.trans hwf2.2, ?_⟩
            have hp : (!(parent.getD v 0 == -1)) = true := by
              rw [← hpv]
              simpa using hne
            rw [hc2, hcnt]
            have hcp : (v :: rest).countP (fun x => !(parent.getD x 0 == -1)) =
                rest.countP (fun x => !(parent.getD x 0 == -1)) + 1 := by
              rw [List.countP_cons, if_pos hp]
            rw [hcp]
            omega
      · rw [if_neg hne] at h
        have hpveq : pv = -1 := by
          by_contra hcon
          exact hne hcon
        obtain ⟨hn2, hc2⟩ := buildPrimList_count rest key parent tree tree' hwf h
        refine ⟨hn2, ?_⟩
        have hp : (!(parent.getD v 0 == -1)) = false := by
          rw [← hpv, hpveq]
          simp
        rw [hc2]
        have hcp : (v :: rest).countP (fun x => !(parent.getD x 0 == -1)) =
            rest.countP (fun x => !(parent.getD x 0 == -1)) := by
          rw [List.countP_cons, if_neg (by rw [hp]; simp)]
          simp
        rw [hcp]

/-- Closure principle for the expansion-based reachability list: a
predicate true at the seed and preserved across stored adjacency entries
is true of everything reachable. -/
theorem reach_closed (g : Graph) (P : Nat → Prop) (s0 : Nat) (hP0 : P s0)
    (hstep : ∀ u, P u → ∀ pr ∈ g.adj.getD u [], P (pr : Int × Int).1.toNat) :
    ∀ k, ∀ x ∈ reachList g k s0, P x
  | 0, x, hx => by
    simp only [reachList] at hx
    have hxs : x = s0 := by simpa using hx
    rwa [hxs]
  | k + 1, x, hx => by
    simp only [reachList, expand] at hx
    rw [List.mem_dedup] at hx
    rcases List.mem_append.mp hx with hx | hx
    · exact reach_closed g P s0 hP0 hstep k x hx
    · obtain ⟨u, hu, hxm⟩ := List.mem_flatMap.mp hx
      obtain ⟨pr, hpr, hpx⟩ := List.mem_map.mp hxm
      have hPu := reach_closed g P s0 hP0 hstep k u hu
      rw [← hpx]
      exact hstep u hPu pr hpr

/-- `countP` over an initial range after flipping the predicate at
exactly one point from true to false. -/
theorem countP_pointwise_sub (p q : Nat → Bool) :
    ∀ (n : Nat) (x0 : Nat), x0 < n → p x0 = true → q x0 = false →
      (∀ x, x < n → x ≠ x0 → q x = p x) →
      (List.range n).countP q + 1 = (List.range n).countP p
  | 0, x0, h, _, _, _ => absurd h (by omega)
  | n + 1, x0, h, hp, hq, hag => by
    rw [List.range_succ, List.countP_append, List.countP_append]
    by_cases hx : x0 = n
    · subst hx
      have hcg : (List.range x0).countP q = (List.range x0).countP p := by
        apply List.countP_congr
        intro a ha
        have haa := List.mem_range.mp ha
        rw [hag a (by omega) (by omega)]
      rw [hcg]
      simp [hp, hq]
    · have ih := countP_pointwise_sub p q n x0 (by omega) hp hq
        (fun x hxn => hag x (by omega))
      have hn : q n = p n := hag n (by omega) (fun hh => hx hh.symm)
      have h1 : ([n] : List Nat).countP q = ([n] : List Nat).countP p := by
        simp [List.countP_cons, hn]
      rw [h1]
      omega

/-- `countP` over an initial range of a predicate with at most one
satisfying point is at most one. -/
theorem countP_le_one_unique (p : Nat → Bool) :
    ∀ n : Nat, (∀ x, x < n → ∀ y, y < n → p x = true → p y = true → x = y) →
      (List.range n).countP p ≤ 1
  | 0, _ => by simp
  | n + 1, hu => by
    rw [List.range_succ, List.countP_append]
    by_cases hp : p n = true
    · have hz : (List.range n).countP p = 0 := by
        rw [List.countP_eq_zero]
        intro a ha hpa
        have han := hu a (by have := List.mem_range.mp ha; omega) n (by omega) hpa hp
        have := List.mem_range.mp ha
        omega
      rw [hz]
      simp [hp]
    · have ih := countP_le_one_unique p n (fun x hx y hy => hu x (by omega) y (by omega))
      have hpf : p n = false := by
        cases hpn : p n
        · rfl
        · exact absurd hpn hp
      have h0 : ([n] : List Nat).countP p = 0 := by
        simp [List.countP_cons, hpf]
      rw [h0]
      omega

/-- The range `countP` of "different from a fixed member" is the length
less one. -/
theorem countP_range_ne (n s : Nat) (hs : s < n) :
    (List.range n).countP (fun v => !(v == s)) + 1 = n := by
  have h := countP_pointwise_sub (fun _ => true) (fun v => !(v == s)) n s hs rfl
    (by simp) (fun x _ hx => by simp [hx])
  rw [List.countP_true] at h
  simpa using h

/-- Inversion of one step of dijkstra's relaxation scan: either the head
edge improved `dist`, performing the two writes and the queue push, or it
did not and the state is unchanged. -/
theorem relaxScan_cons_inv (u v0 w0 : Int) (rest : List (Int × Int))
    (dist prev : List Int) (pq : PQ) (r : List Int × List Int × PQ)
    (h : relaxScan u ((v0, w0) :: rest) dist prev pq = .ok r) :
    ∃ du dv, readL dist u = .ok du ∧ readL dist v0 = .ok dv ∧
      ((du + w0 < dv ∧ ∃ pq2,
          pq.insert v0 (du + w0) = .ok pq2 ∧
          relaxScan u rest (dist.set v0.toNat (du + w0))
            (prev.set v0.toNat u) pq2 = .ok r) ∨
       (¬ du + w0 < dv ∧ relaxScan u rest dist prev pq = .ok r)) := by
  rw [relaxScan] at h
  cases hdu : readL dist u with
  | error e =>
    rw [hdu] at h
    simp only at h
    cases h
  | ok du =>
    rw [hdu] at h
    simp only at h
    cases hs : cppAdd du w0 with
    | error e =>
      rw [hs] at h
      simp only at h
      cases h
    | ok s =>
      rw [hs] at h
      simp only at h
      have hs' := cppAdd_inv du w0 s hs
      subst hs'
      cases hdv : readL dist v0 with
      | error e =>
        rw [hdv] at h
        simp only at h
        cases h
      | ok dv =>
        rw [hdv] at h
        simp only at h
        refine ⟨du, dv, rfl, rfl, ?_⟩
        by_cases hlt : du + w0 < dv
        · rw [if_pos hlt] at h
          cases hwd : writeL dist v0 (du + w0) with
          | error e =>
            rw [hwd] at h
            simp only at h
            cases h
          | ok dist2 =>
            rw [hwd] at h
            simp only at h
            cases hwp : writeL prev v0 u with
            | error e =>
              rw [hwp] at h
              simp only at h
              cases h
            | ok prev2 =>
              rw [hwp] at h
              simp only at h
              cases hins : pq.insert v0 (du + w0) with
              | error e =>
                rw [hins] at h
                simp only at h
                cases h
              | ok pq2 =>
                rw [hins] at h
                simp only at h
                obtain ⟨-, -, hd2⟩ := writeL_inv dist v0 (du + w0) dist2 hwd
                obtain ⟨-, -, hp2⟩ := writeL_inv prev v0 u prev2 hwp
                subst hd2 hp2
                exact .inl ⟨hlt, pq2, rfl, h⟩
        · rw [if_neg hlt] at h
          exact .inr ⟨hlt, h⟩

/-- One relaxation scan of dijkstra preserves the stability invariant:
from an in-scan state, a successful scan of the whole remaining snapshot
reestablishes the loop-level invariant for the updated state. -/
theorem relaxScan_inv (g : Graph) (u : Int) (hu0 : 0 ≤ u) (hun : u < g.n)
    (hlen : g.adj.length = g.n.toNat) (hwn : g.wNonneg) :
    ∀ (nbrs : List (Int × Int)) (dist prev : List Int) (pq : PQ),
      (∀ p ∈ nbrs, p ∈ g.adj.getD u.toNat []) →
      dscanInv g u nbrs dist prev pq →
      ∀ dist' prev' pq',
        relaxScan u nbrs dist prev pq = .ok (dist', prev', pq') →
        dijkInv g dist' prev' pq'
  | [], dist, prev, pq, _, hinv, dist', prev', pq', h => by
    simp only [relaxScan] at h
    have hinj := Except.ok.inj h
    rw [Prod.mk.injEq, Prod.mk.injEq] at hinj
    obtain ⟨rfl, rfl, rfl⟩ := hinj
    obtain ⟨hl1, hl2, hv⟩ := hinv
    refine ⟨hl1, hl2, fun v hvn hvp => ?_⟩
    obtain ⟨hpok, hst⟩ := hv v hvn hvp
    refine ⟨hpok, ?_⟩
    rcases hst with hA | hB | hC
    · exact .inl hA
    · exact .inr hB
    · obtain ⟨w, hw, -⟩ := hC
      exact absurd hw (List.not_mem_nil _)
  | (v0, w0) :: rest, dist, prev, pq, hsub, hinv, dist', prev', pq', h => by
    obtain ⟨hl1, hl2, hv⟩ := hinv
    obtain ⟨du, dv, hdu, hdv, hbr⟩ :=
      relaxScan_cons_inv u v0 w0 rest dist prev pq (dist', prev', pq') h
    obtain ⟨-, hul, hdu'⟩ := readL_inv dist u du 0 hdu
    obtain ⟨hv00, hvl, hdv'⟩ := readL_inv dist v0 dv 0 hdv
    have hw0mem : (v0, w0) ∈ g.adj.getD u.toNat [] :=
      hsub (v0, w0) (List.mem_cons_self _ _)
    have hw0nn : (0 : Int) ≤ w0 :=
      hwn _ (adj_getD_mem g hlen u hu0 hun) (v0, w0) hw0mem
    rcases hbr with ⟨hlt, pq2, hins, hrec⟩ | ⟨hge, hrec⟩
    · obtain ⟨hperm, hcap⟩ := insert_heap_perm pq pq2 v0 (du + w0) hins
      have hne : v0.toNat ≠ u.toNat := by
        intro hvu
        rw [hvu, ← hdu'] at hdv'
        omega
      have hvlp : v0.toNat < prev.length := by omega
      refine relaxScan_inv g u hu0 hun hlen hwn rest _ _ pq2
        (fun p hp => hsub p (List.mem_cons_of_mem _ hp)) ?_ dist' prev' pq' hrec
      refine ⟨by simpa using hl1, by simpa using hl2, fun v hvn hvp => ?_⟩
      by_cases hvv : v = v0.toNat
      · subst hvv
        have hpv : (prev.set v0.toNat u).getD v0.toNat 0 = u :=
          getD_set_self _ _ _ _ hvlp
        refine ⟨⟨by rw [hpv]; exact hu0, by rw [hpv]; exact hun⟩, .inl ?_⟩
        simp only [dstable]
        rw [hpv]
        refine ⟨w0, ?_, ?_⟩
        · rw [Int.toNat_of_nonneg hv00]
          exact hw0mem
        · rw [getD_set_self _ _ _ _ hvl, getD_set_ne _ _ _ hne]
          omega
      · have hpv2 : (prev.set v0.toNat u).getD v 0 = prev.getD v 0 :=
          getD_set_ne _ _ _ (fun hh => hvv hh.symm)
        have hdv2 : (dist.set v0.toNat (du + w0)).getD v 0 = dist.getD v 0 :=
          getD_set_ne _ _ _ (fun hh => hvv hh.symm)
        rw [hpv2] at hvp
        obtain ⟨hpok, hst⟩ := hv v hvn hvp
        refine ⟨?_, ?_⟩
        · simp only [predOK]
          rw [hpv2]
          exact hpok
        · simp only [dstable, dpending, dinscan] at hst ⊢
          rw [hpv2, hdv2]
          by_cases hpvv : (prev.getD v 0).toNat = v0.toNat
          · have hdpv2 : (dist.set v0.toNat (du + w0)).getD (prev.getD v 0).toNat 0 =
                du + w0 := by
              rw [hpvv]
              exact getD_set_self _ _ _ _ hvl
            have hpveq : prev.getD v 0 = v0 := by
              have h1 := hpok.1
              rw [← Int.toNat_of_nonneg h1, hpvv, Int.toNat_of_nonneg hv00]
            rw [hdpv2]
            rcases hst with hA | hB | hC
            · obtain ⟨w, hwm, hwe⟩ := hA
              refine .inr (.inl ⟨⟨w, hwm, ?_⟩, du + w0, ?_⟩)
              · rw [hpvv, ← hdv'] at hwe
                omega
              · rw [hpveq]
                exact hperm.mem_iff.mpr (List.mem_append_right _ (by simp))
            · obtain ⟨⟨w, hwm, hwlt2⟩, p, hp⟩ := hB
              refine .inr (.inl ⟨⟨w, hwm, ?_⟩, p, ?_⟩)
              · rw [hpvv, ← hdv'] at hwlt2
                omega
              · exact hperm.mem_iff.mpr (List.mem_append_left _ hp)
            · obtain ⟨w, hwm, hwlt2⟩ := hC
              rcases List.mem_cons.mp hwm with heq | hrest2
              · exfalso
                rw [Prod.mk.injEq] at heq
                have h1 := heq.1
                exact hvv (by omega)
              · refine .inr (.inr ⟨w, hrest2, ?_⟩)
                rw [getD_set_ne _ _ _ hne]
                exact hwlt2
          · have hdpv2 : (dist.set v0.toNat (du + w0)).getD (prev.getD v 0).toNat 0 =
                dist.getD (prev.getD v 0).toNat 0 :=
              getD_set_ne _ _ _ (fun hh => hpvv hh.symm)
            rw [hdpv2]
            rcases hst with hA | hB | hC
            · exact .inl hA
            · obtain ⟨hBl, p, hp⟩ := hB
              exact .inr (.inl ⟨hBl, p, hperm.mem_iff.mpr (List.mem_append_left _ hp)⟩)
            · obtain ⟨w, hwm, hwlt2⟩ := hC
              rcases List.mem_cons.mp hwm with heq | hrest2
              · exfalso
                rw [Prod.mk.injEq] at heq
                have h1 := heq.1
                exact hvv (by omega)
              · refine .inr (.inr ⟨w, hrest2, ?_⟩)
                rw [getD_set_ne _ _ _ hne]
                exact hwlt2
    · refine relaxScan_inv g u hu0 hun hlen hwn rest dist prev pq
        (fun p hp => hsub p (List.mem_cons_of_mem _ hp)) ?_ dist' prev' pq' hrec
      refine ⟨hl1, hl2, fun v hvn hvp => ?_⟩
      obtain ⟨hpok, hst⟩ := hv v hvn hvp
      refine ⟨hpok, ?_⟩
      rcases hst with hA | hB | hC
      · exact .inl hA
      · exact .inr (.inl hB)
      · obtain ⟨w, hwm, hwlt2⟩ := hC
        rcases List.mem_cons.mp hwm with heq | hrest2
        · exfalso
          rw [Prod.mk.injEq] at heq
          obtain ⟨h1, h2⟩ := heq
          have hvv2 : v = v0.toNat := by omega
          rw [hvv2, ← hdv'] at hwlt2
          rw [← hdu'] at hwlt2
          omega
        · exact .inr (.inr ⟨w, hrest2, hwlt2⟩)

/-- With an empty priority queue the stability invariant collapses to the
stable state at every recorded predecessor. -/
theorem dijkInv_empty_stable (g : Graph) (dist prev : List Int) (pq : PQ)
    (hinv : dijkInv g dist prev pq) (hemp : pq.isEmpty = true) :
    dist.length = g.n.toNat ∧ prev.length = g.n.toNat ∧
    ∀ v, v < g.n.toNat → prev.getD v 0 ≠ -1 →
      predOK g prev v ∧ dstable g dist prev v := by
  have hnil : pq.heap = [] := by
    have h2 : pq.heap.length = 0 := by simpa [PQ.isEmpty] using hemp
    exact List.eq_nil_of_length_eq_zero h2
  obtain ⟨hl1, hl2, hv⟩ := hinv
  refine ⟨hl1, hl2, fun v hvn hvp => ?_⟩
  obtain ⟨hpok, hst⟩ := hv v hvn hvp
  refine ⟨hpok, ?_⟩
  rcases hst with hA | hB
  · exact hA
  · obtain ⟨-, p, hp⟩ := hB
    rw [hnil] at hp
    exact absurd hp (List.not_mem_nil _)

/-- The dijkstra main loop preserves the stability invariant and, on
normal return, leaves every recorded predecessor stable. -/
theorem dijkstraLoop_inv (g : Graph) (hlen : g.adj.length = g.n.toNat)
    (hwn : g.wNonneg) :
    ∀ (fuel : Nat) (dist prev : List Int) (pq : PQ),
      dijkInv g dist prev pq →
      ∀ dist' prev', dijkstraLoop fuel g dist prev pq = .ok (dist', prev') →
        dist'.length = g.n.toNat ∧ prev'.length = g.n.toNat ∧
        ∀ v, v < g.n.toNat → prev'.getD v 0 ≠ -1 →
          predOK g prev' v ∧ dstable g dist' prev' v
  | 0, dist, prev, pq, hinv, dist', prev', h => by
    rw [dijkstraLoop] at h
    split at h
    · next hemp =>
      have hinj := Except.ok.inj h
      rw [Prod.mk.injEq] at hinj
      obtain ⟨rfl, rfl⟩ := hinj
      exact dijkInv_empty_stable g dist prev pq hinv hemp
    · cases h
  | fuel + 1, dist, prev, pq, hinv, dist', prev', h => by
    rw [dijkstraLoop] at h
    split at h
    · next hemp =>
      have hinj := Except.ok.inj h
      rw [Prod.mk.injEq] at hinj
      obtain ⟨rfl, rfl⟩ := hinj
      exact dijkInv_empty_stable g dist prev pq hinv hemp
    · next hemp =>
      cases hx : pq.extractMin with
      | error e =>
        rw [hx] at h
        simp only at h
        cases h
      | ok p =>
        obtain ⟨u, pq1⟩ := p
        rw [hx] at h
        simp only at h
        cases hnb : g.getNeighbors u with
        | error e =>
          rw [hnb] at h
          simp only at h
          cases h
        | ok nbrs =>
          rw [hnb] at h
          simp only at h
          cases hrs : relaxScan u nbrs dist prev pq1 with
          | error e =>
            rw [hrs] at h
            simp only at h
            cases h
          | ok t =>
            obtain ⟨dist2, prev2, pq2⟩ := t
            rw [hrs] at h
            simp only at h
            obtain ⟨hu0, hun, hnbrs⟩ := getNeighbors_inv g u nbrs hnb
            obtain ⟨top, hrest, hheap, hutop, hperm, hcap⟩ :=
              extract_heap_perm pq pq1 u hx
            have hscan : dscanInv g u nbrs dist prev pq1 := by
              obtain ⟨hl1, hl2, hv⟩ := hinv
              refine ⟨hl1, hl2, fun v hvn hvp => ?_⟩
              obtain ⟨hpok, hst⟩ := hv v hvn hvp
              refine ⟨hpok, ?_⟩
              rcases hst with hA | hB
              · exact .inl hA
              · obtain ⟨⟨w, hwm, hwlt⟩, pr, hp⟩ := hB
                rw [hheap] at hp
                rcases List.mem_cons.mp hp with heq | hrest2
                · have hpvu : prev.getD v 0 = u := by
                    rw [hutop, ← heq]
                  refine .inr (.inr ⟨w, ?_, ?_⟩)
                  · rw [hnbrs, ← hpvu]
                    exact hwm
                  · rw [← hpvu]
                    exact hwlt
                · exact .inr (.inl ⟨⟨w, hwm, hwlt⟩, pr, hperm.mem_iff.mpr hrest2⟩)
            have hinv2 := relaxScan_inv g u hu0 hun hlen hwn nbrs dist prev pq1
              (fun p2 hp2 => by rw [hnbrs] at hp2; exact hp2) hscan dist2 prev2 pq2 hrs
            exact dijkstraLoop_inv g hlen hwn fuel dist2 prev2 pq2 hinv2 dist' prev' h

/-- **C2.** On every graph with non-negative weights, whenever dijkstra
returns normally the result tree is exactly the one obtained by scanning
every vertex `v` with a recorded predecessor and adding the edge
`(prev[v], v, dist[v] - dist[prev[v]])`; and at every such vertex that
distance delta is the weight of a stored edge between `prev[v]` and `v`
in the input graph. -/
theorem claim_C2_dijkstra_tree (g : Graph) (fuel : Nat) (start : Int)
    (dist prev : List Int) (tree : Graph)
    (hwfb : g.wfBasic) (hwn : g.wNonneg)
    (hrun : Algorithms.dijkstraFull fuel g start = .ok (dist, prev, tree)) :
    (∃ tree0, Graph.construct g.n = .ok tree0 ∧
      buildDijkstraList dist prev (List.range g.n.toNat) tree0 = .ok tree) ∧
    ∀ v, v < g.n.toNat → prev.getD v 0 ≠ -1 → deltaEdge g dist prev v := by
  rw [Algorithms.dijkstraFull] at hrun
  cases hc : Graph.construct g.n with
  | error e =>
    rw [hc] at hrun
    simp only at hrun
    cases hrun
  | ok tree0 =>
    rw [hc] at hrun
    simp only at hrun
    cases hw0 : writeL (List.replicate g.n.toNat INTMAX) start 0 with
    | error e =>
      rw [hw0] at hrun
      simp only at hrun
      cases hrun
    | ok dist0 =>
      rw [hw0] at hrun
      simp only at hrun
      cases hpqc : PQ.construct g.n with
      | error e =>
        rw [hpqc] at hrun
        simp only at hrun
        cases hrun
      | ok pq0 =>
        rw [hpqc] at hrun
        simp only at hrun
        cases hins1 : pq0.insert start 0 with
        | error e =>
          rw [hins1] at hrun
          simp only at hrun
          cases hrun
        | ok pq1 =>
          rw [hins1] at hrun
          simp only at hrun
          cases hloop : dijkstraLoop fuel g dist0 (List.replicate g.n.toNat (-1)) pq1 with
          | error e =>
            rw [hloop] at hrun
            simp only at hrun
            cases hrun
          | ok pr =>
            obtain ⟨dist1, prev1⟩ := pr
            rw [hloop] at hrun
            simp only at hrun
            cases hbuild : buildDijkstraList dist1 prev1 (List.range g.n.toNat) tree0 with
            | error e =>
              rw [hbuild] at hrun
              simp only at hrun
              cases hrun
            | ok tree1 =>
              rw [hbuild] at hrun
              simp only at hrun
              have hinj := Except.ok.inj hrun
              rw [Prod.mk.injEq, Prod.mk.injEq] at hinj
              obtain ⟨rfl, rfl, rfl⟩ := hinj
              constructor
              · exact ⟨tree0, rfl, hbuild⟩
              · obtain ⟨hst0, hstl, hdist0⟩ :=
                  writeL_inv (List.replicate g.n.toNat INTMAX) start 0 dist0 hw0
                have hinv0 : dijkInv g dist0 (List.replicate g.n.toNat (-1)) pq1 := by
                  refine ⟨?_, by simp, fun v hvn hvp => ?_⟩
                  · rw [hdist0]
                    simp
                  · exfalso
                    rw [getD_replicate _ _ _ _ hvn] at hvp
                    exact hvp rfl
                obtain ⟨hfl1, hfl2, hfin⟩ :=
                  dijkstraLoop_inv g hwfb.2 hwn fuel dist0
                    (List.replicate g.n.toNat (-1)) pq1 hinv0 _ _ hloop
                intro v hvn hvp
                obtain ⟨hpok, w, hwm, hwe⟩ := hfin v hvn hvp
                exact ⟨hpok.1, hpok.2, w, hwm, by omega⟩

/-- Witness for C2 at a concrete input: dijkstra from vertex 0 on the
triangle graph. -/
theorem claim_C2_witness :
    triG.wfBasic ∧ triG.wNonneg ∧
    Algorithms.dijkstraFull 10 triG 0 =
      .ok (([0, 1, 3] : List Int), ([-1, 0, 1] : List Int),
        Graph.mk 3 [[(1, 1)], [(2, 2), (0, 1)], [(1, 2)]]) ∧
    ((∃ tree0, Graph.construct triG.n = .ok tree0 ∧
        buildDijkstraList ([0, 1, 3] : List Int) ([-1, 0, 1] : List Int)
          (List.range triG.n.toNat) tree0 =
          .ok (Graph.mk 3 [[(1, 1)], [(2, 2), (0, 1)], [(1, 2)]])) ∧
      ∀ v, v < triG.n.toNat → (([-1, 0, 1] : List Int).getD v 0) ≠ -1 →
        deltaEdge triG ([0, 1, 3] : List Int) ([-1, 0, 1] : List Int) v) :=
  ⟨by decide, by decide, by rfl,
   claim_C2_dijkstra_tree triG 10 0 ([0, 1, 3] : List Int) ([-1, 0, 1] : List Int)
     (Graph.mk 3 [[(1, 1)], [(2, 2), (0, 1)], [(1, 2)]])
     (by decide) (by decide) (by rfl)⟩

/-- The in-bounds `getD` ignores the default. -/
theorem getD_default_irrel {α : Type} (l : List α) (i : Nat) (d1 d2 : α)
    (h : i < l.length) : l.getD i d1 = l.getD i d2 := by
  rw [List.getD_eq_getElem?_getD, List.getD_eq_getElem?_getD,
    List.getElem?_eq_getElem h]
  rfl

/-- `PriorityQueue` construction inversion. -/
theorem PQconstruct_inv (cap : Int) (q : PQ) (h : PQ.construct cap = .ok q) :
    0 < cap ∧ q = ⟨cap, []⟩ := by
  rw [PQ.construct] at h
  split at h
  · cases h
  · next hc => exact ⟨by omega, (Except.ok.inj h).symm⟩

/-- One relaxation scan of dijkstra preserves the counting invariant. -/
theorem relaxScan_cnt (g : Graph) (start B u : Int)
    (hu0 : 0 ≤ u) (hun : u < g.n) (hlen : g.adj.length = g.n.toNat)
    (hwn : g.wNonneg) (hwle : g.wLE B) (hB0 : 0 ≤ B) (hBn : g.n * B < INTMAX)
    (hwfe : g.wfEntries) :
    ∀ (nbrs : List (Int × Int)) (dist prev : List Int) (pq : PQ),
      (∀ p ∈ nbrs, p ∈ g.adj.getD u.toNat []) →
      dist.getD u.toNat 0 < INTMAX →
      dijkCntScan g start B u nbrs dist prev pq →
      ∀ dist' prev' pq',
        relaxScan u nbrs dist prev pq = .ok (dist', prev', pq') →
        dijkCnt g start B dist' prev' pq'
  | [], dist, prev, pq, _, _, hinv, dist', prev', pq', h => by
    simp only [relaxScan] at h
    have hinj := Except.ok.inj h
    rw [Prod.mk.injEq, Prod.mk.injEq] at hinj
    obtain ⟨rfl, rfl, rfl⟩ := hinj
    obtain ⟨h1, h2, h3, h4, h5, h6, h7, h8, h9, h10⟩ := hinv
    refine ⟨h1, h2, h3, h4, h5, h6, h7, h8, fun x hx hfx => ?_⟩
    by_cases hxu : x = u.toNat
    · subst hxu
      refine .inr (fun pr hpr => ?_)
      rcases h10 pr hpr with hf | hmem
      · exact hf
      · exact absurd hmem (List.not_mem_nil _)
    · exact h9 x hx hfx hxu
  | (v0, w0) :: rest, dist, prev, pq, hsub, hufin, hinv, dist', prev', pq', h => by
    obtain ⟨h1, h2, h3, h4, h5, h6, h7, h8, h9, h10⟩ := hinv
    obtain ⟨du, dv, hdu, hdv, hbr⟩ :=
      relaxScan_cons_inv u v0 w0 rest dist prev pq (dist', prev', pq') h
    obtain ⟨-, hul, hdu'⟩ := readL_inv dist u du 0 hdu
    obtain ⟨hv00, hvl, hdv'⟩ := readL_inv dist v0 dv 0 hdv
    have hw0mem : (v0, w0) ∈ g.adj.getD u.toNat [] :=
      hsub (v0, w0) (List.mem_cons_self _ _)
    have hadjmem := adj_getD_mem g hlen u hu0 hun
    have hw0nn : (0 : Int) ≤ w0 := hwn _ hadjmem (v0, w0) hw0mem
    have hw0le : w0 ≤ B := hwle _ hadjmem (v0, w0) hw0mem
    have hv0n : v0 < g.n := (hwfe _ hadjmem (v0, w0) hw0mem).2
    have hutn : u.toNat < g.n.toNat := by omega
    have hvtn : v0.toNat < g.n.toNat := by omega
    have hdu0 : (0 : Int) ≤ du := by
      have hx := (h3 u.toNat hutn).1
      omega
    have hFle : finCount dist ≤ g.n.toNat := by
      simp only [finCount]
      rw [← h1]
      exact List.countP_le_length _
    have hgn : ((g.n.toNat : Int)) = g.n := Int.toNat_of_nonneg (by omega)
    have hdub := h7 u.toNat hutn hufin
    rw [← hdu'] at hdub
    have hbound : du + w0 ≤ g.n * B := by
      have hF : ((finCount dist : Int)) ≤ ((g.n.toNat : Int)) := by
        exact_mod_cast hFle
      have hmul : ((finCount dist : Int)) * B ≤ ((g.n.toNat : Int)) * B :=
        mul_le_mul_of_nonneg_right hF hB0
      rw [hgn] at hmul
      have hr : ((finCount dist : Int) - 1) * B + B = (finCount dist : Int) * B := by
        ring
      linarith
    have hvalfin : du + w0 < INTMAX := lt_of_le_of_lt hbound hBn
    rcases hbr with ⟨hlt, pq2, hins, hrec⟩ | ⟨hge, hrec⟩
    · obtain ⟨hperm, hcap⟩ := insert_heap_perm pq pq2 v0 (du + w0) hins
      have hne : v0.toNat ≠ u.toNat := by
        intro hvu
        rw [hvu, ← hdu'] at hdv'
        omega
      have hnes : v0.toNat ≠ start.toNat := by
        intro hvs
        rw [hvs, h4] at hdv'
        omega
      have hlp : v0.toNat < prev.length := by omega
      have hFrel := countP_set_add (fun d => decide (d < INTMAX)) dist v0.toNat
        (du + w0) hvl
      rw [getD_default_irrel dist v0.toNat (du + w0) 0 hvl, ← hdv'] at hFrel
      rw [if_pos (decide_eq_true hvalfin)] at hFrel
      have hF2 : (finCount (dist.set v0.toNat (du + w0)) : Int) = (finCount dist : Int) + 1 -
          (if dv < INTMAX then 1 else 0) := by
        simp only [finCount]
        by_cases hdvf : dv < INTMAX
        · rw [if_pos hdvf]
          rw [if_pos (decide_eq_true hdvf)] at hFrel
          push_cast
          omega
        · rw [if_neg hdvf]
          rw [if_neg (by simpa using hdvf)] at hFrel
          push_cast
          omega
      have hF2ge : (finCount dist : Int) ≤ (finCount (dist.set v0.toNat (du + w0)) : Int) := by
        rw [hF2]
        split_ifs <;> omega
      refine relaxScan_cnt g start B u hu0 hun hlen hwn hwle hB0 hBn hwfe rest _ _ pq2
        (fun p hp => hsub p (List.mem_cons_of_mem _ hp)) ?_ ?_ dist' prev' pq' hrec
      · rw [getD_set_ne _ _ _ hne]
        exact hufin
      refine ⟨by simpa using h1, by simpa using h2, ?_, ?_, ?_, ?_, ?_, ?_, ?_, ?_⟩
      · intro v hv
        by_cases hvv : v = v0.toNat
        · subst hvv
          rw [getD_set_self _ _ _ _ hvl]
          omega
        · rw [getD_set_ne _ _ _ (fun hh => hvv hh.symm)]
          exact h3 v hv
      · rw [getD_set_ne _ _ _ hnes]
        exact h4
      · rw [getD_set_ne _ _ _ hnes]
        exact h5
      · intro v hv hvs hvf
        by_cases hvv : v = v0.toNat
        · subst hvv
          rw [getD_set_self _ _ _ _ hlp]
          omega
        · rw [getD_set_ne _ _ _ (fun hh => hvv hh.symm)] at hvf ⊢
          exact h6 v hv hvs hvf
      · intro v hv hvf
        by_cases hvv : v = v0.toNat
        · subst hvv
          rw [getD_set_self _ _ _ _ hvl]
          by_cases hdvf : dv < INTMAX
          · have hdvb := h7 v0.toNat hvtn (by rw [← hdv']; exact hdvf)
            rw [← hdv'] at hdvb
            rw [hF2, if_pos hdvf]
            have hmul : ((finCount dist : Int) - 1) * B ≤
                ((finCount dist : Int) + 1 - 1 - 1) * B := by
              apply mul_le_mul_of_nonneg_right _ hB0
              omega
            linarith
          · rw [hF2, if_neg hdvf]
            have hr : ((finCount dist : Int) + 1 - 0 - 1) * B =
                ((finCount dist : Int) - 1) * B + B := by
              ring
            rw [hr]
            linarith
        · rw [getD_set_ne _ _ _ (fun hh => hvv hh.symm)] at hvf ⊢
          have hvb := h7 v hv hvf
          have hmul : ((finCount dist : Int) - 1) * B ≤
              ((finCount (dist.set v0.toNat (du + w0)) : Int) - 1) * B := by
            apply mul_le_mul_of_nonneg_right _ hB0
            omega
          linarith
      · intro e he
        have hem := hperm.mem_iff.mp he
        rcases List.mem_append.mp hem with hold | hnew
        · obtain ⟨he0, hen, hef⟩ := h8 e hold
          refine ⟨he0, hen, ?_⟩
          by_cases hev : e.1.toNat = v0.toNat
          · rw [hev, getD_set_self _ _ _ _ hvl]
            exact hvalfin
          · rw [getD_set_ne _ _ _ (fun hh => hev hh.symm)]
            exact hef
        · have hee : e = (v0, du + w0) := by simpa using hnew
          subst hee
          refine ⟨hv00, hv0n, ?_⟩
          rw [getD_set_self _ _ _ _ hvl]
          exact hvalfin
      · intro x hx hxf hxu
        by_cases hxv : x = v0.toNat
        · subst hxv
          refine .inl ⟨du + w0, ?_⟩
          have hcast : ((v0.toNat : Int)) = v0 := Int.toNat_of_nonneg hv00
          rw [hcast]
          exact hperm.mem_iff.mpr (List.mem_append_right _ (by simp))
        · rw [getD_set_ne _ _ _ (fun hh => hxv hh.symm)] at hxf
          rcases h9 x hx hxf hxu with ⟨p, hp⟩ | hnb
          · exact .inl ⟨p, hperm.mem_iff.mpr (List.mem_append_left _ hp)⟩
          · refine .inr (fun pr hpr => ?_)
            by_cases hprv : pr.1.toNat = v0.toNat
            · rw [hprv, getD_set_self _ _ _ _ hvl]
              exact hvalfin
            · rw [getD_set_ne _ _ _ (fun hh => hprv hh.symm)]
              exact hnb pr hpr
      · intro pr hpr
        rcases h10 pr hpr with hf | hmem
        · refine .inl ?_
          by_cases hprv : pr.1.toNat = v0.toNat
          · rw [hprv, getD_set_self _ _ _ _ hvl]
            exact hvalfin
          · rw [getD_set_ne _ _ _ (fun hh => hprv hh.symm)]
            exact hf
        · rcases List.mem_cons.mp hmem with heq | hr2
          · refine .inl ?_
            have hpr1 : pr.1 = v0 := by rw [heq]
            rw [hpr1, getD_set_self _ _ _ _ hvl]
            exact hvalfin
          · exact .inr hr2
    · refine relaxScan_cnt g start B u hu0 hun hlen hwn hwle hB0 hBn hwfe rest dist prev pq
        (fun p hp => hsub p (List.mem_cons_of_mem _ hp)) hufin ?_ dist' prev' pq' hrec
      refine ⟨h1, h2, h3, h4, h5, h6, h7, h8, h9, fun pr hpr => ?_⟩
      rcases h10 pr hpr with hf | hmem
      · exact .inl hf
      · rcases List.mem_cons.mp hmem with heq | hr2
        · refine .inl ?_
          have hpr1 : pr.1 = v0 := by rw [heq]
          rw [hpr1, ← hdv']
          omega
        · exact .inr hr2

/-- With an empty queue the counting invariant yields full closure of
the finite set under stored adjacency. -/
theorem dijkCnt_empty (g : Graph) (start B : Int) (dist prev : List Int) (pq : PQ)
    (hinv : dijkCnt g start B dist prev pq) (hemp : pq.isEmpty = true) :
    dist.length = g.n.toNat ∧ prev.length = g.n.toNat ∧
    dist.getD start.toNat 0 = 0 ∧ prev.getD start.toNat 0 = -1 ∧
    (∀ v, v < g.n.toNat → v ≠ start.toNat → dist.getD v 0 < INTMAX →
      prev.getD v 0 ≠ -1) ∧
    (∀ x, x < g.n.toNat → dist.getD x 0 < INTMAX →
      ∀ pr ∈ g.adj.getD x [], dist.getD (pr : Int × Int).1.toNat 0 < INTMAX) := by
  have hnil : pq.heap = [] := by
    have h2 : pq.heap.length = 0 := by simpa [PQ.isEmpty] using hemp
    exact List.eq_nil_of_length_eq_zero h2
  obtain ⟨h1, h2, h3, h4, h5, h6, h7, h8, h9⟩ := hinv
  refine ⟨h1, h2, h4, h5, h6, fun x hx hfx pr hpr => ?_⟩
  rcases h9 x hx hfx with ⟨p, hp⟩ | hnb
  · rw [hnil] at hp
    exact absurd hp (List.not_mem_nil _)
  · exact hnb pr hpr

/-- The dijkstra main loop carries the counting invariant to the end: on
normal return the final arrays satisfy its closure facts outright. -/
theorem dijkstraLoop_cnt (g : Graph) (start B : Int)
    (hlen : g.adj.length = g.n.toNat) (hwn : g.wNonneg) (hwle : g.wLE B)
    (hB0 : 0 ≤ B) (hBn : g.n * B < INTMAX) (hwfe : g.wfEntries) :
    ∀ (fuel : Nat) (dist prev : List Int) (pq : PQ),
      dijkCnt g start B dist prev pq →
      ∀ dist' prev', dijkstraLoop fuel g dist prev pq = .ok (dist', prev') →
        dist'.length = g.n.toNat ∧ prev'.length = g.n.toNat ∧
        dist'.getD start.toNat 0 = 0 ∧ prev'.getD start.toNat 0 = -1 ∧
        (∀ v, v < g.n.toNat → v ≠ start.toNat → dist'.getD v 0 < INTMAX →
          prev'.getD v 0 ≠ -1) ∧
        (∀ x, x < g.n.toNat → dist'.getD x 0 < INTMAX →
          ∀ pr ∈ g.adj.getD x [], dist'.getD (pr : Int × Int).1.toNat 0 < INTMAX)
  | 0, dist, prev, pq, hinv, dist', prev', h => by
    rw [dijkstraLoop] at h
    split at h
    · next hemp =>
      have hinj := Except.ok.inj h
      rw [Prod.mk.injEq] at hinj
      obtain ⟨rfl, rfl⟩ := hinj
      exact dijkCnt_empty g start B dist prev pq hinv hemp
    · cases h
  | fuel + 1, dist, prev, pq, hinv, dist', prev', h => by
    rw [dijkstraLoop] at h
    split at h
    · next hemp =>
      have hinj := Except.ok.inj h
      rw [Prod.mk.injEq] at hinj
      obtain ⟨rfl, rfl⟩ := hinj
      exact dijkCnt_empty g start B dist prev pq hinv hemp
    · next hemp =>
      cases hx : pq.extractMin with
      | error e =>
        rw [hx] at h
        simp only at h
        cases h
      | ok p =>
        obtain ⟨u, pq1⟩ := p
        rw [hx] at h
        simp only at h
        cases hnb : g.getNeighbors u with
        | error e =>
          rw [hnb] at h
          simp only at h
          cases h
        | ok nbrs =>
          rw [hnb] at h
          simp only at h
          cases hrs : relaxScan u nbrs dist prev pq1 with
          | error e =>
            rw [hrs] at h
            simp only at h
            cases h
          | ok t =>
            obtain ⟨dist2, prev2, pq2⟩ := t
            rw [hrs] at h
            simp only at h
            obtain ⟨hu0, hun, hnbrs⟩ := getNeighbors_inv g u nbrs hnb
            obtain ⟨top, hrest, hheap, hutop, hperm, hcap⟩ :=
              extract_heap_perm pq pq1 u hx
            obtain ⟨h1, h2, h3, h4, h5, h6, h7, h8, h9⟩ := hinv
            have htopmem : top ∈ pq.heap := by
              rw [hheap]
              exact List.mem_cons_self _ _
            have htopf := h8 top htopmem
            have hufin : dist.getD u.toNat 0 < INTMAX := by
              rw [hutop]
              exact htopf.2.2
            have hscan : dijkCntScan g start B u nbrs dist prev pq1 := by
              refine ⟨h1, h2, h3, h4, h5, h6, h7, ?_, ?_, ?_⟩
              · intro e he
                exact h8 e (by
                  rw [hheap]
                  exact List.mem_cons_of_mem _ (hperm.mem_iff.mp he))
              · intro x hx2 hxf hxu
                rcases h9 x hx2 hxf with ⟨p2, hp2⟩ | hnb2
                · rw [hheap] at hp2
                  rcases List.mem_cons.mp hp2 with heq | hr2
                  · exfalso
                    apply hxu
                    have hxv : ((x : Int)) = top.1 := by rw [← heq]
                    rw [← hutop] at hxv
                    omega
                  · exact .inl ⟨p2, hperm.mem_iff.mpr hr2⟩
                · exact .inr hnb2
              · intro pr hpr
                refine .inr ?_
                rw [hnbrs]
                exact hpr
            have hinv2 := relaxScan_cnt g start B u hu0 hun hlen hwn hwle hB0 hBn
              hwfe nbrs dist prev pq1
              (fun p2 hp2 => by rw [hnbrs] at hp2; exact hp2) hufin hscan
              dist2 prev2 pq2 hrs
            exact dijkstraLoop_cnt g start B hlen hwn hwle hB0 hBn hwfe fuel
              dist2 prev2 pq2 hinv2 dist' prev' h

/-- A freshly constructed graph has no adjacency entries. -/
theorem construct_entryCount (n : Int) (g0 : Graph) (h : Graph.construct n = .ok g0) :
    g0.entryCount = 0 := by
  rw [Graph.construct] at h
  split at h
  · cases h
  · have hg := (Except.ok.inj h).symm
    subst hg
    show ((List.replicate n.toNat ([] : List (Int × Int))).map List.length).sum = 0
    simp

/-- Dijkstra part of the amended C1: under a weight bound that excludes
sentinel saturation, a normal dijkstra run on a graph connected from the
start yields exactly `2(n-1)` adjacency entries. -/
theorem dijkstra_count_ok (g : Graph) (B : Int) (fuel : Nat) (start : Int) (t : Graph)
    (hwfb : g.wfBasic) (hwfe : g.wfEntries) (hwn : g.wNonneg) (hwle : g.wLE B)
    (hB0 : 0 ≤ B) (hBn : g.n * B < INTMAX)
    (hs0 : 0 ≤ start) (hsn : start < g.n) (hconn : connectedFrom g start.toNat)
    (hrun : Algorithms.dijkstra fuel g start = .ok t) :
    t.entryCount = 2 * (g.n.toNat - 1) := by
  have hIMv : INTMAX = 2147483647 := rfl
  rw [Algorithms.dijkstra] at hrun
  cases hfull : Algorithms.dijkstraFull fuel g start with
  | error e =>
    rw [hfull] at hrun
    simp only at hrun
    cases hrun
  | ok tr =>
    obtain ⟨dist, prev, tree⟩ := tr
    rw [hfull] at hrun
    simp only at hrun
    have htt : tree = t := Except.ok.inj hrun
    subst htt
    rw [Algorithms.dijkstraFull] at hfull
    cases hc : Graph.construct g.n with
    | error e =>
      rw [hc] at hfull
      simp only at hfull
      cases hfull
    | ok tree0 =>
      rw [hc] at hfull
      simp only at hfull
      cases hw0 : writeL (List.replicate g.n.toNat INTMAX) start 0 with
      | error e =>
        rw [hw0] at hfull
        simp only at hfull
        cases hfull
      | ok dist0 =>
        rw [hw0] at hfull
        simp only at hfull
        cases hpqc : PQ.construct g.n with
        | error e =>
          rw [hpqc] at hfull
          simp only at hfull
          cases hfull
        | ok pq0 =>
          rw [hpqc] at hfull
          simp only at hfull
          cases hins1 : pq0.insert start 0 with
          | error e =>
            rw [hins1] at hfull
            simp only at hfull
            cases hfull
          | ok pq1 =>
            rw [hins1] at hfull
            simp only at hfull
            cases hloop : dijkstraLoop fuel g dist0 (List.replicate g.n.toNat (-1)) pq1 with
            | error e =>
              rw [hloop] at hfull
              simp only at hfull
              cases hfull
            | ok pr2 =>
              obtain ⟨dist1, prev1⟩ := pr2
              rw [hloop] at hfull
              simp only at hfull
              cases hbuild : buildDijkstraList dist1 prev1 (List.range g.n.toNat) tree0 with
              | error e =>
                rw [hbuild] at hfull
                simp only at hfull
                cases hfull
              | ok tree1 =>
                rw [hbuild] at hfull
                simp only at hfull
                have hinj := Except.ok.inj hfull
                rw [Prod.mk.injEq, Prod.mk.injEq] at hinj
                obtain ⟨rfl, rfl, rfl⟩ := hinj
                obtain ⟨hst0, hstl, hdist0⟩ :=
                  writeL_inv (List.replicate g.n.toNat INTMAX) start 0 dist0 hw0
                obtain ⟨hcap0, hpq0⟩ := PQconstruct_inv g.n pq0 hpqc
                subst hpq0
                obtain ⟨hperm1, hcap1⟩ := insert_heap_perm _ pq1 start 0 hins1
                have hq1mem : ∀ e ∈ pq1.heap, e = (start, 0) := by
                  intro e he
                  have hm := hperm1.mem_iff.mp he
                  simpa using hm
                subst hdist0
                have hstn : start.toNat < g.n.toNat := by
                  have hx := hstl
                  simp at hx
                  omega
                have hsl : start.toNat < (List.replicate g.n.toNat INTMAX).length := by
                  simpa using hstn
                have hdist0v : ∀ v, v < g.n.toNat →
                    ((List.replicate g.n.toNat INTMAX).set start.toNat 0).getD v 0 =
                      if v = start.toNat then 0 else INTMAX := by
                  intro v hv
                  by_cases hvs : v = start.toNat
                  · subst hvs
                    rw [if_pos rfl, getD_set_self _ _ _ _ hsl]
                  · rw [if_neg hvs, getD_set_ne _ _ _ (fun hh => hvs hh.symm),
                      getD_replicate _ _ _ _ hv]
                have hF1 : finCount ((List.replicate g.n.toNat INTMAX).set start.toNat 0) = 1 := by
                  have hrel := countP_set_add (fun d => decide (d < INTMAX))
                    (List.replicate g.n.toNat INTMAX) start.toNat 0 hsl
                  have hz : (List.replicate g.n.toNat INTMAX).countP
                      (fun d => decide (d < INTMAX)) = 0 := by
                    rw [List.countP_eq_zero]
                    intro a ha
                    have haa := List.eq_of_mem_replicate ha
                    subst haa
                    simp
                  rw [hz, getD_replicate _ _ _ _ hstn] at hrel
                  rw [if_neg (by simp), if_pos (by decide)] at hrel
                  simp only [finCount]
                  omega
                have hinv0 : dijkCnt g start B
                    ((List.replicate g.n.toNat INTMAX).set start.toNat 0)
                    (List.replicate g.n.toNat (-1)) pq1 := by
                  refine ⟨by simp, by simp, ?_, ?_, ?_, ?_, ?_, ?_, ?_⟩
                  · intro v hv
                    rw [hdist0v v hv]
                    split_ifs <;> omega
                  · rw [getD_set_self _ _ _ _ hsl]
                  · rw [getD_replicate _ _ _ _ hstn]
                  · intro v hv hvs hvf
                    rw [hdist0v v hv, if_neg hvs] at hvf
                    omega
                  · intro v hv hvf
                    rw [hdist0v v hv] at hvf ⊢
                    rw [hF1]
                    by_cases hvs : v = start.toNat
                    · rw [if_pos hvs] at hvf ⊢
                      simp
                    · rw [if_neg hvs] at hvf
                      omega
                  · intro e he
                    have hee := hq1mem e he
                    subst hee
                    refine ⟨hs0, hsn, ?_⟩
                    rw [getD_set_self _ _ _ _ hsl]
                    omega
                  · intro x hx hxf
                    rw [hdist0v x hx] at hxf
                    by_cases hxs : x = start.toNat
                    · refine .inl ⟨0, ?_⟩
                      have hcast : ((x : Int)) = start := by
                        rw [hxs]
                        exact Int.toNat_of_nonneg hs0
                      rw [hcast]
                      exact hperm1.mem_iff.mpr (by simp)
                    · rw [if_neg hxs] at hxf
                      omega
                obtain ⟨hl1, hl2, hst00, hstp, hfinp, hclo⟩ :=
                  dijkstraLoop_cnt g start B hwfb.2 hwn hwle hB0 hBn hwfe fuel
                    _ _ pq1 hinv0 dist1 prev1 hloop
                have hstepP : ∀ u2, dist1.getD u2 0 < INTMAX →
                    ∀ pr ∈ g.adj.getD u2 [],
                      dist1.getD (pr : Int × Int).1.toNat 0 < INTMAX := by
                  intro u2 hu2 pr hpr
                  by_cases hu2n : u2 < g.n.toNat
                  · exact hclo u2 hu2n hu2 pr hpr
                  · rw [List.getD_eq_default _ _ (by rw [hwfb.2]; omega)] at hpr
                    exact absurd hpr (List.not_mem_nil _)
                have hallfin : ∀ v, v < g.n.toNat → dist1.getD v 0 < INTMAX := by
                  intro v hv
                  exact reach_closed g (fun x => dist1.getD x 0 < INTMAX) start.toNat
                    (by show dist1.getD start.toNat 0 < INTMAX; rw [hst00]; decide)
                    (fun u2 hu2 => hstepP u2 hu2) g.n.toNat v (hconn v hv)
                have hchar : ∀ v ∈ List.range g.n.toNat,
                    (!(prev1.getD v 0 == -1)) = (!(v == start.toNat)) := by
                  intro v hv
                  have hvn := List.mem_range.mp hv
                  by_cases hvs : v = start.toNat
                  · subst hvs
                    rw [hstp]
                    simp
                  · have hp := hfinp v hvn hvs (hallfin v hvn)
                    have hbe1 : (prev1.getD v 0 == -1) = false :=
                      beq_eq_false_iff_ne.mpr hp
                    have hbe2 : (v == start.toNat) = false :=
                      beq_eq_false_iff_ne.mpr hvs
                    rw [hbe1, hbe2]
                have hcnt : (List.range g.n.toNat).countP
                    (fun v => !(prev1.getD v 0 == -1)) = g.n.toNat - 1 := by
                  have hcg : (List.range g.n.toNat).countP
                      (fun v => !(prev1.getD v 0 == -1)) =
                      (List.range g.n.toNat).countP (fun v => !(v == start.toNat)) := by
                    apply List.countP_congr
                    intro a ha
                    rw [hchar a ha]
                  have hrange := countP_range_ne g.n.toNat start.toNat hstn
                  omega
                obtain ⟨hwf0, hn0, -⟩ := construct_wf g.n tree0 hc
                have hec0 := construct_entryCount g.n tree0 hc
                obtain ⟨hn1, hc1⟩ := buildDijkstraList_count (List.range g.n.toNat)
                  dist1 prev1 tree0 _ hwf0 hbuild
                rw [hec0, hcnt] at hc1
                rw [hc1]
                omega

/-- Inversion of one step of prim's relaxation scan. -/
theorem primScan_cons_inv (u v0 w0 : Int) (rest : List (Int × Int))
    (inMST : List Bool) (key parent : List Int) (pq : PQ)
    (r : List Int × List Int × PQ)
    (h : primScan u ((v0, w0) :: rest) inMST key parent pq = .ok r) :
    ∃ m, readL inMST v0 = .ok m ∧
      ((m = true ∧ primScan u rest inMST key parent pq = .ok r) ∨
       (m = false ∧ ∃ kv, readL key v0 = .ok kv ∧
         ((w0 < kv ∧ ∃ pq2, pq.insert v0 w0 = .ok pq2 ∧
             primScan u rest inMST (key.set v0.toNat w0)
               (parent.set v0.toNat u) pq2 = .ok r) ∨
          (¬ w0 < kv ∧ primScan u rest inMST key parent pq = .ok r)))) := by
  rw [primScan] at h
  cases hm : readL inMST v0 with
  | error e =>
    rw [hm] at h
    simp only at h
    cases h
  | ok m =>
    rw [hm] at h
    simp only at h
    refine ⟨m, rfl, ?_⟩
    cases m with
    | true =>
      rw [if_pos rfl] at h
      exact .inl ⟨rfl, h⟩
    | false =>
      rw [if_neg (by simp)] at h
      cases hkv : readL key v0 with
      | error e =>
        rw [hkv] at h
        simp only at h
        cases h
      | ok kv =>
        rw [hkv] at h
        simp only at h
        refine .inr ⟨rfl, kv, rfl, ?_⟩
        by_cases hlt : w0 < kv
        · rw [if_pos hlt] at h
          cases hwk : writeL key v0 w0 with
          | error e =>
            rw [hwk] at h
            simp only at h
            cases h
          | ok key2 =>
            rw [hwk] at h
            simp only at h
            cases hwp : writeL parent v0 u with
            | error e =>
              rw [hwp] at h
              simp only at h
              cases h
            | ok parent2 =>
              rw [hwp] at h
              simp only at h
              cases hins : pq.insert v0 w0 with
              | error e =>
                rw [hins] at h
                simp only at h
                cases h
              | ok pq2 =>
                rw [hins] at h
                simp only at h
                obtain ⟨-, -, hk2⟩ := writeL_inv key v0 w0 key2 hwk
                obtain ⟨-, -, hp2⟩ := writeL_inv parent v0 u parent2 hwp
                subst hk2 hp2
                exact .inl ⟨hlt, pq2, rfl, h⟩
        · rw [if_neg hlt] at h
          exact .inr ⟨hlt, h⟩

/-- One relaxation scan of prim preserves the counting invariant. -/
theorem primScan_cnt (g : Graph) (B u : Int)
    (hu0 : 0 ≤ u) (hun : u < g.n) (hlen : g.adj.length = g.n.toNat)
    (hwn : g.wNonneg) (hwle : g.wLE B) (hBI : B < INTMAX) (hwfe : g.wfEntries) :
    ∀ (nbrs : List (Int × Int)) (inMST : List Bool) (key parent : List Int) (pq : PQ),
      (∀ p ∈ nbrs, p ∈ g.adj.getD u.toNat []) →
      primCntScan g B u nbrs inMST key parent pq →
      ∀ key' parent' pq',
        primScan u nbrs inMST key parent pq = .ok (key', parent', pq') →
        primCnt g B inMST key' parent' pq'
  | [], inMST, key, parent, pq, _, hinv, key', parent', pq', h => by
    simp only [primScan] at h
    have hinj := Except.ok.inj h
    rw [Prod.mk.injEq, Prod.mk.injEq] at hinj
    obtain ⟨rfl, rfl, rfl⟩ := hinj
    obtain ⟨h1, h2, h3, h4, h5, h6, h7, h8, h9, h10, h11⟩ := hinv
    refine ⟨h1, h2, h3, h4, h5, h6, h7, h8, h9, fun x hx hfx => ?_⟩
    by_cases hxu : x = u.toNat
    · subst hxu
      refine .inr (fun pr hpr => ?_)
      rcases h11 pr hpr with hf | hmem
      · exact hf
      · exact absurd hmem (List.not_mem_nil _)
    · exact h10 x hx hfx hxu
  | (v0, w0) :: rest, inMST, key, parent, pq, hsub, hinv, key', parent', pq', h => by
    obtain ⟨h1, h2, h3, h4, h5, h6, h7, h8, h9, h10, h11⟩ := hinv
    obtain ⟨m, hm, hbr⟩ :=
      primScan_cons_inv u v0 w0 rest inMST key parent pq (key', parent', pq') h
    obtain ⟨hv00, hvlm, hmv⟩ := readL_inv inMST v0 m false hm
    have hw0mem : (v0, w0) ∈ g.adj.getD u.toNat [] :=
      hsub (v0, w0) (List.mem_cons_self _ _)
    have hadjmem := adj_getD_mem g hlen u hu0 hun
    have hw0nn : (0 : Int) ≤ w0 := hwn _ hadjmem (v0, w0) hw0mem
    have hw0le : w0 ≤ B := hwle _ hadjmem (v0, w0) hw0mem
    have hv0n : v0 < g.n := (hwfe _ hadjmem (v0, w0) hw0mem).2
    have hvtn : v0.toNat < g.n.toNat := by omega
    have hw0fin : w0 < INTMAX := lt_of_le_of_lt hw0le hBI
    rcases hbr with ⟨hmt, hrec⟩ | ⟨hmf, kv, hkv, hbr2⟩
    · -- already in the MST: its key is finite
      have hvfin : key.getD v0.toNat 0 < INTMAX := by
        apply h8 v0.toNat hvtn
        rw [← hmv, hmt]
      refine primScan_cnt g B u hu0 hun hlen hwn hwle hBI hwfe rest inMST key parent pq
        (fun p hp => hsub p (List.mem_cons_of_mem _ hp)) ?_ key' parent' pq' hrec
      refine ⟨h1, h2, h3, h4, h5, h6, h7, h8, h9, h10, fun pr hpr => ?_⟩
      rcases h11 pr hpr with hf | hmem
      · exact .inl hf
      · rcases List.mem_cons.mp hmem with heq | hr2
        · refine .inl ?_
          have hpr1 : pr.1 = v0 := by rw [heq]
          rw [hpr1]
          exact hvfin
        · exact .inr hr2
    · obtain ⟨-, hvlk, hkv'⟩ := readL_inv key v0 kv 0 hkv
      rcases hbr2 with ⟨hlt, pq2, hins, hrec⟩ | ⟨hge, hrec⟩
      · -- improvement: write key/parent, push (v0, w0)
        obtain ⟨hperm, hcap⟩ := insert_heap_perm pq pq2 v0 w0 hins
        have hnez : v0.toNat ≠ 0 := by
          intro hvz
          rw [hvz, h5] at hkv'
          omega
        have hlp : v0.toNat < parent.length := by omega
        refine primScan_cnt g B u hu0 hun hlen hwn hwle hBI hwfe rest inMST _ _ pq2
          (fun p hp => hsub p (List.mem_cons_of_mem _ hp)) ?_ key' parent' pq' hrec
        refine ⟨h1, by simpa using h2, by simpa using h3, ?_, ?_, ?_, ?_, ?_, ?_, ?_, ?_⟩
        · intro v hv
          by_cases hvv : v = v0.toNat
          · subst hvv
            rw [getD_set_self _ _ _ _ hvlk]
            omega
          · rw [getD_set_ne _ _ _ (fun hh => hvv hh.symm)]
            exact h4 v hv
        · rw [getD_set_ne _ _ _ hnez]
          exact h5
        · rw [getD_set_ne _ _ _ hnez]
          exact h6
        · intro v hv hvz hvf
          by_cases hvv : v = v0.toNat
          · subst hvv
            rw [getD_set_self _ _ _ _ hlp]
            omega
          · rw [getD_set_ne _ _ _ (fun hh => hvv hh.symm)] at hvf ⊢
            exact h7 v hv hvz hvf
        · intro v hv hvm
          by_cases hvv : v = v0.toNat
          · subst hvv
            rw [getD_set_self _ _ _ _ hvlk]
            exact hw0fin
          · rw [getD_set_ne _ _ _ (fun hh => hvv hh.symm)]
            exact h8 v hv hvm
        · intro e he
          have hem := hperm.mem_iff.mp he
          rcases List.mem_append.mp hem with hold | hnew
          · obtain ⟨he0, hen, hef⟩ := h9 e hold
            refine ⟨he0, hen, ?_⟩
            by_cases hev : e.1.toNat = v0.toNat
            · rw [hev, getD_set_self _ _ _ _ hvlk]
              exact hw0fin
            · rw [getD_set_ne _ _ _ (fun hh => hev hh.symm)]
              exact hef
          · have hee : e = (v0, w0) := by simpa using hnew
            subst hee
            refine ⟨hv00, hv0n, ?_⟩
            rw [getD_set_self _ _ _ _ hvlk]
            exact hw0fin
        · intro x hx hxf hxu
          by_cases hxv : x = v0.toNat
          · subst hxv
            refine .inl ⟨w0, ?_⟩
            have hcast : ((v0.toNat : Int)) = v0 := Int.toNat_of_nonneg hv00
            rw [hcast]
            exact hperm.mem_iff.mpr (List.mem_append_right _ (by simp))
          · rw [getD_set_ne _ _ _ (fun hh => hxv hh.symm)] at hxf
            rcases h10 x hx hxf hxu with ⟨p, hp⟩ | hnb
            · exact .inl ⟨p, hperm.mem_iff.mpr (List.mem_append_left _ hp)⟩
            · refine .inr (fun pr hpr => ?_)
              by_cases hprv : pr.1.toNat = v0.toNat
              · rw [hprv, getD_set_self _ _ _ _ hvlk]
                exact hw0fin
              · rw [getD_set_ne _ _ _ (fun hh => hprv hh.symm)]
                exact hnb pr hpr
        · intro pr hpr
          rcases h11 pr hpr with hf | hmem
          · refine .inl ?_
            by_cases hprv : pr.1.toNat = v0.toNat
            · rw [hprv, getD_set_self _ _ _ _ hvlk]
              exact hw0fin
            · rw [getD_set_ne _ _ _ (fun hh => hprv hh.symm)]
              exact hf
          · rcases List.mem_cons.mp hmem with heq | hr2
            · refine .inl ?_
              have hpr1 : pr.1 = v0 := by rw [heq]
              rw [hpr1, getD_set_self _ _ _ _ hvlk]
              exact hw0fin
            · exact .inr hr2
      · -- no improvement: the key is already at most the edge weight
        refine primScan_cnt g B u hu0 hun hlen hwn hwle hBI hwfe rest inMST key parent pq
          (fun p hp => hsub p (List.mem_cons_of_mem _ hp)) ?_ key' parent' pq' hrec
        refine ⟨h1, h2, h3, h4, h5, h6, h7, h8, h9, h10, fun pr hpr => ?_⟩
        rcases h11 pr hpr with hf | hmem
        · exact .inl hf
        · rcases List.mem_cons.mp hmem with heq | hr2
          · refine .inl ?_
            have hpr1 : pr.1 = v0 := by rw [heq]
            rw [hpr1, ← hkv']
            omega
          · exact .inr hr2

/-- With an empty queue the prim counting invariant yields full
closure. -/
theorem primCnt_empty (g : Graph) (B : Int) (inMST : List Bool)
    (key parent : List Int) (pq : PQ)
    (hinv : primCnt g B inMST key parent pq) (hemp : pq.isEmpty = true) :
    key.length = g.n.toNat ∧ parent.length = g.n.toNat ∧
    key.getD 0 0 = 0 ∧ parent.getD 0 0 = -1 ∧
    (∀ v, v < g.n.toNat → v ≠ 0 → key.getD v 0 < INTMAX →
      parent.getD v 0 ≠ -1) ∧
    (∀ x, x < g.n.toNat → key.getD x 0 < INTMAX →
      ∀ pr ∈ g.adj.getD x [], key.getD (pr : Int × Int).1.toNat 0 < INTMAX) := by
  have hnil : pq.heap = [] := by
    have h2 : pq.heap.length = 0 := by simpa [PQ.isEmpty] using hemp
    exact List.eq_nil_of_length_eq_zero h2
  obtain ⟨h1, h2, h3, h4, h5, h6, h7, h8, h9, h10⟩ := hinv
  refine ⟨h2, h3, h5, h6, h7, fun x hx hfx pr hpr => ?_⟩
  rcases h10 x hx hfx with ⟨p, hp⟩ | hnb
  · rw [hnil] at hp
    exact absurd hp (List.not_mem_nil _)
  · exact hnb pr hpr

/-- The prim main loop carries the counting invariant to the end. -/
theorem primLoop_cnt (g : Graph) (B : Int)
    (hlen : g.adj.length = g.n.toNat) (hwn : g.wNonneg) (hwle : g.wLE B)
    (hBI : B < INTMAX) (hwfe : g.wfEntries) :
    ∀ (fuel : Nat) (inMST : List Bool) (key parent : List Int) (pq : PQ),
      primCnt g B inMST key parent pq →
      ∀ inMST' key' parent',
        primLoop fuel g inMST key parent pq = .ok (inMST', key', parent') →
        key'.length = g.n.toNat ∧ parent'.length = g.n.toNat ∧
        key'.getD 0 0 = 0 ∧ parent'.getD 0 0 = -1 ∧
        (∀ v, v < g.n.toNat → v ≠ 0 → key'.getD v 0 < INTMAX →
          parent'.getD v 0 ≠ -1) ∧
        (∀ x, x < g.n.toNat → key'.getD x 0 < INTMAX →
          ∀ pr ∈ g.adj.getD x [], key'.getD (pr : Int × Int).1.toNat 0 < INTMAX)
  | 0, inMST, key, parent, pq, hinv, inMST', key', parent', h => by
    rw [primLoop] at h
    split at h
    · next hemp =>
      have hinj := Except.ok.inj h
      rw [Prod.mk.injEq, Prod.mk.injEq] at hinj
      obtain ⟨rfl, rfl, rfl⟩ := hinj
      exact primCnt_empty g B inMST key parent pq hinv hemp
    · cases h
  | fuel + 1, inMST, key, parent, pq, hinv, inMST', key', parent', h => by
    rw [primLoop] at h
    split at h
    · next hemp =>
      have hinj := Except.ok.inj h
      rw [Prod.mk.injEq, Prod.mk.injEq] at hinj
      obtain ⟨rfl, rfl, rfl⟩ := hinj
      exact primCnt_empty g B inMST key parent pq hinv hemp
    · next hemp =>
      cases hx : pq.extractMin with
      | error e =>
        rw [hx] at h
        simp only at h
        cases h
      | ok p =>
        obtain ⟨u, pq1⟩ := p
        rw [hx] at h
        simp only at h
        cases hwm : writeL inMST u true with
        | error e =>
          rw [hwm] at h
          simp only at h
          cases h
        | ok inMST2 =>
          rw [hwm] at h
          simp only at h
          cases hnb : g.getNeighbors u with
          | error e =>
            rw [hnb] at h
            simp only at h
            cases h
          | ok nbrs =>
            rw [hnb] at h
            simp only at h
            cases hrs : primScan u nbrs inMST2 key parent pq1 with
            | error e =>
              rw [hrs] at h
              simp only at h
              cases h
            | ok t =>
              obtain ⟨key2, parent2, pq2⟩ := t
              rw [hrs] at h
              simp only at h
              obtain ⟨hu0, hun, hnbrs⟩ := getNeighbors_inv g u nbrs hnb
              obtain ⟨top, hrest, hheap, hutop, hperm, hcap⟩ :=
                extract_heap_perm pq pq1 u hx
              obtain ⟨h1, h2, h3, h4, h5, h6, h7, h8, h9, h10⟩ := hinv
              have htopmem : top ∈ pq.heap := by
                rw [hheap]
                exact List.mem_cons_self _ _
              have htopf := h9 top htopmem
              have hufin : key.getD u.toNat 0 < INTMAX := by
                rw [hutop]
                exact htopf.2.2
              obtain ⟨-, hulm, hinMST2⟩ := writeL_inv inMST u true inMST2 hwm
              subst hinMST2
              have hscan : primCntScan g B u nbrs (inMST.set u.toNat true)
                  key parent pq1 := by
                refine ⟨by simpa using h1, h2, h3, h4, h5, h6, h7, ?_, ?_, ?_, ?_⟩
                · intro v hv hvm
                  by_cases hvu : v = u.toNat
                  · subst hvu
                    exact hufin
                  · rw [getD_set_ne _ _ _ (fun hh => hvu hh.symm)] at hvm
                    exact h8 v hv hvm
                · intro e he
                  exact h9 e (by
                    rw [hheap]
                    exact List.mem_cons_of_mem _ (hperm.mem_iff.mp he))
                · intro x hx2 hxf hxu
                  rcases h10 x hx2 hxf with ⟨p2, hp2⟩ | hnb2
                  · rw [hheap] at hp2
                    rcases List.mem_cons.mp hp2 with heq | hr2
                    · exfalso
                      apply hxu
                      have hxv : ((x : Int)) = top.1 := by rw [← heq]
                      rw [← hutop] at hxv
                      omega
                    · exact .inl ⟨p2, hperm.mem_iff.mpr hr2⟩
                  · exact .inr hnb2
                · intro pr hpr
                  refine .inr ?_
                  rw [hnbrs]
                  exact hpr
              have hinv2 := primScan_cnt g B u hu0 hun hlen hwn hwle hBI hwfe
                nbrs (inMST.set u.toNat true) key parent pq1
                (fun p2 hp2 => by rw [hnbrs] at hp2; exact hp2) hscan
                key2 parent2 pq2 hrs
              exact primLoop_cnt g B hlen hwn hwle hBI hwfe fuel
                (inMST.set u.toNat true) key2 parent2 pq2 hinv2
                inMST' key' parent' h

/-- Prim part of the amended C1: with weights strictly below the
sentinel, a normal prim run on a graph connected from vertex 0 yields
exactly `2(n-1)` adjacency entries. -/
theorem prim_count_ok (g : Graph) (B : Int) (fuel : Nat) (t : Graph)
    (hwfb : g.wfBasic) (hwfe : g.wfEntries) (hwn : g.wNonneg) (hwle : g.wLE B)
    (hBI : B < INTMAX) (hconn : connectedFrom g 0)
    (hrun : Algorithms.prim fuel g = .ok t) :
    t.entryCount = 2 * (g.n.toNat - 1) := by
  have hIMv : INTMAX = 2147483647 := rfl
  rw [Algorithms.prim] at hrun
  cases hfull : Algorithms.primFull fuel g with
  | error e =>
    rw [hfull] at hrun
    simp only at hrun
    cases hrun
  | ok tr =>
    obtain ⟨key, parent, tree⟩ := tr
    rw [hfull] at hrun
    simp only at hrun
    have htt : tree = t := Except.ok.inj hrun
    subst htt
    rw [Algorithms.primFull] at hfull
    cases hc : Graph.construct g.n with
    | error e =>
      rw [hc] at hfull
      simp only at hfull
      cases hfull
    | ok tree0 =>
      rw [hc] at hfull
      simp only at hfull
      cases hw0 : writeL (List.replicate g.n.toNat INTMAX) 0 0 with
      | error e =>
        rw [hw0] at hfull
        simp only at hfull
        cases hfull
      | ok key0 =>
        rw [hw0] at hfull
        simp only at hfull
        cases hpqc : PQ.construct g.n with
        | error e =>
          rw [hpqc] at hfull
          simp only at hfull
          cases hfull
        | ok pq0 =>
          rw [hpqc] at hfull
          simp only at hfull
          cases hins1 : pq0.insert 0 0 with
          | error e =>
            rw [hins1] at hfull
            simp only at hfull
            cases hfull
          | ok pq1 =>
            rw [hins1] at hfull
            simp only at hfull
            cases hloop : primLoop fuel g (List.replicate g.n.toNat false) key0
                (List.replicate g.n.toNat (-1)) pq1 with
            | error e =>
              rw [hloop] at hfull
              simp only at hfull
              cases hfull
            | ok tr2 =>
              obtain ⟨inMST1, key1, parent1⟩ := tr2
              rw [hloop] at hfull
              simp only at hfull
              cases hbuild : buildPrimList key1 parent1
                  ((List.range g.n.toNat).drop 1) tree0 with
              | error e =>
                rw [hbuild] at hfull
                simp only at hfull
                cases hfull
              | ok tree1 =>
                rw [hbuild] at hfull
                simp only at hfull
                have hinj := Except.ok.inj hfull
                rw [Prod.mk.injEq, Prod.mk.injEq] at hinj
                obtain ⟨rfl, rfl, rfl⟩ := hinj
                obtain ⟨hz0, hzl, hkey0⟩ :=
                  writeL_inv (List.replicate g.n.toNat INTMAX) 0 0 key0 hw0
                obtain ⟨hcap0, hpq0⟩ := PQconstruct_inv g.n pq0 hpqc
                subst hpq0
                obtain ⟨hperm1, hcap1⟩ := insert_heap_perm _ pq1 0 0 hins1
                have hq1mem : ∀ e ∈ pq1.heap, e = (0, 0) := by
                  intro e he
                  have hm := hperm1.mem_iff.mp he
                  simpa using hm
                subst hkey0
                rw [show ((0 : Int)).toNat = 0 from rfl] at hloop
                have hn0 : 0 < g.n.toNat := by
                  have hx := hzl
                  simp at hx
                  omega
                have hsl : 0 < (List.replicate g.n.toNat INTMAX).length := by
                  simpa using hn0
                have hkey0v : ∀ v, v < g.n.toNat →
                    ((List.replicate g.n.toNat INTMAX).set 0 0).getD v 0 =
                      if v = 0 then 0 else INTMAX := by
                  intro v hv
                  by_cases hvs : v = 0
                  · subst hvs
                    rw [if_pos rfl, getD_set_self _ _ _ _ hsl]
                  · rw [if_neg hvs,
                      getD_set_ne _ _ _ (fun hh => hvs hh.symm),
                      getD_replicate _ _ _ _ hv]
                have hinv0 : primCnt g B (List.replicate g.n.toNat false)
                    ((List.replicate g.n.toNat INTMAX).set 0 0)
                    (List.replicate g.n.toNat (-1)) pq1 := by
                  refine ⟨by simp, by simp, by simp, ?_, ?_, ?_, ?_, ?_, ?_, ?_⟩
                  · intro v hv
                    rw [hkey0v v hv]
                    split_ifs <;> omega
                  · have hk := hkey0v 0 hn0
                    rw [if_pos rfl] at hk
                    exact hk
                  · rw [getD_replicate _ _ _ _ hn0]
                  · intro v hv hvz hvf
                    rw [hkey0v v hv, if_neg hvz] at hvf
                    omega
                  · intro v hv hvm
                    rw [getD_replicate _ _ _ _ hv] at hvm
                    cases hvm
                  · intro e he
                    have hee := hq1mem e he
                    subst hee
                    refine ⟨le_refl 0, by omega, ?_⟩
                    have hk := hkey0v 0 hn0
                    rw [if_pos rfl] at hk
                    show ((List.replicate g.n.toNat INTMAX).set 0 0).getD 0 0 < INTMAX
                    rw [hk]
                    omega
                  · intro x hx hxf
                    rw [hkey0v x hx] at hxf
                    by_cases hxs : x = 0
                    · refine .inl ⟨0, ?_⟩
                      subst hxs
                      exact hperm1.mem_iff.mpr (by simp)
                    · rw [if_neg hxs] at hxf
                      omega
                obtain ⟨hl1, hl2, hk00, hp00, hfinp, hclo⟩ :=
                  primLoop_cnt g B hwfb.2 hwn hwle hBI hwfe fuel
                    _ _ _ pq1 hinv0 inMST1 key1 parent1 hloop
                have hstepP : ∀ u2, key1.getD u2 0 < INTMAX →
                    ∀ pr ∈ g.adj.getD u2 [],
                      key1.getD (pr : Int × Int).1.toNat 0 < INTMAX := by
                  intro u2 hu2 pr hpr
                  by_cases hu2n : u2 < g.n.toNat
                  · exact hclo u2 hu2n hu2 pr hpr
                  · rw [List.getD_eq_default _ _ (by rw [hwfb.2]; omega)] at hpr
                    exact absurd hpr (List.not_mem_nil _)
                have hallfin : ∀ v, v < g.n.toNat → key1.getD v 0 < INTMAX := by
                  intro v hv
                  exact reach_closed g (fun x => key1.getD x 0 < INTMAX) 0
                    (by show key1.getD 0 0 < INTMAX; rw [hk00]; decide)
                    (fun u2 hu2 => hstepP u2 hu2) g.n.toNat v (hconn v hv)
                have hvs : ∀ v ∈ (List.range g.n.toNat).drop 1,
                    1 ≤ v ∧ v < g.n.toNat := by
                  intro v hv
                  obtain ⟨m, hm⟩ : ∃ m, g.n.toNat = m + 1 := ⟨g.n.toNat - 1, by omega⟩
                  rw [hm, List.range_eq_range', List.range'_succ] at hv
                  simp only [List.drop_succ_cons, List.drop_zero] at hv
                  have := List.mem_range'_1.mp hv
                  omega
                have hcnt : ((List.range g.n.toNat).drop 1).countP
                    (fun v => !(parent1.getD v 0 == -1)) =
                    ((List.range g.n.toNat).drop 1).length := by
                  rw [List.countP_eq_length]
                  intro v hv
                  obtain ⟨hv1, hvn⟩ := hvs v hv
                  have hp := hfinp v hvn (by omega) (hallfin v hvn)
                  exact beq_eq_false_iff_ne.mpr hp ▸ rfl
                obtain ⟨hwf0, hn00, -⟩ := construct_wf g.n tree0 hc
                have hec0 := construct_entryCount g.n tree0 hc
                obtain ⟨hn1, hc1⟩ := buildPrimList_count ((List.range g.n.toNat).drop 1)
                  key1 parent1 tree0 _ hwf0 hbuild
                rw [hec0, hcnt] at hc1
                rw [hc1]
                have hlen1 : ((List.range g.n.toNat).drop 1).length = g.n.toNat - 1 := by
                  rw [List.length_drop]
                  simp
                rw [hlen1]
                omega

/-- A successful `UnionFind::find` returns a root of the caller's class,
compresses paths without changing any class, any measure bound, the rank
array, or the root set. -/
theorem find_ok (n : Nat) (cf ms : Nat → Nat) :
    ∀ (f : Nat) (uf : UF) (a : Int) (uf' : UF) (r : Int),
      ufInv n uf cf ms → UF.find f uf a = .ok (uf', r) →
      ufInv n uf' cf ms ∧ uf'.rank = uf.rank ∧
      0 ≤ a ∧ a.toNat < n ∧ 0 ≤ r ∧ r.toNat < n ∧
      cf r.toNat = cf a.toNat ∧
      uf'.parent.getD r.toNat 0 = r ∧
      (r = a ∨ ms r.toNat < ms a.toNat) ∧
      (∀ x, x < n → (uf'.parent.getD x 0 = (x : Int) ↔ uf.parent.getD x 0 = (x : Int)))
  | 0, uf, a, uf', r, _, h => by cases h
  | f + 1, uf, a, uf', r, hinv, h => by
    rw [UF.find] at h
    cases hpa : readL uf.parent a with
    | error e =>
      rw [hpa] at h
      simp only at h
      cases h
    | ok pa =>
      rw [hpa] at h
      simp only at h
      obtain ⟨ha0, hal, hpa'⟩ := readL_inv uf.parent a pa 0 hpa
      have hcasta : ((a.toNat : Int)) = a := Int.toNat_of_nonneg ha0
      have haln : a.toNat < n := by
        rw [← hinv.1]
        exact hal
      by_cases hne : pa ≠ a
      · rw [if_pos hne] at h
        cases hrec : UF.find f uf pa with
        | error e =>
          rw [hrec] at h
          simp only at h
          cases h
        | ok pr =>
          obtain ⟨uf1, r1⟩ := pr
          rw [hrec] at h
          simp only at h
          obtain ⟨hinv1, hrank1, hpa0, hpan, hr0, hrn, hcfr, hroot1, hms1, hiff1⟩ :=
            find_ok n cf ms f uf pa uf1 r1 hinv hrec
          cases hw : writeL uf1.parent a r1 with
          | error e =>
            rw [hw] at h
            simp only at h
            cases h
          | ok p' =>
            rw [hw] at h
            simp only at h
            have hinj := Except.ok.inj h
            rw [Prod.mk.injEq] at hinj
            obtain ⟨huf', hr⟩ := hinj
            subst hr
            obtain ⟨-, hwal, hp'⟩ := writeL_inv uf1.parent a r1 p' hw
            subst hp'
            obtain ⟨hplen1, hK11, hK21, hK41⟩ := hinv1
            have hK4 := hinv.2.2.2
            have hmspa : ms pa.toNat < ms a.toNat := by
              have hcond : uf.parent.getD a.toNat 0 ≠ ((a.toNat : Int)) := by
                rw [hcasta, ← hpa']
                exact hne
              have hx := hK4 a.toNat haln hcond
              rw [← hpa'] at hx
              exact hx
            have hmsr : ms r1.toNat < ms a.toNat := by
              rcases hms1 with hq | hq
              · rw [hq]
                exact hmspa
              · omega
            have hrna : r1.toNat ≠ a.toNat := by
              intro hh
              rw [hh] at hmsr
              omega
            have hria : r1 ≠ a := by
              intro hh
              rw [hh] at hrna
              exact hrna rfl
            have hcfra : cf r1.toNat = cf a.toNat := by
              have hK1 := hinv.2.1
              have hpacf := (hK1 a.toNat haln).2.2
              rw [← hpa'] at hpacf
              rw [hcfr, hpacf]
            rw [← huf']
            refine ⟨⟨by simpa using hplen1, ?_, ?_, ?_⟩, hrank1, ha0, haln, hr0, hrn,
              hcfra, ?_, .inr hmsr, ?_⟩
            · intro x hx
              by_cases hxa : x = a.toNat
              · subst hxa
                rw [getD_set_self _ _ _ _ hwal]
                refine ⟨hr0, ?_, ?_⟩
                · omega
                · rw [hcfra]
              · rw [getD_set_ne _ _ _ (fun hh => hxa hh.symm)]
                exact hK11 x hx
            · intro x hx y hy hrx hry hcfxy
              apply hK21 x hx y hy _ _ hcfxy
              · by_cases hxa : x = a.toNat
                · exfalso
                  subst hxa
                  rw [getD_set_self _ _ _ _ hwal, hcasta] at hrx
                  exact hria hrx
                · rw [getD_set_ne _ _ _ (fun hh => hxa hh.symm)] at hrx
                  exact hrx
              · by_cases hya : y = a.toNat
                · exfalso
                  subst hya
                  rw [getD_set_self _ _ _ _ hwal, hcasta] at hry
                  exact hria hry
                · rw [getD_set_ne _ _ _ (fun hh => hya hh.symm)] at hry
                  exact hry
            · intro x hx hrx
              by_cases hxa : x = a.toNat
              · subst hxa
                rw [getD_set_self _ _ _ _ hwal]
                exact hmsr
              · rw [getD_set_ne _ _ _ (fun hh => hxa hh.symm)] at hrx ⊢
                exact hK41 x hx hrx
            · rw [getD_set_ne _ _ _ (fun hh => hrna hh.symm)]
              exact hroot1
            · intro x hx
              by_cases hxa : x = a.toNat
              · subst hxa
                rw [getD_set_self _ _ _ _ hwal, hcasta]
                constructor
                · intro hh
                  exact absurd hh hria
                · intro hh
                  rw [← hpa'] at hh
                  exact absurd hh hne
              · rw [getD_set_ne _ _ _ (fun hh => hxa hh.symm)]
                exact hiff1 x hx
      · rw [if_neg hne] at h
        have hpaa : pa = a := by
          by_contra hc
          exact hne hc
        subst hpaa
        have hinj := Except.ok.inj h
        rw [Prod.mk.injEq] at hinj
        obtain ⟨rfl, rfl⟩ := hinj
        refine ⟨hinv, rfl, ha0, haln, ha0, haln, rfl, ?_, .inl rfl, fun x _ => Iff.rfl⟩
        rw [← hpa']

/-- Equal pointwise root status gives equal root counts. -/
theorem ufRoots_eq (uf1 uf2 : UF) (n : Nat)
    (h : ∀ x, x < n →
      (uf2.parent.getD x 0 = (x : Int) ↔ uf1.parent.getD x 0 = (x : Int))) :
    ufRoots uf2 n = ufRoots uf1 n := by
  apply List.countP_congr
  intro a ha
  have haa := List.mem_range.mp ha
  simp only [beq_iff_eq]
  exact h a haa

/-- Attaching one root under another preserves the ghost invariant with
the merged class labeling and drops the root count by exactly one. -/
theorem uf_attach (n : Nat) (cf ms : Nat → Nat) (uf2 : UF) (X Y : Int)
    (p' : List Int) (rnk : List Int)
    (hinv2 : ufInv n uf2 cf ms)
    (hX0 : 0 ≤ X) (hXn : X.toNat < n) (hY0 : 0 ≤ Y) (hYn : Y.toNat < n)
    (hrootX : uf2.parent.getD X.toNat 0 = X)
    (hrootY : uf2.parent.getD Y.toNat 0 = Y)
    (hcfne : cf X.toNat ≠ cf Y.toNat)
    (hw : writeL uf2.parent X Y = .ok p') :
    ufInv n ⟨p', rnk⟩ (fun z => if cf z = cf X.toNat then cf Y.toNat else cf z)
      (fun z => if cf z = cf X.toNat then ms z + ms Y.toNat + 1 else ms z) ∧
    ufRoots ⟨p', rnk⟩ n + 1 = ufRoots uf2 n := by
  obtain ⟨hplen, hK1, hK2, hK4⟩ := hinv2
  obtain ⟨-, hwl, hp'⟩ := writeL_inv uf2.parent X Y p' hw
  subst hp'
  have hcastX : ((X.toNat : Int)) = X := Int.toNat_of_nonneg hX0
  have hcastY : ((Y.toNat : Int)) = Y := Int.toNat_of_nonneg hY0
  have hXY : X ≠ Y := by
    intro hh
    apply hcfne
    rw [hh] at hcastX
    have hnn : X.toNat = Y.toNat := by omega
    rw [hnn]
  have hXYn : X.toNat ≠ Y.toNat := by
    intro hh
    apply hXY
    omega
  constructor
  · refine ⟨by simpa using hplen, ?_, ?_, ?_⟩
    · intro x hx
      by_cases hxX : x = X.toNat
      · subst hxX
        rw [getD_set_self _ _ _ _ hwl]
        refine ⟨hY0, by omega, ?_⟩
        simp only
        rw [if_neg (fun hh => hcfne hh.symm)]
        simp
      · rw [getD_set_ne _ _ _ (fun hh => hxX hh.symm)]
        obtain ⟨hp0, hpn, hpcf⟩ := hK1 x hx
        refine ⟨hp0, hpn, ?_⟩
        simp only
        by_cases hc : cf x = cf X.toNat
        · rw [if_pos hc, if_pos (by rw [hpcf]; exact hc)]
        · rw [if_neg hc, if_neg (by rw [hpcf]; exact hc)]
          exact hpcf
    · intro x hx y hy hrx hry hcfxy
      have hnrX : ∀ z, z < n →
          ((uf2.parent.set X.toNat Y).getD z 0 = (z : Int)) → z ≠ X.toNat := by
        intro z hz hrz hzX
        subst hzX
        rw [getD_set_self _ _ _ _ hwl, hcastX] at hrz
        exact hXY hrz.symm
      have hxX := hnrX x hx hrx
      have hyX := hnrX y hy hry
      rw [getD_set_ne _ _ _ (fun hh => hxX hh.symm)] at hrx
      rw [getD_set_ne _ _ _ (fun hh => hyX hh.symm)] at hry
      apply hK2 x hx y hy hrx hry
      have hcfx : cf x ≠ cf X.toNat := by
        intro hc
        exact hxX (hK2 x hx X.toNat hXn hrx (by rw [hcastX]; exact hrootX) hc)
      have hcfy : cf y ≠ cf X.toNat := by
        intro hc
        exact hyX (hK2 y hy X.toNat hXn hry (by rw [hcastX]; exact hrootX) hc)
      simp only at hcfxy
      rw [if_neg hcfx, if_neg hcfy] at hcfxy
      exact hcfxy
    · intro x hx hrx
      by_cases hxX : x = X.toNat
      · subst hxX
        rw [getD_set_self _ _ _ _ hwl]
        simp only
        rw [if_neg (fun hh => hcfne hh.symm)]
        simp
        omega
      · rw [getD_set_ne _ _ _ (fun hh => hxX hh.symm)] at hrx ⊢
        obtain ⟨hp0, hpn, hpcf⟩ := hK1 x hx
        have hstep := hK4 x hx hrx
        simp only
        by_cases hc : cf x = cf X.toNat
        · rw [if_pos hc, if_pos (by rw [hpcf]; exact hc)]
          omega
        · rw [if_neg hc, if_neg (by rw [hpcf]; exact hc)]
          exact hstep
  · apply countP_pointwise_sub
      (p := fun x => uf2.parent.getD x 0 == (x : Int))
      (q := fun x => (uf2.parent.set X.toNat Y).getD x 0 == (x : Int))
      n X.toNat hXn
    · rw [beq_iff_eq, hcastX]
      exact hrootX
    · rw [beq_eq_false_iff_ne, hcastX]
      rw [getD_set_self _ _ _ _ hwl]
      exact fun hh => hXY hh.symm
    · intro x hx hxX
      have hgd : (uf2.parent.set X.toNat Y).getD x 0 = uf2.parent.getD x 0 :=
        getD_set_ne _ _ _ (fun hh => hxX hh.symm)
      rw [hgd]

/-- A successful `UnionFind::unite` of two elements in distinct classes
merges exactly those classes and removes exactly one root. -/
theorem unite_ok (n : Nat) (cf ms : Nat → Nat) (f : Nat) (uf : UF) (a b : Int)
    (uf' : UF) (hinv : ufInv n uf cf ms) (hab : cf a.toNat ≠ cf b.toNat)
    (h : UF.unite f uf a b = .ok uf') :
    ∃ cf' ms', ufInv n uf' cf' ms' ∧
      cf' a.toNat = cf' b.toNat ∧
      (∀ x y, cf x = cf y → cf' x = cf' y) ∧
      ufRoots uf' n + 1 = ufRoots uf n := by
  rw [UF.unite] at h
  cases hfa : UF.find f uf a with
  | error e =>
    rw [hfa] at h
    simp only at h
    cases h
  | ok pra =>
    obtain ⟨uf1, rootA⟩ := pra
    rw [hfa] at h
    simp only at h
    obtain ⟨hinv1, hrank1, ha0, han, hA0, hAn, hcfA, hrootA, hmsA, hiffA⟩ :=
      find_ok n cf ms f uf a uf1 rootA hinv hfa
    cases hfb : UF.find f uf1 b with
    | error e =>
      rw [hfb] at h
      simp only at h
      cases h
    | ok prb =>
      obtain ⟨uf2, rootB⟩ := prb
      rw [hfb] at h
      simp only at h
      obtain ⟨hinv2, hrank2, hb0, hbn, hB0, hBn2, hcfB, hrootB, hmsB, hiffB⟩ :=
        find_ok n cf ms f uf1 b uf2 rootB hinv1 hfb
      have hcfAB : cf rootA.toNat ≠ cf rootB.toNat := by
        rw [hcfA, hcfB]
        exact hab
      have hABne : rootA ≠ rootB := by
        intro hh
        apply hcfAB
        rw [hh]
      have hrootA2 : uf2.parent.getD rootA.toNat 0 = rootA := by
        have hiff := hiffB rootA.toNat hAn
        have hcastA : ((rootA.toNat : Int)) = rootA := Int.toNat_of_nonneg hA0
        rw [hcastA] at hiff
        rw [hiff.mpr hrootA]
      rw [if_pos hABne] at h
      cases hra : readL uf2.rank rootA with
      | error e =>
        rw [hra] at h
        simp only at h
        cases h
      | ok ra =>
        cases hrb : readL uf2.rank rootB with
        | error e =>
          rw [hra, hrb] at h
          simp only at h
          cases h
        | ok rb =>
          rw [hra, hrb] at h
          simp only at h
          have hroots12 : ufRoots uf2 n = ufRoots uf n := by
            rw [ufRoots_eq uf1 uf2 n hiffB, ufRoots_eq uf uf1 n hiffA]
          by_cases hlt : ra < rb
          · rw [if_pos hlt] at h
            cases hw : writeL uf2.parent rootA rootB with
            | error e =>
              rw [hw] at h
              simp only at h
              cases h
            | ok p' =>
              rw [hw] at h
              simp only at h
              have huf' := (Except.ok.inj h).symm
              subst huf'
              obtain ⟨hatt, hcnt⟩ := uf_attach n cf ms uf2 rootA rootB p' uf2.rank
                hinv2 hA0 hAn hB0 hBn2 hrootA2 hrootB hcfAB hw
              refine ⟨_, _, hatt, ?_, ?_, by omega⟩
              · rw [if_pos (by rw [hcfA]), if_neg (by rw [hcfA]; exact fun hh => hab hh.symm)]
                rw [hcfB]
              · intro x y hxy
                by_cases hc : cf x = cf rootA.toNat
                · rw [if_pos hc, if_pos (by rw [← hxy]; exact hc)]
                · rw [if_neg hc, if_neg (by rw [← hxy]; exact hc)]
                  exact hxy
          · rw [if_neg hlt] at h
            by_cases hgt : ra > rb
            · rw [if_pos hgt] at h
              cases hw : writeL uf2.parent rootB rootA with
              | error e =>
                rw [hw] at h
                simp only at h
                cases h
              | ok p' =>
                rw [hw] at h
                simp only at h
                have huf' := (Except.ok.inj h).symm
                subst huf'
                obtain ⟨hatt, hcnt⟩ := uf_attach n cf ms uf2 rootB rootA p' uf2.rank
                  hinv2 hB0 hBn2 hA0 hAn hrootB hrootA2
                  (fun hh => hcfAB hh.symm) hw
                refine ⟨_, _, hatt, ?_, ?_, by omega⟩
                · rw [if_neg (by rw [hcfB]; exact hab), if_pos (by rw [hcfB])]
                  rw [hcfA]
                · intro x y hxy
                  by_cases hc : cf x = cf rootB.toNat
                  · rw [if_pos hc, if_pos (by rw [← hxy]; exact hc)]
                  · rw [if_neg hc, if_neg (by rw [← hxy]; exact hc)]
                    exact hxy
            · rw [if_neg hgt] at h
              cases hw : writeL uf2.parent rootB rootA with
              | error e =>
                rw [hw] at h
                simp only at h
                cases h
              | ok p' =>
                rw [hw] at h
                simp only at h
                cases hw2 : writeL uf2.rank rootA (ra + 1) with
                | error e =>
                  rw [hw2] at h
                  simp only at h
                  cases h
                | ok r' =>
                  rw [hw2] at h
                  simp only at h
                  have huf' := (Except.ok.inj h).symm
                  subst huf'
                  obtain ⟨hatt, hcnt⟩ := uf_attach n cf ms uf2 rootB rootA p' r'
                    hinv2 hB0 hBn2 hA0 hAn hrootB hrootA2
                    (fun hh => hcfAB hh.symm) hw
                  refine ⟨_, _, hatt, ?_, ?_, by omega⟩
                  · rw [if_neg (by rw [hcfB]; exact hab), if_pos (by rw [hcfB])]
                    rw [hcfA]
                  · intro x y hxy
                    by_cases hc : cf x = cf rootB.toNat
                    · rw [if_pos hc, if_pos (by rw [← hxy]; exact hc)]
                    · rw [if_neg hc, if_neg (by rw [← hxy]; exact hc)]
                      exact hxy

/-- Under the ghost invariant a nonempty universe has at least one
root: the element of minimal measure is one. -/
theorem ufRoots_pos (n : Nat) (uf : UF) (cf ms : Nat → Nat)
    (hinv : ufInv n uf cf ms) (hn : 0 < n) : 1 ≤ ufRoots uf n := by
  obtain ⟨hplen, hK1, hK2, hK4⟩ := hinv
  obtain ⟨x0, hx0m, hx0min⟩ :=
    Finset.exists_min_image (Finset.range n) ms ⟨0, Finset.mem_range.mpr hn⟩
  have hx0n := Finset.mem_range.mp hx0m
  have hroot : uf.parent.getD x0 0 = (x0 : Int) := by
    by_contra hc
    have hstep := hK4 x0 hx0n hc
    obtain ⟨hp0, hpn, -⟩ := hK1 x0 hx0n
    have hptn : (uf.parent.getD x0 0).toNat < n := by omega
    have hmin := hx0min (uf.parent.getD x0 0).toNat (Finset.mem_range.mpr hptn)
    omega
  rw [ufRoots]
  apply List.countP_pos.mpr
  refine ⟨x0, List.mem_range.mpr hx0n, ?_⟩
  rw [beq_iff_eq]
  exact hroot

/-- Under the ghost invariant, if every element carries the same class
label there is at most one root. -/
theorem ufRoots_le_one (n : Nat) (uf : UF) (cf ms : Nat → Nat)
    (hinv : ufInv n uf cf ms) (hall : ∀ v, v < n → cf v = cf 0) :
    ufRoots uf n ≤ 1 := by
  obtain ⟨hplen, hK1, hK2, hK4⟩ := hinv
  rw [ufRoots]
  apply countP_le_one_unique
  intro x hx y hy hpx hpy
  rw [beq_iff_eq] at hpx hpy
  exact hK2 x hx y hy hpx hpy (by rw [hall x hx, hall y hy])

/-- `UnionFind` construction inversion: identity parents, zero ranks. -/
theorem UFconstruct_inv (s : Int) (uf0 : UF) (h : UF.construct s = .ok uf0) :
    0 ≤ s ∧ uf0 = ⟨(List.range s.toNat).map Int.ofNat, List.replicate s.toNat 0⟩ := by
  rw [UF.construct] at h
  split at h
  · cases h
  · next hc => exact ⟨by omega, (Except.ok.inj h).symm⟩

/-- The identity parent cell of the freshly constructed union-find. -/
theorem getD_range_map (n x : Nat) (h : x < n) :
    ((List.range n).map Int.ofNat).getD x 0 = (x : Int) := by
  have hl : x < ((List.range n).map Int.ofNat).length := by simpa using h
  rw [List.getD_eq_getElem?_getD, List.getElem?_eq_getElem hl]
  simp

/-- The freshly constructed union-find satisfies the ghost invariant
with the identity labeling, and every element is a root. -/
theorem uf0_inv (n : Nat) :
    ufInv n ⟨(List.range n).map Int.ofNat, List.replicate n 0⟩ id (fun _ => 0) ∧
    ufRoots ⟨(List.range n).map Int.ofNat, List.replicate n 0⟩ n = n := by
  constructor
  · refine ⟨by simp, ?_, ?_, ?_⟩
    · intro x hx
      show 0 ≤ ((List.range n).map Int.ofNat).getD x 0 ∧ _ ∧ _
      rw [getD_range_map n x hx]
      refine ⟨by omega, by omega, ?_⟩
      simp
    · intro x hx y hy _ _ hcf
      exact hcf
    · intro x hx hne
      exfalso
      apply hne
      exact getD_range_map n x hx
  · rw [ufRoots]
    have hlen := List.length_range n
    rw [List.countP_eq_length.mpr, hlen]
    intro a ha
    have haa := List.mem_range.mp ha
    rw [beq_iff_eq]
    exact getD_range_map n a haa

/-- The final edge-processing loop of kruskal: classes only coarsen,
every processed edge ends with merged endpoints, and the entry count
plus twice the root count is conserved. -/
theorem kruskalProcess_ok (g : Graph) :
    ∀ (es : List (Int × Int × Int)) (ff : Nat) (uf : UF) (tree : Graph)
      (cf ms : Nat → Nat) (uf' : UF) (tree' : Graph),
      ufInv g.n.toNat uf cf ms → tree.wfBasic →
      kruskalProcess ff es uf tree = .ok (uf', tree') →
      ∃ cf' ms', ufInv g.n.toNat uf' cf' ms' ∧
        (∀ x y, cf x = cf y → cf' x = cf' y) ∧
        (∀ e ∈ es, cf' (e : Int × Int × Int).2.1.toNat = cf' e.2.2.toNat) ∧
        tree'.entryCount + 2 * ufRoots uf' g.n.toNat =
          tree.entryCount + 2 * ufRoots uf g.n.toNat ∧
        tree'.wfBasic ∧ tree'.n = tree.n
  | [], ff, uf, tree, cf, ms, uf', tree', hinv, hwf, h => by
    simp only [kruskalProcess] at h
    have hinj := Except.ok.inj h
    rw [Prod.mk.injEq] at hinj
    obtain ⟨rfl, rfl⟩ := hinj
    exact ⟨cf, ms, hinv, fun x y hxy => hxy,
      fun e he => absurd he (List.not_mem_nil _), rfl, hwf, rfl⟩
  | (w, u, v) :: rest, ff, uf, tree, cf, ms, uf', tree', hinv, hwf, h => by
    rw [kruskalProcess] at h
    cases hfa : UF.find ff uf u with
    | error e =>
      rw [hfa] at h
      simp only at h
      cases h
    | ok pra =>
      obtain ⟨uf1, ru⟩ := pra
      rw [hfa] at h
      simp only at h
      obtain ⟨hinv1, -, hu0, hun, hru0, hrun, hcfu, hrootu, -, hiffu⟩ :=
        find_ok g.n.toNat cf ms ff uf u uf1 ru hinv hfa
      cases hfb : UF.find ff uf1 v with
      | error e =>
        rw [hfb] at h
        simp only at h
        cases h
      | ok prb =>
        obtain ⟨uf2, rv⟩ := prb
        rw [hfb] at h
        simp only at h
        obtain ⟨hinv2, -, hv0, hvn, hrv0, hrvn, hcfv, hrootv, -, hiffv⟩ :=
          find_ok g.n.toNat cf ms ff uf1 v uf2 rv hinv1 hfb
        have hroots12 : ufRoots uf2 g.n.toNat = ufRoots uf g.n.toNat := by
          rw [ufRoots_eq uf1 uf2 g.n.toNat hiffv, ufRoots_eq uf uf1 g.n.toNat hiffu]
        by_cases hne : ru ≠ rv
        · rw [if_pos hne] at h
          cases hadd : tree.addEdge u v w with
          | error e =>
            rw [hadd] at h
            simp only at h
            cases h
          | ok tree2 =>
            rw [hadd] at h
            simp only at h
            cases huni : UF.unite ff uf2 u v with
            | error e =>
              rw [huni] at h
              simp only at h
              cases h
            | ok uf3 =>
              rw [huni] at h
              simp only at h
              have hab : cf u.toNat ≠ cf v.toNat := by
                intro hcc
                apply hne
                have hru2 : uf2.parent.getD ru.toNat 0 = ru := by
                  have hiff := hiffv ru.toNat hrun
                  have hcastu : ((ru.toNat : Int)) = ru := Int.toNat_of_nonneg hru0
                  rw [hcastu] at hiff
                  exact hiff.mpr hrootu
                have heq := hinv2.2.2.1 ru.toNat hrun rv.toNat hrvn
                  (by rw [Int.toNat_of_nonneg hru0]; exact hru2)
                  (by rw [Int.toNat_of_nonneg hrv0]; exact hrootv)
                  (by rw [hcfu, hcfv]; exact hcc)
                omega
              obtain ⟨cf1, ms1, hinv3, hcf1ab, hcoar1, hroots3⟩ :=
                unite_ok g.n.toNat cf ms ff uf2 u v uf3 hinv2 hab huni
              have hwf2 := addEdge_wfBasic tree tree2 u v w hwf hadd
              have hcnt2 := entryCount_addEdge tree tree2 u v w hwf hadd
              obtain ⟨cf', ms', hinv', hcoar', hmerged', hcount', hwf', hn'⟩ :=
                kruskalProcess_ok g rest ff uf3 tree2 cf1 ms1 uf' tree'
                  hinv3 hwf2.1 h
              refine ⟨cf', ms', hinv', ?_, ?_, ?_, hwf', hn'.trans hwf2.2⟩
              · intro x y hxy
                exact hcoar' x y (hcoar1 x y hxy)
              · intro e he
                rcases List.mem_cons.mp he with heq | hr2
                · subst heq
                  exact hcoar' u.toNat v.toNat hcf1ab
                · exact hmerged' e hr2
              · rw [hcnt2] at hcount'
                omega
        · rw [if_neg hne] at h
          have hrurv : ru = rv := by
            by_contra hc
            exact hne hc
          have hcfuv : cf u.toNat = cf v.toNat := by
            rw [← hcfu, ← hcfv, hrurv]
          obtain ⟨cf', ms', hinv', hcoar', hmerged', hcount', hwf', hn'⟩ :=
            kruskalProcess_ok g rest ff uf2 tree cf ms uf' tree' hinv2 hwf h
          refine ⟨cf', ms', hinv', hcoar', ?_, ?_, hwf', hn'⟩
          · intro e he
            rcases List.mem_cons.mp he with heq | hr2
            · subst heq
              exact hcoar' u.toNat v.toNat hcfuv
            · exact hmerged' e hr2
          · omega

/-- One comparison-and-swap step permutes the edge array. -/
theorem ssSwap_perm (es : List (Int × Int × Int)) (i j : Nat) :
    (ssSwap es i j).Perm es := by
  rw [ssSwap]
  split
  · exact lswap_perm es i j
  · exact .refl es

/-- The fueled inner sorting loop permutes the edge array. -/
theorem ssInnerF_perm :
    ∀ (fuel : Nat) (es : List (Int × Int × Int)) (i j : Nat),
      (ssInnerF fuel es i j).Perm es
  | 0, es, _, _ => .refl es
  | fuel + 1, es, i, j => by
    rw [ssInnerF]
    split
    · exact (ssInnerF_perm fuel (ssSwap es i j) i (j + 1)).trans (ssSwap_perm es i j)
    · exact .refl es

/-- The fueled outer sorting loop permutes the edge array. -/
theorem ssOuterF_perm :
    ∀ (fuel : Nat) (es : List (Int × Int × Int)) (i : Nat),
      (ssOuterF fuel es i).Perm es
  | 0, es, _ => .refl es
  | fuel + 1, es, i => by
    rw [ssOuterF]
    split
    · exact (ssOuterF_perm fuel (ssInner es i (i + 1)) (i + 1)).trans
        (ssInnerF_perm es.length es i (i + 1))
    · exact .refl es

/-- The whole bubble sort permutes the edge array. -/
theorem ssOuter_perm (es : List (Int × Int × Int)) (i : Nat) :
    (ssOuter es i).Perm es :=
  ssOuterF_perm es.length es i

/-- Membership in the capacity-free collection: every stored entry with
increasing endpoints is collected at its smaller endpoint. -/
theorem pureCollect_mem (g : Graph) (u : Nat) (hu : u < g.n.toNat) (v w : Int)
    (hm : (v, w) ∈ g.adj.getD u []) (hlt : (u : Int) < v) :
    (w, (u : Int), v) ∈ pureCollect g := by
  rw [pureCollect]
  apply List.mem_flatMap.mpr
  refine ⟨u, List.mem_range.mpr hu, ?_⟩
  rw [pureScan]
  apply List.mem_filterMap.mpr
  refine ⟨(v, w), hm, ?_⟩
  simp [hlt]

/-- Kruskal part of the amended C1: a normal kruskal run on a graph with
symmetric adjacency that is connected from vertex 0 yields exactly
`2(n-1)` adjacency entries. -/
theorem kruskal_count_ok (g : Graph) (ff : Nat) (t : Graph)
    (hwfb : g.wfBasic) (hwfe : g.wfEntries) (hsym : g.symEntries)
    (hn : 0 < g.n) (hconn : connectedFrom g 0)
    (hrun : Algorithms.kruskal ff g = .ok t) :
    t.entryCount = 2 * (g.n.toNat - 1) := by
  rw [Algorithms.kruskal] at hrun
  cases hc : Graph.construct g.n with
  | error e =>
    rw [hc] at hrun
    simp only at hrun
    cases hrun
  | ok tree0 =>
    rw [hc] at hrun
    simp only at hrun
    cases hu : UF.construct g.n with
    | error e =>
      rw [hu] at hrun
      simp only at hrun
      cases hrun
    | ok uf0 =>
      rw [hu] at hrun
      simp only at hrun
      cases hcol : collectAll g (List.range g.n.toNat) [] with
      | error e =>
        rw [hcol] at hrun
        simp only at hrun
        cases hrun
      | ok es =>
        rw [hcol] at hrun
        simp only at hrun
        cases hproc : kruskalProcess ff (ssOuter es 0) uf0 tree0 with
        | error e =>
          rw [hproc] at hrun
          simp only at hrun
          cases hrun
        | ok prt =>
          obtain ⟨ufF, treeF⟩ := prt
          rw [hproc] at hrun
          simp only at hrun
          have htt : treeF = t := Except.ok.inj hrun
          subst htt
          obtain ⟨hs0, huf0⟩ := UFconstruct_inv g.n uf0 hu
          subst huf0
          obtain ⟨hinv0, hroots0⟩ := uf0_inv g.n.toNat
          obtain ⟨hwf0, hn0, -⟩ := construct_wf g.n tree0 hc
          have hec0 := construct_entryCount g.n tree0 hc
          have hes : es = pureCollect g := by
            have hx := collectAll_ok g (List.range g.n.toNat) [] es
              (fun u2 hu2 => by
                have := List.mem_range.mp hu2
                omega) hcol
            rw [hx]
            rw [List.nil_append, pureCollect]
          subst hes
          obtain ⟨cf', ms', hinv', hcoar', hmerged', hcount', hwfF, hnF⟩ :=
            kruskalProcess_ok g (ssOuter (pureCollect g) 0) ff _ tree0 id (fun _ => 0)
              ufF treeF hinv0 hwf0 hproc
          -- every stored directed entry has merged endpoints
          have hedge : ∀ u2, u2 < g.n.toNat → ∀ pr ∈ g.adj.getD u2 [],
              cf' (pr : Int × Int).1.toNat = cf' u2 := by
            intro u2 hu2 pr hpr
            obtain ⟨v, w⟩ := pr
            have hadjm := adj_getD_mem g hwfb.2 (u2 : Int) (by omega)
              (by omega)
            have hvw := hwfe _ (by
              rw [show ((u2 : Int)).toNat = u2 by omega] at hadjm
              exact hadjm) (v, w) hpr
            have hv0 : (0 : Int) ≤ v := hvw.1
            have hvn : v < g.n := hvw.2
            rcases lt_trichotomy ((u2 : Int)) v with hlt | heq | hgt
            · have hmem := pureCollect_mem g u2 hu2 v w hpr hlt
              have hmem2 : (w, (u2 : Int), v) ∈ ssOuter (pureCollect g) 0 :=
                (ssOuter_perm (pureCollect g) 0).mem_iff.mpr hmem
              have hme := hmerged' (w, (u2 : Int), v) hmem2
              simp only at hme
              rw [show ((u2 : Int)).toNat = u2 by omega] at hme
              exact hme.symm
            · show cf' v.toNat = cf' u2
              have hvu : v.toNat = u2 := by omega
              rw [hvu]
            · -- the mirror entry is collected at v
              have hmir := hsym u2 (by rw [hwfb.2]; omega) (v, w) hpr
              have hcast : ((v.toNat : Int)) = v := Int.toNat_of_nonneg hv0
              have hmem := pureCollect_mem g v.toNat (by omega) (u2 : Int) w
                hmir (by rw [hcast]; exact hgt)
              have hmem2 : (w, (v.toNat : Int), (u2 : Int)) ∈
                  ssOuter (pureCollect g) 0 :=
                (ssOuter_perm (pureCollect g) 0).mem_iff.mpr hmem
              have hme := hmerged' (w, (v.toNat : Int), (u2 : Int)) hmem2
              simp only at hme
              rw [show ((u2 : Int)).toNat = u2 by omega,
                show ((v.toNat : Int)).toNat = v.toNat by omega] at hme
              exact hme
          have hstepP : ∀ u2, cf' u2 = cf' 0 → ∀ pr ∈ g.adj.getD u2 [],
              cf' (pr : Int × Int).1.toNat = cf' 0 := by
            intro u2 hu2 pr hpr
            by_cases hu2n : u2 < g.n.toNat
            · rw [hedge u2 hu2n pr hpr]
              exact hu2
            · rw [List.getD_eq_default _ _ (by rw [hwfb.2]; omega)] at hpr
              exact absurd hpr (List.not_mem_nil _)
          have hall : ∀ v, v < g.n.toNat → cf' v = cf' 0 := by
            intro v hv
            exact reach_closed g (fun x => cf' x = cf' 0) 0 rfl
              (fun u2 hu2 => hstepP u2 hu2) g.n.toNat v (hconn v hv)
          have hge1 : 1 ≤ ufRoots ufF g.n.toNat :=
            ufRoots_pos g.n.toNat ufF cf' ms' hinv' (by omega)
          have hle1 : ufRoots ufF g.n.toNat ≤ 1 :=
            ufRoots_le_one g.n.toNat ufF cf' ms' hinv' hall
          rw [hec0, hroots0] at hcount'
          omega

/-- **C1 (amended).** On a positive-size graph with non-negative,
symmetric adjacency whose weights are bounded by `B` with
`n * B < INT_MAX` (so the relaxation tests cannot saturate against the
INT_MAX sentinel), whenever one of the algorithms returns normally on a
connected input it yields a result graph with exactly `2(n-1)` directed
adjacency entries: dijkstra from any valid start it is connected from,
and prim and kruskal from vertex 0 where they start. Normal return is a
genuine extra hypothesis: the priority-queue reinsertion of dijkstra and
prim can overflow the capacity-`n` queue on valid connected inputs (see
the counterexample), and without the weight bound the saturation makes
the count fail as well. -/
theorem claim_C1_spanning_count (g : Graph) (B : Int) (fuel : Nat)
    (hwfb : g.wfBasic) (hwfe : g.wfEntries) (hwn : g.wNonneg) (hwle : g.wLE B)
    (hB0 : 0 ≤ B) (hBn : g.n * B < INTMAX) (hsym : g.symEntries) (hn : 0 < g.n) :
    (∀ start t, 0 ≤ start → start < g.n → connectedFrom g start.toNat →
      Algorithms.dijkstra fuel g start = .ok t →
      t.entryCount = 2 * (g.n.toNat - 1)) ∧
    (∀ t, connectedFrom g 0 → Algorithms.prim fuel g = .ok t →
      t.entryCount = 2 * (g.n.toNat - 1)) ∧
    (∀ t, connectedFrom g 0 → Algorithms.kruskal fuel g = .ok t →
      t.entryCount = 2 * (g.n.toNat - 1)) := by
  refine ⟨?_, ?_, ?_⟩
  · intro start t hs0 hsn hconn hrun
    exact dijkstra_count_ok g B fuel start t hwfb hwfe hwn hwle hB0 hBn
      hs0 hsn hconn hrun
  · intro t hconn hrun
    have h1 : (1 : Int) * B ≤ g.n * B :=
      mul_le_mul_of_nonneg_right (by omega) hB0
    have hBI : B < INTMAX := by
      rw [one_mul] at h1
      omega
    exact prim_count_ok g B fuel t hwfb hwfe hwn hwle hBI hconn hrun
  · intro t hconn hrun
    exact kruskal_count_ok g fuel t hwfb hwfe hsym hn hconn hrun

/-- Witness for the amended C1 at a concrete input: on the triangle graph
all three algorithms return the same spanning tree with
`2(3-1) = 4` adjacency entries. -/
theorem claim_C1_witness :
    triG.wfBasic ∧ triG.wfEntries ∧ triG.wNonneg ∧ triG.wLE 5 ∧
    (0 : Int) ≤ 5 ∧ triG.n * 5 < INTMAX ∧ triG.symEntries ∧ (0 : Int) < triG.n ∧
    connectedFrom triG 0 ∧
    Algorithms.dijkstra 20 triG 0 =
      .ok (Graph.mk 3 [[(1, 1)], [(2, 2), (0, 1)], [(1, 2)]]) ∧
    Algorithms.prim 20 triG =
      .ok (Graph.mk 3 [[(1, 1)], [(2, 2), (0, 1)], [(1, 2)]]) ∧
    Algorithms.kruskal 20 triG =
      .ok (Graph.mk 3 [[(1, 1)], [(2, 2), (0, 1)], [(1, 2)]]) ∧
    (Graph.mk 3 [[(1, 1)], [(2, 2), (0, 1)], [(1, 2)]]).entryCount =
      2 * (triG.n.toNat - 1) := by
  have hm := claim_C1_spanning_count triG 5 20 (by decide) (by decide) (by decide)
    (by decide) (by decide) (by decide) (by decide) (by decide)
  refine ⟨by decide, by decide, by decide, by decide, by decide, by decide,
    by decide, by decide, by decide, by rfl, by rfl, by rfl, ?_⟩
  exact hm.1 0 (Graph.mk 3 [[(1, 1)], [(2, 2), (0, 1)], [(1, 2)]])
    (by decide) (by decide) (by decide) (by rfl)

end GA
